import Mathlib

/-!
# graph_analysis: a verification development for `grafo.c`

Shallow embedding of the graph library of `src/grafo.c` / `src/grafo.h`.

Modelling conventions.
* A C `int` is a Lean `Int`.  The edge counter `g->m` is kept in 32 bits: `g->m++` stores
  `int32 (m + 1)`, the two's-complement wrap-around of the incremented value, and `%d` of
  `fscanf` stores `scan_d z` for a numeral of value `z`.  The degrees `deg[i]`, the indices
  and the levels never exceed `n` (theorem `contadores_limitados`), so no wrap-around is
  modelled for them.
* A C array is a `List`; a `NULL` array is the empty list.  Every array access goes through
  `rd` / `wr`, which fail with `Fault.oob` when the index is outside the array, so an
  out-of-bounds access of the C code is an observable outcome of the model.
* A fresh or grown block is zero-filled.  `grafo_criar`, `ensure_capacity` and
  `grafo_adicionar_aresta` are the functions with every `malloc`, `calloc` and `realloc`
  succeeding; `grafo_criar_mem`, `ensure_capacity_mem` and `grafo_adicionar_aresta_mem` take
  the outcome of each allocation as a parameter, follow the `return -1` / `return NULL` paths
  of a failed one, and agree with the former when every outcome is success.  The traversals
  are modelled with their allocations succeeding.
* `while` loops whose bound is not syntactically fixed take a fuel argument and fail with
  `Fault.fuel` when it runs out.
* The graph pointer is never `NULL`.
-/

namespace GA

/-! ## Memory model -/

/-- Outcome of a run that does not return normally. -/
inductive Fault where
  | oob
  | fuel
  deriving DecidableEq, Repr

deriving instance DecidableEq for Except

/-- Checked array read `a[i]`. -/
def rd {α : Type} (a : List α) (i : Int) : Except Fault α :=
  if i < 0 then .error .oob
  else match a[i.toNat]? with
    | some x => .ok x
    | none => .error .oob

/-- Checked array write `a[i] = x`. -/
def wr {α : Type} (a : List α) (i : Int) (x : α) : Except Fault (List α) :=
  if 0 ≤ i ∧ i < a.length then .ok (a.set i.toNat x) else .error .oob

/-- The largest value of a C `int` (32 bits). -/
def INT_MAX : Int := 2147483647

/-- The value a 32-bit `int` holds after arithmetic whose exact result is `z`: `z` reduced
modulo `2^32` into `[-2^31, 2^31)`.  This is the two's-complement wrap-around that `x++`
and a narrowing store perform on the usual platforms; the C standard leaves the overflow of
`x++` undefined. -/
def int32 (z : Int) : Int := (z + 2147483648) % 4294967296 - 2147483648

/-! ## Data model (`grafo.h`) -/

/-- The enum `Representation`. -/
inductive Representation where
  | REP_LIST
  | REP_MATRIX
  deriving DecidableEq, Repr

/-- The struct `Grafo`.  The counter `m` is an `int`: `grafo_adicionar_aresta` keeps it
within 32 bits (`int32`, theorem `m_cabe_int`). -/
structure Grafo where
  n : Int
  m : Int
  direcionado : Int
  rep : Representation
  deg : List Int
  adj : List (List Int)
  cap : List Int
  mat : List Int
  deriving DecidableEq, Repr

/-! ## Construction and edge insertion (`grafo.c`) -/

/-- Function `grafo_criar` when its allocations succeed (`grafo_criar_mem aloc_ok`, theorem
`criar_mem_ok`): `none` is the `NULL` result. -/
def grafo_criar (n : Int) (rep : Representation) (direcionado : Int) : Option Grafo :=
  if n ≤ 0 then none
  else some
    { n := n
      m := 0
      direcionado := if direcionado ≠ 0 then 1 else 0
      rep := rep
      deg := List.replicate n.toNat 0
      adj := if rep = .REP_LIST then List.replicate n.toNat [] else []
      cap := if rep = .REP_LIST then List.replicate n.toNat 0 else []
      mat := if rep = .REP_LIST then [] else List.replicate (n.toNat * n.toNat) 0 }

/-- Call `realloc(old, newcap * sizeof(int))`: the old contents, cut or zero-extended to
`newcap`. -/
def realloc (old : List Int) (newcap : Int) : List Int :=
  old.take newcap.toNat ++ List.replicate (newcap.toNat - old.length) 0

/-- Function `ensure_capacity` when its allocation succeeds (`ensure_capacity_mem true`,
theorem `ensure_capacity_mem_ok`; the `return -1` of a failed `malloc` or `realloc` is
followed in `ensure_capacity_mem`): returns the status code and the updated graph. -/
def ensure_capacity (g : Grafo) (v0 : Int) : Except Fault (Int × Grafo) := do
  let v := v0 - 1
  let cap ← rd g.cap v
  if cap = 0 then
    let newcap : Int := 4
    let arr := List.replicate newcap.toNat (0 : Int)
    let adj ← wr g.adj v arr
    let cap1 ← wr g.cap v newcap
    pure (0, { g with adj := adj, cap := cap1 })
  else
    let d ← rd g.deg v
    if d ≥ cap then
      let newcap := cap * 2
      let old ← rd g.adj v
      let adj ← wr g.adj v (realloc old newcap)
      let cap1 ← wr g.cap v newcap
      pure (0, { g with adj := adj, cap := cap1 })
    else pure (0, g)

/-- The duplicate scan `for(i...) if(g->adj[ui][i] == v){ exists = 1; break; }`
over the index list `is`. -/
def existe (adj : List (List Int)) (ui v : Int) : List Nat → Except Fault Bool
  | [] => pure false
  | i :: is => do
    let row ← rd adj ui
    let x ← rd row i
    if x = v then pure true else existe adj ui v is

/-- The statement `g->adj[ui][g->deg[ui]++] = v`. -/
def anexar (g : Grafo) (ui v : Int) : Except Fault Grafo := do
  let d ← rd g.deg ui
  let row ← rd g.adj ui
  let row1 ← wr row d v
  let adj ← wr g.adj ui row1
  let deg ← wr g.deg ui (d + 1)
  pure { g with adj := adj, deg := deg }

/-- One half of the list branch of `grafo_adicionar_aresta`: scan `adj[ui]` for `v` and
append it when absent.  Returns `(status, appended, graph)`; a nonzero status is the early
`return -1`. -/
def lista_meia (g : Grafo) (u v : Int) : Except Fault (Int × Int × Grafo) := do
  let ui := u - 1
  let d ← rd g.deg ui
  let ex ← existe g.adj ui v (List.range d.toNat)
  if ex then pure (0, 0, g)
  else
    let (rc, g1) ← ensure_capacity g u
    if rc ≠ 0 then pure (-1, 0, g1)
    else
      let g2 ← anexar g1 ui v
      pure (0, 1, g2)

/-- The matrix branch of `grafo_adicionar_aresta`. Returns `(added_edge, graph)`. -/
def matriz_inserir (g : Grafo) (ui vi : Int) : Except Fault (Int × Grafo) := do
  let idx := ui * g.n + vi
  let c ← rd g.mat idx
  if c = 0 then
    let mat1 ← wr g.mat idx 1
    let du ← rd g.deg ui
    let deg1 ← wr g.deg ui (du + 1)
    if g.direcionado = 0 then
      let idx2 := vi * g.n + ui
      let c2 ← rd mat1 idx2
      if c2 = 0 then
        let mat2 ← wr mat1 idx2 1
        let dv ← rd deg1 vi
        let deg2 ← wr deg1 vi (dv + 1)
        pure (1, { g with mat := mat2, deg := deg2 })
      else pure (1, { g with mat := mat1, deg := deg1 })
    else pure (1, { g with mat := mat1, deg := deg1 })
  else pure (0, g)

/-- Function `grafo_adicionar_aresta` when its allocations succeed
(`grafo_adicionar_aresta_mem true true`, theorem `inserir_mem_ok`): returns the status code
and the graph after the call.  The increment `g->m++` of the `int` counter wraps at
`INT_MAX`. -/
def grafo_adicionar_aresta (g : Grafo) (u v : Int) : Except Fault (Int × Grafo) :=
  if u < 1 ∨ u > g.n ∨ v < 1 ∨ v > g.n then pure (-1, g)
  else
    let ui := u - 1
    let vi := v - 1
    match g.rep with
    | .REP_LIST => do
      let (rc1, added_edge, g1) ← lista_meia g u v
      if rc1 ≠ 0 then pure (-1, g1)
      else if g1.direcionado = 0 then
        let (rc2, _, g2) ← lista_meia g1 v u
        if rc2 ≠ 0 then pure (-1, g2)
        else pure (0, if added_edge ≠ 0 then { g2 with m := int32 (g2.m + 1) } else g2)
      else pure (0, if added_edge ≠ 0 then { g1 with m := int32 (g1.m + 1) } else g1)
    | .REP_MATRIX => do
      let (added_edge, g1) ← matriz_inserir g ui vi
      pure (0, if added_edge ≠ 0 then { g1 with m := int32 (g1.m + 1) } else g1)

/-- Function `grafo_grau`: the status `-1` or the stored degree. -/
def grafo_grau (g : Grafo) (v : Int) : Except Fault Int :=
  if v < 1 ∨ v > g.n then pure (-1) else rd g.deg (v - 1)

/-- Function `grafo_num_arestas`. -/
def grafo_num_arestas (g : Grafo) : Int := g.m

/-- A sequence of `grafo_adicionar_aresta` calls; returns the status codes in call order
and the final graph. -/
def inserir_seq (g : Grafo) : List (Int × Int) → Except Fault (List Int × Grafo)
  | [] => pure ([], g)
  | (u, v) :: ops => do
    let (rc, g1) ← grafo_adicionar_aresta g u v
    let (rcs, g2) ← inserir_seq g1 ops
    pure (rc :: rcs, g2)



/-! ## Traversals (`grafo.c`) -/

/-- A `for` loop over the index list `is`, threading the state through the body. -/
def para {σ : Type} (corpo : Nat → σ → Except Fault σ) : List Nat → σ → Except Fault σ
  | [], st => pure st
  | i :: is, st => do
    let st1 ← corpo i st
    para corpo is st1

/-- The neighbour scan that `grafo_bfs`, `grafo_dfs` and `grafo_componentes` each spell out:
for a list graph `for(i=0;i<g->deg[u];i++){ int v = g->adj[u][i]-1; ... }`, for a matrix graph
`for(v=0;v<n;v++){ if(g->mat[u*n+v]){ ... } }`.  `visita v` is the loop body for the 0-based
neighbour `v`. -/
def varre {σ : Type} (g : Grafo) (u : Int) (visita : Int → σ → Except Fault σ) (st : σ) :
    Except Fault σ :=
  match g.rep with
  | .REP_LIST => do
    let d ← rd g.deg u
    para (fun i st => do
      let row ← rd g.adj u
      let x ← rd row i
      visita (x - 1) st) (List.range d.toNat) st
  | .REP_MATRIX =>
    para (fun v st => do
      let c ← rd g.mat (u * g.n + v)
      if c ≠ 0 then visita v st else pure st) (List.range g.n.toNat) st

/-- Working arrays of `grafo_bfs`: `pai`, `nivel`, the queue `q` and its tail index `qt`. -/
structure BfsEstado where
  pai : List Int
  nivel : List Int
  q : List Int
  qt : Int
  deriving DecidableEq, Repr

/-- Body of the scan in `grafo_bfs`:
`if(nivel[v] == -1){ nivel[v] = nivel[u] + 1; pai[v] = u+1; q[qt++] = v; }`. -/
def bfs_visita (u v : Int) (st : BfsEstado) : Except Fault BfsEstado := do
  let nv ← rd st.nivel v
  if nv = -1 then
    let nu ← rd st.nivel u
    let nivel ← wr st.nivel v (nu + 1)
    let pai ← wr st.pai v (u + 1)
    let q ← wr st.q st.qt v
    pure { pai := pai, nivel := nivel, q := q, qt := st.qt + 1 }
  else pure st

/-- The loop `while(qh < qt){ int u = q[qh++]; ... }` of `grafo_bfs`, with fuel. -/
def bfs_laco (g : Grafo) : Nat → Int → BfsEstado → Except Fault BfsEstado
  | 0, qh, st => if qh < st.qt then .error .fuel else pure st
  | k + 1, qh, st =>
    if qh < st.qt then do
      let u ← rd st.q qh
      let st1 ← varre g u (bfs_visita u) st
      bfs_laco g k (qh + 1) st1
    else pure st

/-- Function `grafo_bfs` up to the end of its loop: the final working arrays. -/
def bfs_exec (fuel : Nat) (g : Grafo) (inicio : Int) : Except Fault BfsEstado := do
  let n := g.n
  let pai := List.replicate n.toNat (0 : Int)
  let nivel := List.replicate n.toNat (-1 : Int)
  let s := inicio - 1
  let q := List.replicate n.toNat (0 : Int)
  let q1 ← wr q 0 s
  let nivel1 ← wr nivel s 0
  let pai1 ← wr pai s (-1)
  bfs_laco g fuel 0 { pai := pai1, nivel := nivel1, q := q1, qt := 1 }

/-- Function `grafo_bfs`: returns `(pai, nivel)`, the returned parent array and `*out_level`. -/
def grafo_bfs (fuel : Nat) (g : Grafo) (inicio : Int) : Except Fault (List Int × List Int) := do
  let st ← bfs_exec fuel g inicio
  pure (st.pai, st.nivel)

/-- Call of `grafo_criar` followed by a sequence of `grafo_adicionar_aresta` calls. -/
def construir (n : Int) (rep : Representation) (dir : Int) (ops : List (Int × Int)) :
    Option Grafo :=
  match grafo_criar n rep dir with
  | none => none
  | some g =>
    match inserir_seq g ops with
    | .ok (_, g1) => some g1
    | .error _ => none

/-- Working arrays of the inner traversal of `grafo_componentes`: the visited marks, the
stack with its pointer `sp`, and the member buffer with its fill count `mem_sz`. -/
structure CompEstado where
  vis : List Int
  stack : List Int
  sp : Int
  members : List Int
  mem_sz : Int
  deriving DecidableEq, Repr

/-- Body of the scan in `grafo_componentes`: `if(!vis[v]){ vis[v]=1; stack[sp++]=v; }`. -/
def comp_visita (v : Int) (st : CompEstado) : Except Fault CompEstado := do
  let b ← rd st.vis v
  if b = 0 then
    let vis ← wr st.vis v 1
    let stack ← wr st.stack st.sp v
    pure { st with vis := vis, stack := stack, sp := st.sp + 1 }
  else pure st

/-- The loop `while(sp>0){ int u = stack[--sp]; members[mem_sz++] = u+1; ... }` of
`grafo_componentes`, with fuel. -/
def comp_laco (g : Grafo) : Nat → CompEstado → Except Fault CompEstado
  | 0, st => if st.sp > 0 then .error .fuel else pure st
  | k + 1, st =>
    if st.sp > 0 then do
      let sp1 := st.sp - 1
      let u ← rd st.stack sp1
      let members ← wr st.members st.mem_sz (u + 1)
      let st1 ← varre g u comp_visita
        { st with sp := sp1, members := members, mem_sz := st.mem_sz + 1 }
      comp_laco g k st1
    else pure st

/-- State of the outer loop of `grafo_componentes`. -/
structure CompTotal where
  vis : List Int
  stack : List Int
  comps : List (List Int)
  sizes : List Int
  comp_count : Int
  deriving DecidableEq, Repr

/-- One iteration of `for(int i=0;i<n;i++){ if(vis[i]) continue; ... comp_count++; }`. -/
def comp_semente (fuel : Nat) (g : Grafo) (i : Nat) (t : CompTotal) :
    Except Fault CompTotal := do
  let b ← rd t.vis i
  if b ≠ 0 then pure t
  else
    let stack ← wr t.stack 0 (i : Int)
    let vis ← wr t.vis i 1
    let members := List.replicate g.n.toNat (0 : Int)
    let st ← comp_laco g fuel
      { vis := vis, stack := stack, sp := 1, members := members, mem_sz := 0 }
    let m_shr := realloc st.members st.mem_sz
    let comps ← wr t.comps t.comp_count (if m_shr ≠ [] then m_shr else st.members)
    let sizes ← wr t.sizes t.comp_count st.mem_sz
    pure { vis := st.vis, stack := st.stack, comps := comps, sizes := sizes,
           comp_count := t.comp_count + 1 }

/-- Function `grafo_componentes` up to the end of its outer loop. -/
def comp_exec (fuel : Nat) (g : Grafo) : Except Fault CompTotal :=
  let n := g.n
  para (comp_semente fuel g) (List.range n.toNat)
    { vis := List.replicate n.toNat 0, stack := List.replicate n.toNat 0,
      comps := List.replicate n.toNat [], sizes := List.replicate n.toNat 0,
      comp_count := 0 }

/-- Function `grafo_componentes`: returns `(comp_count, *out_components, *out_sizes)`; the returned
components are the first `comp_count` entries of the two arrays. -/
def grafo_componentes (fuel : Nat) (g : Grafo) :
    Except Fault (Int × List (List Int) × List Int) := do
  let t ← comp_exec fuel g
  pure (t.comp_count, t.comps, t.sizes)
/-! ## Abstract reading of the representation -/

/-- The used prefix of `adj[i]`: its first `deg[i]` entries (what `grafo_imprimir` prints for
vertex `i + 1` of a list graph). -/
def fila (g : Grafo) (i : Nat) : List Int :=
  (g.adj.getD i []).take (g.deg.getD i 0).toNat

/-- Vertex `j + 1` is stored as a neighbour of vertex `i + 1` (0-based indices): an entry of
the used prefix of `adj[i]` for a list graph, a nonzero cell `mat[i*n + j]` for a matrix
graph. -/
def arco (g : Grafo) (i j : Nat) : Prop :=
  match g.rep with
  | .REP_LIST => ((j : Int) + 1) ∈ fila g i
  | .REP_MATRIX => g.mat.getD (i * g.n.toNat + j) 0 ≠ 0

instance (g : Grafo) (i j : Nat) : Decidable (arco g i j) := by
  unfold arco
  split <;> infer_instance

/-- Vertex `v` is stored as a neighbour of vertex `u` (1-based ids in `1..n`). -/
def vizinho (g : Grafo) (u v : Int) : Prop :=
  1 ≤ u ∧ u ≤ g.n ∧ 1 ≤ v ∧ v ≤ g.n ∧ arco g (u - 1).toNat (v - 1).toNat

instance (g : Grafo) (u v : Int) : Decidable (vizinho g u v) := by
  unfold vizinho
  infer_instance

/-- Path relation `Caminho g s v k`: a path of `k` stored edges leads from vertex `s` to vertex `v`
(1-based ids). -/
inductive Caminho (g : Grafo) (s : Int) : Int → Nat → Prop where
  | inicio : Caminho g s s 0
  | passo (v w : Int) (k : Nat) : Caminho g s v k → vizinho g v w → Caminho g s w (k + 1)

/-- The stored neighbours of the 0-based vertex `u` in scan order, as 0-based indices:
the used prefix of `adj[u]` for a list graph, the nonzero columns of row `u` in increasing
order for a matrix graph. -/
def viz_lista (g : Grafo) (u : Nat) : List Nat :=
  match g.rep with
  | .REP_LIST => (fila g u).map (fun x => (x - 1).toNat)
  | .REP_MATRIX => (List.range g.n.toNat).filter (fun w => g.mat.getD (u * g.n.toNat + w) 0 ≠ 0)

/-- Shape of the arrays of a list graph over `N` vertices: three arrays of length `N`, and
for every vertex `0 ≤ deg[i] ≤ cap[i]` with `adj[i]` a block of `cap[i]` slots. -/
def Forma (g : Grafo) (N : Nat) : Prop :=
  g.deg.length = N ∧ g.adj.length = N ∧ g.cap.length = N ∧
  ∀ i, i < N → 0 ≤ g.deg.getD i 0 ∧ g.deg.getD i 0 ≤ g.cap.getD i 0 ∧
    (g.adj.getD i []).length = (g.cap.getD i 0).toNat

/-- Effect of one in-range call `grafo_adicionar_aresta(g, i+1, j+1)` taking `g` to `g1`,
read through `arco`: the header is kept, an edge already stored leaves the graph as it is,
and otherwise exactly the arc `i → j` (and `j → i` when undirected) is added, with the
degree and edge counters following. -/
structure Passo (g g1 : Grafo) (N i j : Nat) : Prop where
  n_eq : g1.n = g.n
  rep_eq : g1.rep = g.rep
  dir_eq : g1.direcionado = g.direcionado
  deg_len : g1.deg.length = g.deg.length
  mesmo : arco g i j → g1 = g
  arco_iff : ∀ a b, a < N → b < N →
    (arco g1 a b ↔ arco g a b ∨ (a = i ∧ b = j) ∨ (g.direcionado = 0 ∧ a = j ∧ b = i))
  deg_eq : ∀ a, a < N → g1.deg.getD a 0 = g.deg.getD a 0 +
    if ¬ arco g i j ∧ (a = i ∨ (g.direcionado = 0 ∧ a = j)) then 1 else 0
  m_eq : g1.m = if arco g i j then g.m else int32 (g.m + 1)

/-- Number of distinct stored neighbours of vertex `i + 1`. -/
def num_vizinhos (g : Grafo) (i : Nat) : Nat :=
  ((Finset.range g.n.toNat).filter (fun j => arco g i j)).card

/-- Number of ordered pairs `(u, v)` with `v` stored as a neighbour of `u`. -/
def pares_ordenados (g : Grafo) : Nat :=
  ((Finset.range g.n.toNat ×ˢ Finset.range g.n.toNat).filter
    (fun p => arco g p.1 p.2)).card

/-- Number of unordered pairs `{u, v}` (self-loops included) with one of them stored as a
neighbour of the other; each pair is represented by its ordered form `u ≤ v`. -/
def pares_nao_ordenados (g : Grafo) : Nat :=
  ((Finset.range g.n.toNat ×ˢ Finset.range g.n.toNat).filter
    (fun p => p.1 ≤ p.2 ∧ (arco g p.1 p.2 ∨ arco g p.2 p.1))).card

/-- Number of distinct stored edges: unordered pairs for an undirected graph, ordered pairs
for a directed one. -/
def num_arestas_armazenadas (g : Grafo) : Nat :=
  if g.direcionado = 0 then pares_nao_ordenados g else pares_ordenados g

/-- Representation invariant of the graphs built by `grafo_criar` and
`grafo_adicionar_aresta`; the 32-bit counter `m` holds the number of stored edges modulo
`2^32`. -/
structure Inv (g : Grafo) : Prop where
  n_pos : 1 ≤ g.n
  dir01 : g.direcionado = 0 ∨ g.direcionado = 1
  deg_len : g.deg.length = g.n.toNat
  forma : g.rep = .REP_LIST → Forma g g.n.toNat
  fila_nodup : g.rep = .REP_LIST → ∀ i, i < g.n.toNat → (fila g i).Nodup
  fila_range : g.rep = .REP_LIST → ∀ i, i < g.n.toNat → ∀ x ∈ fila g i, 1 ≤ x ∧ x ≤ g.n
  mat_len : g.rep = .REP_MATRIX → g.mat.length = g.n.toNat * g.n.toNat
  deg_eq : ∀ i, i < g.n.toNat → g.deg.getD i 0 = (num_vizinhos g i : Int)
  sim : g.direcionado = 0 → ∀ i j, i < g.n.toNat → j < g.n.toNat → arco g i j → arco g j i
  m_eq : g.m = int32 (num_arestas_armazenadas g : Int)

/-- The graphs reachable from `grafo_criar` by `grafo_adicionar_aresta` calls. -/
inductive Alcancavel : Grafo → Prop where
  | criar (n : Int) (rep : Representation) (dir : Int) (g : Grafo) :
      grafo_criar n rep dir = some g → Alcancavel g
  | inserir (g : Grafo) (u v rc : Int) (g1 : Grafo) :
      Alcancavel g → grafo_adicionar_aresta g u v = .ok (rc, g1) → Alcancavel g1

/-! ## Example graphs -/

/-- The empty undirected list graph on three vertices, `grafo_criar(3, REP_LIST, 0)`. -/
def ex_lista3 : Grafo :=
  { n := 3, m := 0, direcionado := 0, rep := .REP_LIST, deg := [0, 0, 0],
    adj := [[], [], []], cap := [0, 0, 0], mat := [] }

/-- The empty undirected matrix graph on three vertices, `grafo_criar(3, REP_MATRIX, 0)`. -/
def ex_matriz3_vazio : Grafo :=
  { n := 3, m := 0, direcionado := 0, rep := .REP_MATRIX, deg := [0, 0, 0],
    adj := [], cap := [], mat := [0, 0, 0, 0, 0, 0, 0, 0, 0] }

/-- The undirected matrix graph on three vertices after inserting the edge `(1,2)`. -/
def ex_matriz3 : Grafo :=
  { n := 3, m := 1, direcionado := 0, rep := .REP_MATRIX, deg := [1, 1, 0],
    adj := [], cap := [], mat := [0, 1, 0, 1, 0, 0, 0, 0, 0] }

/-! ## Invariants of `grafo_bfs` -/

/-- Level recorded for the 0-based vertex `x`. -/
def nivel_de (st : BfsEstado) (x : Int) : Int := st.nivel.getD x.toNat (-1)

/-- The written part of the queue, `q[0..qt)`. -/
def fila_q (st : BfsEstado) : List Int := st.q.take st.qt.toNat

/-- What holds of the working arrays of `grafo_bfs` started at the 0-based vertex `S`, at
every point of the run: the queue holds each discovered vertex once, and a recorded level is
the length of some path from the start. -/
structure BfsInv (g : Grafo) (S : Nat) (st : BfsEstado) : Prop where
  qt_nonneg : 0 ≤ st.qt
  pai_len : st.pai.length = g.n.toNat
  nivel_len : st.nivel.length = g.n.toNat
  q_len : st.q.length = g.n.toNat
  qt_le : st.qt ≤ g.n
  q_range : ∀ x ∈ fila_q st, 0 ≤ x ∧ x < g.n
  q_nodup : (fila_q st).Nodup
  vis_iff : ∀ x : Int, 0 ≤ x → x < g.n → (nivel_de st x ≠ -1 ↔ x ∈ fila_q st)
  som : ∀ x : Int, 0 ≤ x → x < g.n → nivel_de st x ≠ -1 →
    0 ≤ nivel_de st x ∧ Caminho g ((S : Int) + 1) (x + 1) (nivel_de st x).toNat
  s_zero : nivel_de st (S : Int) = 0

/-- Ordering facts while the neighbours of the dequeued vertex `u = q[H]` are scanned. -/
structure BfsMeio (g : Grafo) (st : BfsEstado) (H : Nat) (u : Int) : Prop where
  u_eq : (fila_q st)[H]? = some u
  lim : ∀ x ∈ fila_q st, nivel_de st x ≤ nivel_de st u + 1
  ord : ((fila_q st).drop (H + 1)).Pairwise (fun x y => nivel_de st x ≤ nivel_de st y)
  piso : ∀ y ∈ (fila_q st).drop (H + 1), nivel_de st u ≤ nivel_de st y
  proc : ∀ x ∈ (fila_q st).take H, ∀ w, vizinho g (x + 1) (w + 1) →
    nivel_de st w ≠ -1 ∧ nivel_de st w ≤ nivel_de st x + 1

/-- Ordering facts at the head of the `while` loop with `qh = H`. -/
structure BfsTopo (g : Grafo) (st : BfsEstado) (H : Nat) : Prop where
  h_le : (H : Int) ≤ st.qt
  lim : ∀ x ∈ fila_q st, ∀ y ∈ (fila_q st).drop H, nivel_de st x ≤ nivel_de st y + 1
  ord : ((fila_q st).drop H).Pairwise (fun x y => nivel_de st x ≤ nivel_de st y)
  proc : ∀ x ∈ (fila_q st).take H, ∀ w, vizinho g (x + 1) (w + 1) →
    nivel_de st w ≠ -1 ∧ nivel_de st w ≤ nivel_de st x + 1

/-! ## Invariants of `grafo_componentes` -/

/-- Vertex `v` can be reached from vertex `u` along stored edges (1-based ids). -/
def Liga (g : Grafo) (u v : Int) : Prop := ∃ k, Caminho g u v k

/-- The visited mark of the 0-based vertex `x`. -/
def vis_de (vis : List Int) (x : Int) : Int := vis.getD x.toNat 0

/-- The live part of the stack, `stack[0..sp)`. -/
def pilha (st : CompEstado) : List Int := st.stack.take st.sp.toNat

/-- The members collected so far, `members[0..mem_sz)` (1-based ids). -/
def membros (st : CompEstado) : List Int := st.members.take st.mem_sz.toNat

/-- The members collected so far as 0-based indices. -/
def membros0 (st : CompEstado) : List Int := (membros st).map (fun a => a - 1)

/-- Every stored neighbour of every vertex of `L` (0-based) is marked visited. -/
def Proc (g : Grafo) (vis : List Int) (L : List Int) : Prop :=
  ∀ x ∈ L, ∀ w, vizinho g (x + 1) (w + 1) → vis_de vis w ≠ 0

/-- What holds of the working arrays during the traversal started at the seed `i` (0-based),
where `vis0` are the visited marks before the seed: the stack and the member buffer hold,
without repetition, exactly the vertices marked since, and all of them are reachable from the
seed. -/
structure CompInv (g : Grafo) (vis0 : List Int) (i : Int) (st : CompEstado) : Prop where
  vis_len : st.vis.length = g.n.toNat
  stack_len : st.stack.length = g.n.toNat
  members_len : st.members.length = g.n.toNat
  sp_nonneg : 0 ≤ st.sp
  mem_nonneg : 0 ≤ st.mem_sz
  cabe : st.sp + st.mem_sz ≤ g.n
  nodup : (pilha st ++ membros0 st).Nodup
  faixa : ∀ x ∈ pilha st ++ membros0 st, 0 ≤ x ∧ x < g.n
  vis_iff : ∀ x, 0 ≤ x → x < g.n →
    (vis_de st.vis x ≠ 0 ↔ (vis_de vis0 x ≠ 0 ∨ x ∈ pilha st ++ membros0 st))
  novo : ∀ x ∈ pilha st ++ membros0 st, vis_de vis0 x = 0
  liga : ∀ x ∈ pilha st ++ membros0 st, Liga g (i + 1) (x + 1)

/-- The components returned so far, `comps[0..comp_count)`. -/
def comps_de (t : CompTotal) : List (List Int) := t.comps.take t.comp_count.toNat

/-- What holds of the outer loop of `grafo_componentes` once the seeds `0..i-1` are done:
every seed up to there is marked, and the marked vertices are exactly the members of the
components returned so far. -/
structure TotInv (g : Grafo) (t : CompTotal) (i : Nat) : Prop where
  vis_len : t.vis.length = g.n.toNat
  stack_len : t.stack.length = g.n.toNat
  comps_len : t.comps.length = g.n.toNat
  sizes_len : t.sizes.length = g.n.toNat
  cnt_nonneg : 0 ≤ t.comp_count
  cnt_le : t.comp_count ≤ i
  visto : ∀ x : Int, 0 ≤ x → x < i → vis_de t.vis x ≠ 0
  cobre : ∀ x, 0 ≤ x → x < g.n → (vis_de t.vis x ≠ 0 ↔ ∃ c ∈ comps_de t, (x + 1) ∈ c)
  tamanhos : ∀ j : Nat, (j : Int) < t.comp_count →
    t.sizes.getD j 0 = ((t.comps.getD j []).length : Int)

/-- Outcome of the allocations of one call of `grafo_criar`, in program order: the struct
`g`, the array `deg`, and then `adj` and `cap` (list graph) or `mat` (matrix graph). -/
structure Aloc where
  g : Bool
  deg : Bool
  adj : Bool
  cap : Bool
  mat : Bool
  deriving DecidableEq, Repr

/-- Every allocation of `grafo_criar` succeeds. -/
def aloc_ok : Aloc := { g := true, deg := true, adj := true, cap := true, mat := true }

/-- Function `grafo_criar` with the outcome of its allocations: `NULL` for `n ≤ 0`, when the
struct cannot be allocated, and when `adj` or `cap` (list) or `mat` (matrix) cannot; the
result of `calloc` for `deg` is not tested by the code, so a failed one leaves
`deg = NULL` in the graph returned. -/
def grafo_criar_mem (al : Aloc) (n : Int) (rep : Representation) (direcionado : Int) :
    Option Grafo :=
  if n ≤ 0 then none
  else if !al.g then none
  else
    let deg := if al.deg then List.replicate n.toNat (0 : Int) else []
    match rep with
    | .REP_LIST =>
      if !al.adj || !al.cap then none
      else some
        { n := n
          m := 0
          direcionado := if direcionado ≠ 0 then 1 else 0
          rep := rep
          deg := deg
          adj := List.replicate n.toNat []
          cap := List.replicate n.toNat 0
          mat := [] }
    | .REP_MATRIX =>
      if !al.mat then none
      else some
        { n := n
          m := 0
          direcionado := if direcionado ≠ 0 then 1 else 0
          rep := rep
          deg := deg
          adj := []
          cap := []
          mat := List.replicate (n.toNat * n.toNat) 0 }

/-- Function `ensure_capacity` with the outcome `al` of the allocation it attempts (`malloc`
for a list without a block, `realloc` for a full block): on `NULL` it returns `-1` and
leaves the graph as it is. -/
def ensure_capacity_mem (al : Bool) (g : Grafo) (v0 : Int) : Except Fault (Int × Grafo) := do
  let v := v0 - 1
  let cap ← rd g.cap v
  if cap = 0 then
    let newcap : Int := 4
    if !al then pure (-1, g)
    else
      let arr := List.replicate newcap.toNat (0 : Int)
      let adj ← wr g.adj v arr
      let cap1 ← wr g.cap v newcap
      pure (0, { g with adj := adj, cap := cap1 })
  else
    let d ← rd g.deg v
    if d ≥ cap then
      let newcap := cap * 2
      let old ← rd g.adj v
      if !al then pure (-1, g)
      else
        let adj ← wr g.adj v (realloc old newcap)
        let cap1 ← wr g.cap v newcap
        pure (0, { g with adj := adj, cap := cap1 })
    else pure (0, g)

/-- One half of the list branch of `grafo_adicionar_aresta` (see `lista_meia`), with the
outcome `al` of the allocation of its `ensure_capacity` call. -/
def lista_meia_mem (al : Bool) (g : Grafo) (u v : Int) : Except Fault (Int × Int × Grafo) := do
  let ui := u - 1
  let d ← rd g.deg ui
  let ex ← existe g.adj ui v (List.range d.toNat)
  if ex then pure (0, 0, g)
  else
    let (rc, g1) ← ensure_capacity_mem al g u
    if rc ≠ 0 then pure (-1, 0, g1)
    else
      let g2 ← anexar g1 ui v
      pure (0, 1, g2)

/-- Function `grafo_adicionar_aresta` with the outcomes `al1`, `al2` of the allocations of
its first and second `ensure_capacity` call: a failed one is the `return -1` of the list
branch, the second one after `adj[ui]` and `deg[ui]` were already changed.  The matrix branch
allocates nothing. -/
def grafo_adicionar_aresta_mem (al1 al2 : Bool) (g : Grafo) (u v : Int) :
    Except Fault (Int × Grafo) :=
  if u < 1 ∨ u > g.n ∨ v < 1 ∨ v > g.n then pure (-1, g)
  else
    let ui := u - 1
    let vi := v - 1
    match g.rep with
    | .REP_LIST => do
      let (rc1, added_edge, g1) ← lista_meia_mem al1 g u v
      if rc1 ≠ 0 then pure (-1, g1)
      else if g1.direcionado = 0 then
        let (rc2, _, g2) ← lista_meia_mem al2 g1 v u
        if rc2 ≠ 0 then pure (-1, g2)
        else pure (0, if added_edge ≠ 0 then { g2 with m := int32 (g2.m + 1) } else g2)
      else pure (0, if added_edge ≠ 0 then { g1 with m := int32 (g1.m + 1) } else g1)
    | .REP_MATRIX => do
      let (added_edge, g1) ← matriz_inserir g ui vi
      pure (0, if added_edge ≠ 0 then { g1 with m := int32 (g1.m + 1) } else g1)

/-- The outcomes of the two allocations of the next `grafo_adicionar_aresta` call in a list
of such outcomes; past the end of the list every allocation succeeds. -/
def prox_aloc (als : List (Bool × Bool)) : Bool × Bool := als.headD (true, true)

/-- A sequence of `grafo_adicionar_aresta` calls, the `k`-th of them with the allocation
outcomes `als[k]`; returns the final graph. -/
def inserir_seq_mem : List (Bool × Bool) → Grafo → List (Int × Int) → Except Fault Grafo
  | _, g, [] => pure g
  | als, g, (u, v) :: ops => do
    let (_, g1) ← grafo_adicionar_aresta_mem (prox_aloc als).1 (prox_aloc als).2 g u v
    inserir_seq_mem als.tail g1 ops

/-- Call of `grafo_criar` followed by a sequence of `grafo_adicionar_aresta` calls, with
the outcomes of their allocations. -/
def construir_mem (alc : Aloc) (als : List (Bool × Bool)) (n : Int) (rep : Representation)
    (dir : Int) (ops : List (Int × Int)) : Except Fault (Option Grafo) :=
  match grafo_criar_mem alc n rep dir with
  | none => pure none
  | some g => do
    let g1 ← inserir_seq_mem als g ops
    pure (some g1)

/-- The graphs reachable from a successful `grafo_criar` by `grafo_adicionar_aresta` calls
whose allocations succeed or fail. -/
inductive AlcancavelMem : Grafo → Prop where
  | criar (n : Int) (rep : Representation) (dir : Int) (g : Grafo) :
      grafo_criar n rep dir = some g → AlcancavelMem g
  | inserir (al1 al2 : Bool) (g : Grafo) (u v rc : Int) (g1 : Grafo) :
      AlcancavelMem g → grafo_adicionar_aresta_mem al1 al2 g u v = .ok (rc, g1) →
      AlcancavelMem g1

/-- What holds of a graph whatever allocations failed on the way: the shape of the arrays
of a list graph, the full invariant for a matrix graph (whose insertions allocate
nothing). -/
structure InvMem (g : Grafo) : Prop where
  n_pos : 1 ≤ g.n
  forma : g.rep = .REP_LIST → Forma g g.n.toNat
  inv : g.rep = .REP_MATRIX → Inv g

/-! ## Depth-first search (`grafo.c`) -/

/-- Working arrays of `grafo_dfs`: `pai`, `nivel`, the visited marks, and the stack with
its pointer `sp`. -/
structure DfsEstado where
  pai : List Int
  nivel : List Int
  vis : List Int
  stack : List Int
  sp : Int
  deriving DecidableEq, Repr

/-- Body of the scan in `grafo_dfs`:
`if(!vis[v]){ pai[v] = u+1; nivel[v] = nivel[u] + 1; stack[sp++] = v; }`. -/
def dfs_visita (u v : Int) (st : DfsEstado) : Except Fault DfsEstado := do
  let b ← rd st.vis v
  if b = 0 then
    let pai ← wr st.pai v (u + 1)
    let nu ← rd st.nivel u
    let nivel ← wr st.nivel v (nu + 1)
    let stack ← wr st.stack st.sp v
    pure { st with pai := pai, nivel := nivel, stack := stack, sp := st.sp + 1 }
  else pure st

/-- The loop `while(sp > 0){ int u = stack[--sp]; if(vis[u]) continue; vis[u] = 1; ... }` of
`grafo_dfs`, with fuel. -/
def dfs_laco (g : Grafo) : Nat → DfsEstado → Except Fault DfsEstado
  | 0, st => if st.sp > 0 then .error .fuel else pure st
  | k + 1, st =>
    if st.sp > 0 then do
      let sp1 := st.sp - 1
      let u ← rd st.stack sp1
      let b ← rd st.vis u
      if b ≠ 0 then dfs_laco g k { st with sp := sp1 }
      else
        let vis ← wr st.vis u 1
        let st1 ← varre g u (dfs_visita u) { st with sp := sp1, vis := vis }
        dfs_laco g k st1
    else pure st

/-- Function `grafo_dfs` up to the end of its loop: the final working arrays. -/
def dfs_exec (fuel : Nat) (g : Grafo) (inicio : Int) : Except Fault DfsEstado := do
  let n := g.n
  let pai := List.replicate n.toNat (0 : Int)
  let nivel := List.replicate n.toNat (-1 : Int)
  let vis := List.replicate n.toNat (0 : Int)
  let s := inicio - 1
  let stack := List.replicate n.toNat (0 : Int)
  let stack1 ← wr stack 0 s
  let nivel1 ← wr nivel s 0
  let pai1 ← wr pai s (-1)
  dfs_laco g fuel { pai := pai1, nivel := nivel1, vis := vis, stack := stack1, sp := 1 }

/-- Function `grafo_dfs`: returns `(pai, nivel)`, the returned parent array and
`*out_level`. -/
def grafo_dfs (fuel : Nat) (g : Grafo) (inicio : Int) : Except Fault (List Int × List Int) := do
  let st ← dfs_exec fuel g inicio
  pure (st.pai, st.nivel)

/-! ## Loading from the text format (`grafo_carregar`) -/

/-- What one `%d` conversion of `fscanf` finds at the current position of the input: a
numeral of value `z` (of any size), or text that is not one (on which the conversion fails,
here and ever after). -/
inductive Tok where
  | int (z : Int)
  | lixo
  deriving DecidableEq, Repr

/-- What `%d` of `fscanf` stores in the `int` for a numeral of value `z` (glibc): the value
as `strtol` converts it, saturated to the range of a 64-bit `long`, and then cut to 32
bits.  For a numeral within the range of `int` this is `z` itself. -/
def scan_d (z : Int) : Int :=
  int32 (max (-9223372036854775808) (min 9223372036854775807 z))

/-- The loop `while(fscanf(f, "%d %d", &u, &v) == 2){ ... }` of `grafo_carregar` over the
input that follows the header: it goes on as long as two integers are read, skips a pair with
an id outside `[1,n]`, inserts the others and ignores the status of the insertion.  The
`k`-th insertion is made with the allocation outcomes `als[k]`. -/
def carregar_laco (n : Int) : List (Bool × Bool) → List Tok → Grafo → Except Fault Grafo
  | als, .int zu :: .int zv :: resto, g =>
    let u := scan_d zu
    let v := scan_d zv
    if u < 1 ∨ u > n ∨ v < 1 ∨ v > n then carregar_laco n als resto g
    else do
      let (_, g1) ← grafo_adicionar_aresta_mem (prox_aloc als).1 (prox_aloc als).2 g u v
      carregar_laco n als.tail resto g1
  | _, _, g => pure g

/-- Function `grafo_carregar` on a readable file whose content is `toks`, with the
allocation outcomes `alc` of its `grafo_criar` call and `als` of its insertions; `none` is
the `NULL` result. -/
def grafo_carregar (alc : Aloc) (als : List (Bool × Bool)) (toks : List Tok)
    (rep : Representation) (direcionado : Int) : Except Fault (Option Grafo) :=
  match toks with
  | .int z :: resto =>
    let n := scan_d z
    match grafo_criar_mem alc n rep direcionado with
    | none => pure none
    | some g => do
      let g1 ← carregar_laco n als resto g
      pure (some g1)
  | _ => pure none

/-- An edge record of the input as the specification speaks of it: a well-formed pair of
integers, or a malformed record. -/
inductive Registro where
  | par (u v : Int)
  | malformado
  deriving DecidableEq, Repr

/-- The input text of a sequence of records. -/
def tokens_de : List Registro → List Tok
  | [] => []
  | .par u v :: rs => .int u :: .int v :: tokens_de rs
  | .malformado :: rs => .lixo :: tokens_de rs

/-- The well-formed pairs of a sequence of records, in file order. -/
def pares_de : List Registro → List (Int × Int)
  | [] => []
  | .par u v :: rs => (u, v) :: pares_de rs
  | .malformado :: rs => pares_de rs

/-- The well-formed pairs that come before the first malformed record, in file order. -/
def pares_antes : List Registro → List (Int × Int)
  | [] => []
  | .par u v :: rs => (u, v) :: pares_antes rs
  | .malformado :: _ => []

/-- Both ids of the pair lie in `[1,n]`. -/
def no_intervalo (n : Int) (p : Int × Int) : Bool :=
  decide (1 ≤ p.1 ∧ p.1 ≤ n ∧ 1 ≤ p.2 ∧ p.2 ≤ n)

/-- The pair as `%d` stores its two numerals. -/
def par_lido (p : Int × Int) : Int × Int := (scan_d p.1, scan_d p.2)

/-- The numeral fits a C `int`. -/
def cabe_int (z : Int) : Prop := -2147483648 ≤ z ∧ z ≤ 2147483647

instance (z : Int) : Decidable (cabe_int z) := by
  unfold cabe_int
  infer_instance

/-- Stated from the specification: the graph that loading is said to return, `create(n)`
followed by the insertion, in file order, of every well-formed in-range pair of the input,
malformed and out-of-range records being skipped. -/
def carregar_espec (n : Int) (rep : Representation) (dir : Int) (rs : List Registro) :
    Option Grafo :=
  construir n rep dir ((pares_de rs).filter (no_intervalo n))

/-! ## Maximum level scans (`bfs_analysis.c`, `diameter.c`) -/

/-- Function `encontrar_maior_nivel` of `bfs_analysis.c`:
`max_level = 0; for(i = 1; i <= n; i++) if(levels[i] > max_level) max_level = levels[i];`. -/
def encontrar_maior_nivel (levels : List Int) (n : Int) : Except Fault Int :=
  para (fun i max_level => do
      let l ← rd levels i
      if l > max_level then pure l else pure max_level)
    ((List.range n.toNat).map (fun k => k + 1)) 0

/-- The inner loop of `main` in `diameter.c`:
`max_level = -1; far = s; for(v = 1; v <= n; ++v) if(levels[v] > max_level){ max_level =
levels[v]; far = v; }`; returns `(max_level, far)`. -/
def diametro_varre (levels : List Int) (n s : Int) : Except Fault (Int × Int) :=
  para (fun v acc => do
      let l ← rd levels v
      if l > acc.1 then pure (l, (v : Int)) else pure acc)
    ((List.range n.toNat).map (fun k => k + 1)) (-1, s)

/-- The largest entry of a non-empty level array (what the scans are meant to return). -/
def maior_nivel (levels : List Int) : Int := levels.foldl max (levels.headD 0)

/-! ## More example graphs -/

/-- The ten edges of the complete graph on five vertices. -/
def k5_arestas : List (Int × Int) :=
  [(1, 2), (1, 3), (1, 4), (1, 5), (2, 3), (2, 4), (2, 5), (3, 4), (3, 5), (4, 5)]

/-- The complete undirected list graph on five vertices, built from `k5_arestas`. -/
def ex_k5 : Grafo :=
  { n := 5, m := 10, direcionado := 0, rep := .REP_LIST, deg := [4, 4, 4, 4, 4],
    adj := [[2, 3, 4, 5], [1, 3, 4, 5], [1, 2, 4, 5], [1, 2, 3, 5], [1, 2, 3, 4]],
    cap := [4, 4, 4, 4, 4], mat := [] }

/-- The directed list graph on three vertices with the arcs `2 → 1` and `2 → 3`, as
`grafo_criar` and two calls of `grafo_adicionar_aresta` leave it. -/
def ex_dir3 : Grafo :=
  { n := 3, m := 2, direcionado := 1, rep := .REP_LIST, deg := [0, 2, 0],
    adj := [[], [1, 3, 0, 0], []], cap := [0, 4, 0], mat := [] }

/-- Parent facts of `grafo_bfs` started at the 0-based vertex `S`: the start has the
sentinel `-1`, an undiscovered vertex has parent `0`, and a discovered vertex other than
the start has a discovered parent one level up of which it is a stored neighbour. -/
structure BfsPai (g : Grafo) (S : Nat) (st : BfsEstado) : Prop where
  raiz : st.pai.getD S 0 = -1
  fora : ∀ x, 0 ≤ x → x < g.n → nivel_de st x = -1 → st.pai.getD x.toNat 0 = 0
  dentro : ∀ x, 0 ≤ x → x < g.n → nivel_de st x ≠ -1 → x ≠ (S : Int) →
    ∃ p, st.pai.getD x.toNat 0 = p + 1 ∧ vizinho g (p + 1) (x + 1)
      ∧ nivel_de st p ≠ -1 ∧ nivel_de st x = nivel_de st p + 1

/-- The member buffer starts with the seed `i` (0-based): either nothing has been collected
and the stack holds just the seed, or the first collected member is the seed. -/
def CompCab (i : Int) (st : CompEstado) : Prop :=
  (membros0 st = [] ∧ pilha st = [i]) ∨ (membros0 st).head? = some i

/-- What holds of the outer loop of `grafo_componentes` on every graph, directed or not, once
the seeds `0..i-1` are done: the marked set is closed under stored arcs; every returned
component starts with its seed, which is its smallest member, is larger than the seeds
before it and is the smallest vertex outside the earlier components; a stored neighbour of a
member lies in the same or an earlier component; and the components are duplicate-free and
pairwise disjoint. -/
structure TotGer (g : Grafo) (t : CompTotal) (i : Nat) : Prop where
  fechado : ∀ x, 0 ≤ x → x < g.n → vis_de t.vis x ≠ 0 →
    ∀ w, vizinho g (x + 1) (w + 1) → vis_de t.vis w ≠ 0
  ordem : ∀ j : Nat, (j : Int) < t.comp_count →
    ∃ s resto, t.comps.getD j [] = s :: resto ∧ 1 ≤ s ∧ s ≤ (i : Int)
      ∧ (∀ a ∈ t.comps.getD j [], s ≤ a ∧ a ≤ g.n)
      ∧ (∀ a, 1 ≤ a → a < s → ∃ j1 : Nat, j1 < j ∧ a ∈ t.comps.getD j1 [])
      ∧ (∀ j1 : Nat, j1 < j → ∃ s1 resto1, t.comps.getD j1 [] = s1 :: resto1 ∧ s1 < s)
  arcos : ∀ j : Nat, (j : Int) < t.comp_count → ∀ u ∈ t.comps.getD j [], ∀ v,
    vizinho g u v → ∃ j1 : Nat, j1 ≤ j ∧ v ∈ t.comps.getD j1 []
  disj : ∀ j : Nat, (j : Int) < t.comp_count → (t.comps.getD j []).Nodup
    ∧ ∀ j1 : Nat, j1 < j → ∀ a ∈ t.comps.getD j [], a ∉ t.comps.getD j1 []

/-! ## Single passes of the traversal loops -/

/-- The arrays of `grafo_bfs` when its `while` loop is entered: `pai` all `0`, `nivel` all
`-1`, then `q[qt++] = s; nivel[s] = 0; pai[s] = -1;` with `s = inicio - 1`. -/
def bfs_inicio (g : Grafo) (inicio : Int) : Except Fault BfsEstado := do
  let n := g.n
  let pai := List.replicate n.toNat (0 : Int)
  let nivel := List.replicate n.toNat (-1 : Int)
  let s := inicio - 1
  let q := List.replicate n.toNat (0 : Int)
  let q1 ← wr q 0 s
  let nivel1 ← wr nivel s 0
  let pai1 ← wr pai s (-1)
  pure { pai := pai1, nivel := nivel1, q := q1, qt := 1 }

/-- One pass through the body of the `while` loop of `grafo_bfs` with head index `qh`:
`int u = q[qh++];` followed by the scan of the neighbours of `u`.  Returns the new head index
and the arrays. -/
def bfs_passo (g : Grafo) (qh : Int) (st : BfsEstado) : Except Fault (Int × BfsEstado) := do
  let u ← rd st.q qh
  let st1 ← varre g u (bfs_visita u) st
  pure (qh + 1, st1)

/-- Head index and arrays of `grafo_bfs` after at most `k` passes of `while(qh < qt)` started
at `(qh, st)`: fewer passes are made when the test `qh < qt` fails before. -/
def bfs_apos (g : Grafo) : Nat → Int → BfsEstado → Except Fault (Int × BfsEstado)
  | 0, qh, st => pure (qh, st)
  | k + 1, qh, st =>
    if qh < st.qt then do
      let c ← bfs_passo g qh st
      bfs_apos g k c.1 c.2
    else pure (qh, st)

/-- One pass through the body of the `while` loop of `grafo_dfs`:
`int u = stack[--sp]; if(vis[u]) continue; vis[u] = 1;` followed by the scan of the
neighbours of `u`. -/
def dfs_passo (g : Grafo) (st : DfsEstado) : Except Fault DfsEstado := do
  let sp1 := st.sp - 1
  let u ← rd st.stack sp1
  let b ← rd st.vis u
  if b ≠ 0 then pure { st with sp := sp1 }
  else
    let vis ← wr st.vis u 1
    varre g u (dfs_visita u) { st with sp := sp1, vis := vis }

/-- The arrays of `grafo_dfs` when its `while` loop is entered: `pai` all `0`, `nivel` all
`-1`, `vis` all `0`, then `stack[sp++] = s; nivel[s] = 0; pai[s] = -1;`. -/
def dfs_inicio (g : Grafo) (inicio : Int) : Except Fault DfsEstado := do
  let n := g.n
  let pai := List.replicate n.toNat (0 : Int)
  let nivel := List.replicate n.toNat (-1 : Int)
  let vis := List.replicate n.toNat (0 : Int)
  let s := inicio - 1
  let stack := List.replicate n.toNat (0 : Int)
  let stack1 ← wr stack 0 s
  let nivel1 ← wr nivel s 0
  let pai1 ← wr pai s (-1)
  pure { pai := pai1, nivel := nivel1, vis := vis, stack := stack1, sp := 1 }

/-! ## How many edges a graph can store -/

@[simp] theorem ok_bind {α β : Type} (a : α) (f : α → Except Fault β) :
    (Except.ok a >>= f) = f a := rfl

@[simp] theorem error_bind {α β : Type} (e : Fault) (f : α → Except Fault β) :
    ((Except.error e : Except Fault α) >>= f) = Except.error e := rfl

@[simp] theorem pure_ok {α : Type} (a : α) : (pure a : Except Fault α) = Except.ok a := rfl

theorem rd_nat {α : Type} {a : List α} {i : Nat} {x : α} (h : a[i]? = some x) :
    rd a (i : Int) = .ok x := by
  simp [rd, h]

theorem wr_nat {α : Type} {a : List α} {i : Nat} (x : α) (h : i < a.length) :
    wr a (i : Int) x = .ok (a.set i x) := by
  simp [wr, h]

theorem rd_nat_lt {α : Type} {a : List α} {i : Nat} (d : α) (h : i < a.length) :
    rd a (i : Int) = .ok (a.getD i d) := by
  apply rd_nat
  simp [List.getD, List.getElem?_eq_getElem h]

theorem existe_spec (adj : List (List Int)) (i : Nat) (row : List Int)
    (h : adj[i]? = some row) (v : Int) (is : List Nat) (his : ∀ k ∈ is, k < row.length) :
    existe adj i v is = .ok (decide (∃ k ∈ is, row[k]? = some v)) := by
  induction is with
  | nil => simp [existe]
  | cons k ks ih =>
    have hk : k < row.length := his k (by simp)
    have ih1 := ih (fun k1 h1 => his k1 (by simp [h1]))
    simp only [existe, rd_nat h, ok_bind]
    rw [rd_nat (List.getElem?_eq_getElem hk)]
    simp only [ok_bind]
    by_cases hx : row[k] = v
    · simp [hx, List.getElem?_eq_getElem hk]
    · simp [hx, ih1, List.getElem?_eq_getElem hk]

theorem mem_take_iff_range (row : List Int) (d : Nat) (v : Int) (hd : d ≤ row.length) :
    (∃ k ∈ List.range d, row[k]? = some v) ↔ v ∈ row.take d := by
  rw [List.mem_take_iff_getElem]
  constructor
  · rintro ⟨k, hk, hv⟩
    have hk1 : k < d := by simpa using hk
    have hk2 : k < row.length := by omega
    refine ⟨k, by simp; omega, ?_⟩
    rw [List.getElem?_eq_getElem hk2] at hv
    simpa using hv
  · rintro ⟨k, hk, hv⟩
    have hk1 : k < d ∧ k < row.length := by simpa using hk
    refine ⟨k, by simp; omega, ?_⟩
    rw [List.getElem?_eq_getElem hk1.2, hv]

/-! ## The list representation: growing and appending -/

theorem ensure_capacity_spec (g : Grafo) (i : Nat) (row : List Int) (d c : Int)
    (ha : g.adj[i]? = some row) (hd : g.deg[i]? = some d) (hc : g.cap[i]? = some c)
    (hd0 : 0 ≤ d) (hdc : d ≤ c) (hlen : row.length = c.toNat) :
    ∃ row1 c1, ensure_capacity g ((i : Int) + 1)
        = .ok (0, { g with adj := g.adj.set i row1, cap := g.cap.set i c1 })
      ∧ d < c1 ∧ row1.length = c1.toNat ∧ row1.take d.toNat = row.take d.toNat := by
  have hia : i < g.adj.length := by
    rcases Nat.lt_or_ge i g.adj.length with h | h
    · exact h
    · rw [List.getElem?_eq_none h] at ha; cases ha
  have hic : i < g.cap.length := by
    rcases Nat.lt_or_ge i g.cap.length with h | h
    · exact h
    · rw [List.getElem?_eq_none h] at hc; cases hc
  unfold ensure_capacity
  simp only [add_sub_cancel_right, rd_nat hc, ok_bind]
  by_cases hc0 : c = 0
  · subst hc0
    have hd' : d = 0 := by omega
    subst hd'
    refine ⟨List.replicate 4 0, 4, ?_, by omega, by simp, by simp⟩
    simp [wr_nat _ hia, wr_nat _ hic]
  · simp only [hc0, if_false, rd_nat hd, ok_bind]
    by_cases hge : d ≥ c
    · have hdc' : d = c := by omega
      subst hdc'
      refine ⟨realloc row (d * 2), d * 2, ?_, by omega, ?_, ?_⟩
      · simp [rd_nat ha, wr_nat _ hia, wr_nat _ hic]
      · simp [realloc]; omega
      · simp only [realloc]
        rw [List.take_append_of_le_length (by simp; omega)]
        rw [List.take_take]
        congr 1
        omega
    · refine ⟨row, c, ?_, by omega, hlen, rfl⟩
      simp only [hge, if_false, pure_ok]
      congr 2
      cases g
      simp only [Grafo.mk.injEq, true_and, and_true] at *
      constructor
      · apply List.ext_getElem?
        intro k
        by_cases hk : i = k
        · subst hk; simp [List.getElem?_set, hia, ha]
        · simp [List.getElem?_set, hk]
      · apply List.ext_getElem?
        intro k
        by_cases hk : i = k
        · subst hk; simp [List.getElem?_set, hic, hc]
        · simp [List.getElem?_set, hk]

theorem lt_length_of_getElem? {α : Type} {a : List α} {i : Nat} {x : α} (h : a[i]? = some x) :
    i < a.length := by
  rcases Nat.lt_or_ge i a.length with h1 | h1
  · exact h1
  · rw [List.getElem?_eq_none h1] at h; cases h

theorem take_set_ge {α : Type} (l : List α) (k p : Nat) (a : α) (h : k ≤ p) :
    (l.set p a).take k = l.take k := by
  apply List.ext_getElem?
  intro q
  simp only [List.getElem?_take, List.getElem?_set]
  by_cases hq : q < k
  · have : p ≠ q := by omega
    simp [hq, this]
  · simp [hq]

theorem lista_meia_spec (g : Grafo) (i : Nat) (v : Int) (row : List Int) (d c : Int)
    (ha : g.adj[i]? = some row) (hd : g.deg[i]? = some d) (hc : g.cap[i]? = some c)
    (hd0 : 0 ≤ d) (hdc : d ≤ c) (hlen : row.length = c.toNat) :
    (v ∈ row.take d.toNat → lista_meia g ((i : Int) + 1) v = .ok (0, 0, g)) ∧
    (v ∉ row.take d.toNat → ∃ row1 c1, lista_meia g ((i : Int) + 1) v
        = .ok (0, 1, { g with adj := g.adj.set i row1, cap := g.cap.set i c1,
                              deg := g.deg.set i (d + 1) })
      ∧ d + 1 ≤ c1 ∧ row1.length = c1.toNat
      ∧ row1.take (d + 1).toNat = row.take d.toNat ++ [v]) := by
  have hia := lt_length_of_getElem? ha
  have hid := lt_length_of_getElem? hd
  have hic := lt_length_of_getElem? hc
  have hscan : existe g.adj (i : Int) v (List.range d.toNat)
      = .ok (decide (v ∈ row.take d.toNat)) := by
    rw [existe_spec g.adj i row ha v _ (by intro k hk; simp at hk; omega)]
    congr 1
    simp only [decide_eq_decide]
    exact mem_take_iff_range row d.toNat v (by omega)
  constructor
  · intro hv
    simp [lista_meia, rd_nat hd, hscan, hv]
  · intro hv
    obtain ⟨row1, c1, he, hlt, hlen1, htake⟩ :=
      ensure_capacity_spec g i row d c ha hd hc hd0 hdc hlen
    have hdn : d.toNat < row1.length := by omega
    refine ⟨row1.set d.toNat v, c1, ?_, by omega, by simpa using hlen1, ?_⟩
    · simp only [lista_meia, add_sub_cancel_right, rd_nat hd, ok_bind, hscan, hv, decide_False,
        he, anexar]
      have h1 : (g.adj.set i row1)[i]? = some row1 := by simp [List.getElem?_set, hia]
      have h2 : wr row1 d v = .ok (row1.set d.toNat v) := by
        simp [wr, hd0]; omega
      have h3 : wr (g.adj.set i row1) (i : Int) (row1.set d.toNat v)
          = .ok ((g.adj.set i row1).set i (row1.set d.toNat v)) := wr_nat _ (by simpa using hia)
      simp [rd_nat hd, rd_nat h1, h2, wr_nat _ hid, h3]
    · have e1 : (d + 1).toNat = d.toNat + 1 := by omega
      rw [e1, List.take_succ, take_set_ge row1 _ _ v (le_refl _), htake]
      simp [List.getElem?_set, hdn]

theorem getElem?_getD {α : Type} (a : List α) (i : Nat) (d : α) (h : i < a.length) :
    a[i]? = some (a.getD i d) := by
  simp [List.getD, List.getElem?_eq_getElem h]

theorem getD_set_eq {α : Type} (a : List α) (i : Nat) (x d : α) (h : i < a.length) :
    (a.set i x).getD i d = x := by
  simp [List.getD, List.getElem?_set, h]

theorem getD_set_ne {α : Type} (a : List α) (i k : Nat) (x d : α) (h : i ≠ k) :
    (a.set i x).getD k d = a.getD k d := by
  simp [List.getD, List.getElem?_set, h]

theorem lista_meia_trans (g : Grafo) (N : Nat) (hF : Forma g N) (i : Nat) (hi : i < N)
    (v : Int) :
    ∃ g1 b, lista_meia g ((i : Int) + 1) v = .ok (0, b, g1) ∧ Forma g1 N
      ∧ g1.n = g.n ∧ g1.m = g.m ∧ g1.direcionado = g.direcionado ∧ g1.rep = g.rep
      ∧ g1.mat = g.mat
      ∧ (v ∈ fila g i → g1 = g ∧ b = 0)
      ∧ (v ∉ fila g i → b = 1 ∧ fila g1 i = fila g i ++ [v]
          ∧ g1.deg.getD i 0 = g.deg.getD i 0 + 1)
      ∧ (∀ a, a ≠ i → fila g1 a = fila g a ∧ g1.deg.getD a 0 = g.deg.getD a 0) := by
  obtain ⟨hdl, hal, hcl, hsh⟩ := hF
  obtain ⟨hd0, hdc, hlen⟩ := hsh i hi
  have ha := getElem?_getD g.adj i [] (by omega)
  have hd := getElem?_getD g.deg i 0 (by omega)
  have hc := getElem?_getD g.cap i 0 (by omega)
  obtain ⟨hin, hout⟩ := lista_meia_spec g i v _ _ _ ha hd hc hd0 hdc hlen
  by_cases hv : v ∈ fila g i
  · refine ⟨g, 0, hin hv, ⟨hdl, hal, hcl, hsh⟩, rfl, rfl, rfl, rfl, rfl, fun _ => ⟨rfl, rfl⟩,
      fun h => absurd hv h, fun a _ => ⟨rfl, rfl⟩⟩
  · obtain ⟨row1, c1, he, hle, hlen1, htake⟩ := hout hv
    refine ⟨_, 1, he, ?_, rfl, rfl, rfl, rfl, rfl, fun h => absurd h hv, fun _ => ⟨rfl, ?_, ?_⟩, ?_⟩
    · refine ⟨by simpa using hdl, by simpa using hal, by simpa using hcl, ?_⟩
      intro k hk
      by_cases hki : i = k
      · subst hki
        simp only [getD_set_eq _ _ _ _ (show i < g.deg.length by omega),
          getD_set_eq _ _ _ _ (show i < g.adj.length by omega),
          getD_set_eq _ _ _ _ (show i < g.cap.length by omega)]
        exact ⟨by omega, hle, hlen1⟩
      · simp only [getD_set_ne _ _ _ _ _ hki]
        exact hsh k hk
    · simp only [fila, getD_set_eq _ _ _ _ (show i < g.deg.length by omega),
          getD_set_eq _ _ _ _ (show i < g.adj.length by omega)]
      exact htake
    · simp only [getD_set_eq _ _ _ _ (show i < g.deg.length by omega)]
    · intro a hai
      have hia : i ≠ a := fun h => hai h.symm
      simp only [fila, getD_set_ne _ _ _ _ _ hia, and_self]

/-! ## The 32-bit counter -/

theorem int32_succ (a : Int) : int32 (int32 a + 1) = int32 (a + 1) := by
  unfold int32
  omega

theorem int32_faixa (z : Int) : -2147483648 ≤ int32 z ∧ int32 z ≤ 2147483647 := by
  unfold int32
  omega

theorem arco_lista (g : Grafo) (h : g.rep = .REP_LIST) (a b : Nat) :
    arco g a b ↔ ((b : Int) + 1) ∈ fila g a := by
  simp [arco, h]

theorem arco_matriz (g : Grafo) (h : g.rep = .REP_MATRIX) (a b : Nat) :
    arco g a b ↔ g.mat.getD (a * g.n.toNat + b) 0 ≠ 0 := by
  simp [arco, h]

/-- List branch, edge already stored: nothing changes. -/
theorem inserir_lista_velho (g : Grafo) (N : Nat) (hn : g.n = N) (hrep : g.rep = .REP_LIST)
    (hF : Forma g N)
    (hsim : g.direcionado = 0 → ∀ a b, a < N → b < N → arco g a b → arco g b a)
    (i j : Nat) (hi : i < N) (hj : j < N) (hij : arco g i j) :
    grafo_adicionar_aresta g ((i : Int) + 1) ((j : Int) + 1) = .ok (0, g) := by
  have hrange : ¬ ((i : Int) + 1 < 1 ∨ (i : Int) + 1 > g.n ∨ (j : Int) + 1 < 1
      ∨ (j : Int) + 1 > g.n) := by omega
  obtain ⟨g1, b, h1, -, -, -, -, -, -, hin, -, -⟩ := lista_meia_trans g N hF i hi ((j : Int) + 1)
  obtain ⟨rfl, rfl⟩ := hin ((arco_lista g hrep i j).1 hij)
  simp only [grafo_adicionar_aresta, hrange, if_false, hrep, h1, ok_bind]
  by_cases hdir : g1.direcionado = 0
  · obtain ⟨g2, b2, h2, -, -, -, -, -, -, hin2, -, -⟩ :=
      lista_meia_trans g1 N hF j hj ((i : Int) + 1)
    obtain ⟨rfl, rfl⟩ := hin2 ((arco_lista g1 hrep j i).1 (hsim hdir i j hi hj hij))
    simp [hdir, h2]
  · simp [hdir]

/-- List branch, new edge: the arrays after the call. -/
theorem inserir_lista_novo (g : Grafo) (N : Nat) (hn : g.n = N) (hrep : g.rep = .REP_LIST)
    (hF : Forma g N)
    (hsim : g.direcionado = 0 → ∀ a b, a < N → b < N → arco g a b → arco g b a)
    (i j : Nat) (hi : i < N) (hj : j < N) (hij : ¬ arco g i j) :
    ∃ g1, grafo_adicionar_aresta g ((i : Int) + 1) ((j : Int) + 1) = .ok (0, g1)
      ∧ Forma g1 N ∧ g1.n = g.n ∧ g1.m = int32 (g.m + 1) ∧ g1.direcionado = g.direcionado
      ∧ g1.rep = .REP_LIST ∧ g1.mat = g.mat
      ∧ (∀ a, fila g1 a = fila g a ++ (if a = i then [(j : Int) + 1] else [])
            ++ (if g.direcionado = 0 ∧ a = j ∧ i ≠ j then [(i : Int) + 1] else []))
      ∧ (∀ a, g1.deg.getD a 0 = g.deg.getD a 0 + (if a = i then 1 else 0)
            + (if g.direcionado = 0 ∧ a = j ∧ i ≠ j then 1 else 0)) := by
  have hrange : ¬ ((i : Int) + 1 < 1 ∨ (i : Int) + 1 > g.n ∨ (j : Int) + 1 < 1
      ∨ (j : Int) + 1 > g.n) := by omega
  obtain ⟨g1, b, h1, hF1, hn1, hm1, hd1, hr1, hmat1, -, hout, hoth⟩ :=
    lista_meia_trans g N hF i hi ((j : Int) + 1)
  obtain ⟨rfl, hfi, hdi⟩ := hout (fun h => hij ((arco_lista g hrep i j).2 h))
  simp only [grafo_adicionar_aresta, hrange, if_false, hrep, h1, ok_bind]
  by_cases hdir : g.direcionado = 0
  · have hdir1 : g1.direcionado = 0 := by rw [hd1]; exact hdir
    obtain ⟨g2, b2, h2, hF2, hn2, hm2, hd2, hr2, hmat2, hin2, hout2, hoth2⟩ :=
      lista_meia_trans g1 N hF1 j hj ((i : Int) + 1)
    by_cases heq : i = j
    · subst heq
      obtain ⟨rfl, rfl⟩ := hin2 (by rw [hfi]; simp)
      refine ⟨{ g2 with m := int32 (g2.m + 1) }, by simp [hdir1, h2], hF1, hn1, by simp [hm1], hd1,
        by simp [hr1, hrep], hmat1, ?_, ?_⟩
      · intro a
        by_cases ha : a = i
        · subst ha; simp [fila] at hfi ⊢; exact hfi
        · have := (hoth a ha).1; simp [fila, ha] at this ⊢; exact this
      · intro a
        by_cases ha : a = i
        · subst ha; simp at hdi ⊢; exact hdi
        · have := (hoth a ha).2; simp [ha] at this ⊢; exact this
    · have hji : j ≠ i := fun h => heq h.symm
      have hnot : ((i : Int) + 1) ∉ fila g1 j := by
        rw [(hoth j hji).1]
        intro hmem
        exact hij (hsim hdir j i hj hi ((arco_lista g hrep j i).2 hmem))
      obtain ⟨rfl, hfj, hdj⟩ := hout2 hnot
      refine ⟨{ g2 with m := int32 (g2.m + 1) }, by simp [hdir1, h2], hF2, by simp [hn2, hn1],
        by simp [hm2, hm1], by simp [hd2, hd1], by simp [hr2, hr1, hrep], by simp [hmat2, hmat1], ?_, ?_⟩
      · intro a
        by_cases ha : a = j
        · subst ha
          have e : fila { g2 with m := int32 (g2.m + 1) } a = fila g2 a := rfl
          rw [e, hfj, (hoth a hji).1]
          simp [hdir, hji, heq]
        · have e : fila { g2 with m := int32 (g2.m + 1) } a = fila g2 a := rfl
          rw [e, (hoth2 a ha).1]
          by_cases hai : a = i
          · subst hai; rw [hfi]; simp [ha]
          · rw [(hoth a hai).1]; simp [ha, hai]
      · intro a
        by_cases ha : a = j
        · subst ha
          show g2.deg.getD a 0 = _
          rw [hdj, (hoth a hji).2]
          simp [hdir, hji, heq]
        · show g2.deg.getD a 0 = _
          rw [(hoth2 a ha).2]
          by_cases hai : a = i
          · subst hai; rw [hdi]; simp [ha]
          · rw [(hoth a hai).2]; simp [ha, hai]
  · have hdir1 : ¬ g1.direcionado = 0 := by rw [hd1]; exact hdir
    refine ⟨{ g1 with m := int32 (g1.m + 1) }, by simp [hdir1], hF1, hn1, by simp [hm1], hd1,
        by simp [hr1, hrep], hmat1, ?_, ?_⟩
    · intro a
      have e : fila { g1 with m := int32 (g1.m + 1) } a = fila g1 a := rfl
      rw [e]
      by_cases hai : a = i
      · subst hai; rw [hfi]; simp [hdir]
      · rw [(hoth a hai).1]; simp [hai, hdir]
    · intro a
      show g1.deg.getD a 0 = _
      by_cases hai : a = i
      · subst hai; rw [hdi]; simp [hdir]
      · rw [(hoth a hai).2]; simp [hai, hdir]

/-! ## The matrix representation -/

theorem cell_inj (N a b i j : Nat) (hb : b < N) (hj : j < N) (h : a * N + b = i * N + j) :
    a = i ∧ b = j := by
  have hN : 0 < N := by omega
  have h1 : (a * N + b) / N = a := by
    rw [Nat.add_comm, Nat.add_mul_div_right _ _ hN, Nat.div_eq_of_lt hb]; simp
  have h2 : (i * N + j) / N = i := by
    rw [Nat.add_comm, Nat.add_mul_div_right _ _ hN, Nat.div_eq_of_lt hj]; simp
  have hai : a = i := by rw [← h1, ← h2, h]
  subst hai
  exact ⟨rfl, by omega⟩

theorem cell_lt (N a b : Nat) (ha : a < N) (hb : b < N) : a * N + b < N * N := by
  have : a * N + N ≤ N * N := by
    have h1 : (a + 1) * N ≤ N * N := Nat.mul_le_mul_right N (by omega)
    rw [Nat.add_mul] at h1
    omega
  omega

theorem ite_one_ne_zero {α : Type} (a b : α) : (if (1 : Int) ≠ 0 then a else b) = a := by
  simp

theorem inserir_matriz_velho (g : Grafo) (N : Nat) (hn : g.n = N)
    (hrep : g.rep = .REP_MATRIX) (hml : g.mat.length = N * N)
    (i j : Nat) (hi : i < N) (hj : j < N) (hij : arco g i j) :
    grafo_adicionar_aresta g ((i : Int) + 1) ((j : Int) + 1) = .ok (0, g) := by
  have hrange : ¬ ((i : Int) + 1 < 1 ∨ (i : Int) + 1 > g.n ∨ (j : Int) + 1 < 1
      ∨ (j : Int) + 1 > g.n) := by omega
  have hidx : (i : Int) * g.n + (j : Int) = ((i * N + j : Nat) : Int) := by
    rw [hn]; push_cast; rfl
  have hlt := cell_lt N i j hi hj
  rw [arco_matriz g hrep, hn] at hij
  simp only [Int.toNat_ofNat] at hij
  simp only [grafo_adicionar_aresta, hrange, if_false, hrep, matriz_inserir,
    add_sub_cancel_right, hidx, rd_nat_lt (0 : Int) (show i * N + j < g.mat.length by omega),
    ok_bind]
  simp only [hij, if_false, pure_ok, ok_bind]
  simp

theorem inserir_matriz_novo (g : Grafo) (N : Nat) (hn : g.n = N)
    (hrep : g.rep = .REP_MATRIX) (hml : g.mat.length = N * N) (hdl : g.deg.length = N)
    (hsim : g.direcionado = 0 → ∀ a b, a < N → b < N → arco g a b → arco g b a)
    (i j : Nat) (hi : i < N) (hj : j < N) (hij : ¬ arco g i j) :
    ∃ g1, grafo_adicionar_aresta g ((i : Int) + 1) ((j : Int) + 1) = .ok (0, g1)
      ∧ g1.n = g.n ∧ g1.m = int32 (g.m + 1) ∧ g1.direcionado = g.direcionado
      ∧ g1.rep = .REP_MATRIX ∧ g1.adj = g.adj ∧ g1.cap = g.cap
      ∧ g1.mat.length = N * N ∧ g1.deg.length = N
      ∧ (∀ a b, a < N → b < N →
          (arco g1 a b ↔ arco g a b ∨ (a = i ∧ b = j) ∨ (g.direcionado = 0 ∧ a = j ∧ b = i)))
      ∧ (∀ a, g1.deg.getD a 0 = g.deg.getD a 0 + (if a = i then 1 else 0)
            + (if g.direcionado = 0 ∧ a = j ∧ i ≠ j then 1 else 0)) := by
  have hrange : ¬ ((i : Int) + 1 < 1 ∨ (i : Int) + 1 > g.n ∨ (j : Int) + 1 < 1
      ∨ (j : Int) + 1 > g.n) := by omega
  have hidx : (i : Int) * g.n + (j : Int) = ((i * N + j : Nat) : Int) := by
    rw [hn]; push_cast; rfl
  have hidx2 : (j : Int) * g.n + (i : Int) = ((j * N + i : Nat) : Int) := by
    rw [hn]; push_cast; rfl
  have hlt := cell_lt N i j hi hj
  have hlt2 := cell_lt N j i hj hi
  have hij0 : g.mat.getD (i * N + j) 0 = 0 := by
    have := hij
    rw [arco_matriz g hrep, hn] at this
    simpa using this
  have hset : ∀ (mt : List Int) (p : Nat) (a b : Nat), a < N → b < N →
      ((mt.set p 1).getD (a * N + b) 0 ≠ 0 ↔ (mt.getD (a * N + b) 0 ≠ 0
        ∨ (p = a * N + b ∧ p < mt.length))) := by
    intro mt p a b _ _
    by_cases hp : p = a * N + b
    · by_cases hpl : p < mt.length
      · rw [← hp, getD_set_eq _ _ _ _ hpl]; simp [hpl]
      · rw [List.set_eq_of_length_le (by omega)]; simp [hpl]
    · rw [getD_set_ne _ _ _ _ _ hp]; simp [hp]
  simp only [grafo_adicionar_aresta, hrange, if_false, hrep, matriz_inserir,
    add_sub_cancel_right, hidx, hidx2,
    rd_nat_lt (0 : Int) (show i * N + j < g.mat.length by omega), ok_bind, hij0, if_true,
    wr_nat (1 : Int) (show i * N + j < g.mat.length by omega),
    rd_nat_lt (0 : Int) (show i < g.deg.length by omega),
    wr_nat _ (show i < g.deg.length by omega)]
  by_cases hdir : g.direcionado = 0
  · simp only [hdir, if_true]
    rw [rd_nat_lt (0 : Int) (show j * N + i < (g.mat.set (i * N + j) 1).length by simp; omega)]
    simp only [ok_bind]
    by_cases heq : i = j
    · subst heq
      rw [getD_set_eq _ _ _ _ (by omega)]
      simp only [one_ne_zero, if_false, pure_ok, ok_bind, ite_one_ne_zero]
      refine ⟨_, rfl, rfl, by simp, rfl, by simp [hrep], rfl, rfl, by simpa using hml,
        by simpa using hdl, ?_, ?_⟩
      · intro a b ha hb
        simp only [arco, hrep, hn, Int.toNat_ofNat]
        rw [hset _ _ a b ha hb]
        constructor
        · rintro (h | ⟨h, -⟩)
          · exact Or.inl h
          · obtain ⟨rfl, rfl⟩ := cell_inj N i i a b hi hb h
            exact Or.inr (Or.inl ⟨rfl, rfl⟩)
        · rintro (h | ⟨rfl, rfl⟩ | ⟨-, rfl, rfl⟩)
          · exact Or.inl h
          · exact Or.inr ⟨rfl, by omega⟩
          · exact Or.inr ⟨rfl, by omega⟩
      · intro a
        by_cases ha : a = i
        · subst ha; rw [getD_set_eq _ _ _ _ (show a < g.deg.length by omega)]; simp
        · have : i ≠ a := fun h => ha h.symm
          rw [getD_set_ne _ _ _ _ _ this]; simp [ha]
    · have hne : i * N + j ≠ j * N + i := by
        intro h
        exact heq (cell_inj N i j j i hj hi h).1
      have hji0 : g.mat.getD (j * N + i) 0 = 0 := by
        by_contra hc
        have : arco g j i := by rw [arco_matriz g hrep, hn]; simpa using hc
        exact hij (hsim hdir j i hj hi this)
      rw [getD_set_ne _ _ _ _ _ hne, hji0]
      simp only [if_true]
      rw [wr_nat (1 : Int) (show j * N + i < (g.mat.set (i * N + j) 1).length by simp; omega),
        rd_nat_lt (0 : Int) (show j < (g.deg.set i (g.deg.getD i 0 + 1)).length by simp; omega)]
      simp only [ok_bind]
      rw [wr_nat _ (show j < (g.deg.set i (g.deg.getD i 0 + 1)).length by simp; omega)]
      simp only [pure_ok, ok_bind, ite_one_ne_zero]
      refine ⟨_, rfl, rfl, by simp, rfl, by simp [hrep], rfl, rfl, by simpa using hml,
        by simpa using hdl, ?_, ?_⟩
      · intro a b ha hb
        simp only [arco, hrep, hn, Int.toNat_ofNat]
        rw [hset _ _ a b ha hb, hset _ _ a b ha hb]
        constructor
        · rintro ((h | ⟨h, -⟩) | ⟨h, -⟩)
          · exact Or.inl h
          · obtain ⟨rfl, rfl⟩ := cell_inj N i j a b hj hb h
            exact Or.inr (Or.inl ⟨rfl, rfl⟩)
          · obtain ⟨rfl, rfl⟩ := cell_inj N j i a b hi hb h
            exact Or.inr (Or.inr ⟨trivial, rfl, rfl⟩)
        · rintro (h | ⟨rfl, rfl⟩ | ⟨-, rfl, rfl⟩)
          · exact Or.inl (Or.inl h)
          · exact Or.inl (Or.inr ⟨rfl, by omega⟩)
          · exact Or.inr ⟨rfl, by simp; omega⟩
      · intro a
        have hji : j ≠ i := fun h => heq h.symm
        by_cases ha : a = j
        · subst ha
          rw [getD_set_eq _ _ _ _ (by simp; omega), getD_set_ne _ _ _ _ _ heq]
          simp [hdir, hji, heq]
        · have h1 : j ≠ a := fun h => ha h.symm
          rw [getD_set_ne _ _ _ _ _ h1]
          by_cases hai : a = i
          · subst hai; rw [getD_set_eq _ _ _ _ (by omega)]; simp [ha]
          · have h2 : i ≠ a := fun h => hai h.symm
            rw [getD_set_ne _ _ _ _ _ h2]; simp [ha, hai]
  · simp only [hdir, if_false, pure_ok, ok_bind, ite_one_ne_zero]
    refine ⟨_, rfl, rfl, by simp, rfl, by simp [hrep], rfl, rfl, by simpa using hml,
      by simpa using hdl, ?_, ?_⟩
    · intro a b ha hb
      simp only [arco, hrep, hn, Int.toNat_ofNat]
      rw [hset _ _ a b ha hb]
      constructor
      · rintro (h | ⟨h, -⟩)
        · exact Or.inl h
        · obtain ⟨rfl, rfl⟩ := cell_inj N i j a b hj hb h
          exact Or.inr (Or.inl ⟨rfl, rfl⟩)
      · rintro (h | ⟨rfl, rfl⟩ | ⟨h, -⟩)
        · exact Or.inl h
        · exact Or.inr ⟨rfl, by omega⟩
        · exact h.elim
    · intro a
      by_cases hai : a = i
      · subst hai; rw [getD_set_eq _ _ _ _ (by omega)]; simp [hdir]
      · have h2 : i ≠ a := fun h => hai h.symm
        rw [getD_set_ne _ _ _ _ _ h2]; simp [hai, hdir]

/-! ## Preservation of the counting invariants -/

theorem passo_sim (g g1 : Grafo) (N i j : Nat) (hp : Passo g g1 N i j)
    (hsim : g.direcionado = 0 → ∀ a b, a < N → b < N → arco g a b → arco g b a) :
    g1.direcionado = 0 → ∀ a b, a < N → b < N → arco g1 a b → arco g1 b a := by
  intro hdir a b ha hb hab
  rw [hp.dir_eq] at hdir
  rw [hp.arco_iff a b ha hb] at hab
  rw [hp.arco_iff b a hb ha]
  rcases hab with h | ⟨rfl, rfl⟩ | ⟨_, rfl, rfl⟩
  · exact Or.inl (hsim hdir a b ha hb h)
  · exact Or.inr (Or.inr ⟨hdir, rfl, rfl⟩)
  · exact Or.inr (Or.inl ⟨rfl, rfl⟩)

theorem passo_num_vizinhos (g g1 : Grafo) (N i j : Nat) (hN : g.n.toNat = N)
    (hi : i < N) (hj : j < N) (hp : Passo g g1 N i j)
    (hsim : g.direcionado = 0 → ∀ a b, a < N → b < N → arco g a b → arco g b a)
    (a : Nat) (ha : a < N) :
    num_vizinhos g1 a = num_vizinhos g a +
      if ¬ arco g i j ∧ (a = i ∨ (g.direcionado = 0 ∧ a = j)) then 1 else 0 := by
  by_cases hij : arco g i j
  · rw [hp.mesmo hij]; simp [hij]
  · unfold num_vizinhos
    rw [hp.n_eq, hN]
    by_cases hc : a = i ∨ (g.direcionado = 0 ∧ a = j)
    · simp only [hij, not_false_eq_true, hc, and_self, if_true]
      have key : ∃ x, x < N ∧ ¬ arco g a x ∧ ∀ b, b < N → (arco g1 a b ↔ arco g a b ∨ b = x) := by
        by_cases hai : a = i
        · subst hai
          refine ⟨j, hj, hij, fun b hb => ?_⟩
          rw [hp.arco_iff a b ha hb]
          constructor
          · rintro (h | ⟨-, h⟩ | ⟨-, h1, h2⟩)
            · exact Or.inl h
            · exact Or.inr h
            · exact Or.inr (by omega)
          · rintro (h | h)
            · exact Or.inl h
            · exact Or.inr (Or.inl ⟨rfl, h⟩)
        · rcases hc with h | ⟨hdir, haj⟩
          · exact absurd h hai
          · subst haj
            refine ⟨i, hi, fun h => hij (hsim hdir a i ha hi h), fun b hb => ?_⟩
            rw [hp.arco_iff a b ha hb]
            constructor
            · rintro (h | ⟨h, -⟩ | ⟨-, -, h⟩)
              · exact Or.inl h
              · exact absurd h hai
              · exact Or.inr h
            · rintro (h | h)
              · exact Or.inl h
              · exact Or.inr (Or.inr ⟨hdir, rfl, h⟩)
      obtain ⟨x, hx, hnx, hiff⟩ := key
      have : (Finset.range N).filter (fun b => arco g1 a b)
          = insert x ((Finset.range N).filter (fun b => arco g a b)) := by
        ext b
        simp only [Finset.mem_filter, Finset.mem_range, Finset.mem_insert]
        constructor
        · rintro ⟨hb, h⟩
          rcases (hiff b hb).1 h with h1 | h1
          · exact Or.inr ⟨hb, h1⟩
          · exact Or.inl h1
        · rintro (h | ⟨hb, h⟩)
          · subst h; exact ⟨hx, (hiff b hx).2 (Or.inr rfl)⟩
          · exact ⟨hb, (hiff b hb).2 (Or.inl h)⟩
      rw [this, Finset.card_insert_of_not_mem (by simp [hnx])]
    · simp only [hc, and_false, if_false, Nat.add_zero]
      congr 1
      apply Finset.filter_congr
      intro b hb
      have hb' : b < N := by simpa using hb
      rw [hp.arco_iff a b ha hb']
      constructor
      · rintro (h | ⟨h, -⟩ | ⟨h1, h2, -⟩)
        · exact h
        · exact absurd (Or.inl h) hc
        · exact absurd (Or.inr ⟨h1, h2⟩) hc
      · exact Or.inl

theorem passo_num_arestas (g g1 : Grafo) (N i j : Nat) (hN : g.n.toNat = N)
    (hi : i < N) (hj : j < N) (hp : Passo g g1 N i j)
    (hsim : g.direcionado = 0 → ∀ a b, a < N → b < N → arco g a b → arco g b a) :
    num_arestas_armazenadas g1 = num_arestas_armazenadas g + if arco g i j then 0 else 1 := by
  by_cases hij : arco g i j
  · rw [hp.mesmo hij]; simp [hij]
  · simp only [hij, if_false]
    unfold num_arestas_armazenadas
    rw [hp.dir_eq]
    by_cases hdir : g.direcionado = 0
    · simp only [hdir, if_true]
      unfold pares_nao_ordenados
      rw [hp.n_eq, hN]
      have hji : ¬ arco g j i := fun h => hij (hsim hdir j i hj hi h)
      have : (Finset.range N ×ˢ Finset.range N).filter
            (fun p => p.1 ≤ p.2 ∧ (arco g1 p.1 p.2 ∨ arco g1 p.2 p.1))
          = insert (min i j, max i j) ((Finset.range N ×ˢ Finset.range N).filter
            (fun p => p.1 ≤ p.2 ∧ (arco g p.1 p.2 ∨ arco g p.2 p.1))) := by
        ext ⟨a, b⟩
        simp only [Finset.mem_filter, Finset.mem_product, Finset.mem_range, Finset.mem_insert,
          Prod.mk.injEq]
        constructor
        · rintro ⟨⟨ha, hb⟩, hab, h⟩
          rw [hp.arco_iff a b ha hb, hp.arco_iff b a hb ha] at h
          rcases h with (h | ⟨rfl, rfl⟩ | ⟨-, rfl, rfl⟩) | (h | ⟨rfl, rfl⟩ | ⟨-, rfl, rfl⟩)
          · exact Or.inr ⟨⟨ha, hb⟩, hab, Or.inl h⟩
          · exact Or.inl ⟨by omega, by omega⟩
          · exact Or.inl ⟨by omega, by omega⟩
          · exact Or.inr ⟨⟨ha, hb⟩, hab, Or.inr h⟩
          · exact Or.inl ⟨by omega, by omega⟩
          · exact Or.inl ⟨by omega, by omega⟩
        · rintro (⟨rfl, rfl⟩ | ⟨⟨ha, hb⟩, hab, h⟩)
          · refine ⟨⟨by omega, by omega⟩, by omega, ?_⟩
            rw [hp.arco_iff _ _ (by omega) (by omega), hp.arco_iff _ _ (by omega) (by omega)]
            rcases Nat.le_total i j with hle | hle
            · rw [Nat.min_eq_left hle, Nat.max_eq_right hle]
              exact Or.inl (Or.inr (Or.inl ⟨rfl, rfl⟩))
            · rw [Nat.min_eq_right hle, Nat.max_eq_left hle]
              exact Or.inr (Or.inr (Or.inl ⟨rfl, rfl⟩))
          · refine ⟨⟨ha, hb⟩, hab, ?_⟩
            rw [hp.arco_iff a b ha hb, hp.arco_iff b a hb ha]
            rcases h with h | h
            · exact Or.inl (Or.inl h)
            · exact Or.inr (Or.inl h)
      rw [this, Finset.card_insert_of_not_mem]
      simp only [Finset.mem_filter, Finset.mem_product, Finset.mem_range, not_and, not_or]
      intro _ _
      rcases Nat.le_total i j with hle | hle
      · rw [Nat.min_eq_left hle, Nat.max_eq_right hle]; exact ⟨hij, hji⟩
      · rw [Nat.min_eq_right hle, Nat.max_eq_left hle]; exact ⟨hji, hij⟩
    · simp only [hdir, if_false]
      unfold pares_ordenados
      rw [hp.n_eq, hN]
      have : (Finset.range N ×ˢ Finset.range N).filter (fun p => arco g1 p.1 p.2)
          = insert (i, j) ((Finset.range N ×ˢ Finset.range N).filter
            (fun p => arco g p.1 p.2)) := by
        ext ⟨a, b⟩
        simp only [Finset.mem_filter, Finset.mem_product, Finset.mem_range, Finset.mem_insert,
          Prod.mk.injEq]
        constructor
        · rintro ⟨⟨ha, hb⟩, h⟩
          rw [hp.arco_iff a b ha hb] at h
          rcases h with h | h | ⟨h, -⟩
          · exact Or.inr ⟨⟨ha, hb⟩, h⟩
          · exact Or.inl h
          · exact absurd h hdir
        · rintro (⟨rfl, rfl⟩ | ⟨⟨ha, hb⟩, h⟩)
          · exact ⟨⟨hi, hj⟩, (hp.arco_iff _ _ hi hj).2 (Or.inr (Or.inl ⟨rfl, rfl⟩))⟩
          · exact ⟨⟨ha, hb⟩, (hp.arco_iff a b ha hb).2 (Or.inl h)⟩
      rw [this, Finset.card_insert_of_not_mem]
      simp [hij]

/-! ## One in-range insertion preserves the invariant -/

theorem passo_velho (g : Grafo) (N i j : Nat) (hij : arco g i j)
    (hsim : g.direcionado = 0 → ∀ a b, a < N → b < N → arco g a b → arco g b a)
    (hi : i < N) (hj : j < N) : Passo g g N i j where
  n_eq := rfl
  rep_eq := rfl
  dir_eq := rfl
  deg_len := rfl
  mesmo := fun _ => rfl
  arco_iff := by
    intro a b ha hb
    constructor
    · exact Or.inl
    · rintro (h | ⟨h1, h2⟩ | ⟨hd, h1, h2⟩)
      · exact h
      · rw [h1, h2]; exact hij
      · rw [h1, h2]; exact hsim hd i j hi hj hij
  deg_eq := by intro a _; simp [hij]
  m_eq := by simp [hij]

theorem indicador_aux (p : Prop) [Decidable p] (dir : Int) (a i j : Nat) (hp : ¬ p) (x : Int) :
    x + (if a = i then 1 else 0) + (if dir = 0 ∧ a = j ∧ i ≠ j then 1 else 0)
      = x + if ¬ p ∧ (a = i ∨ (dir = 0 ∧ a = j)) then 1 else 0 := by
  by_cases hai : a = i
  · subst hai
    have hc : ¬ (dir = 0 ∧ a = j ∧ a ≠ j) := fun h => h.2.2 h.2.1
    simp [hp, hc]
  · by_cases hc : dir = 0 ∧ a = j
    · obtain ⟨hd, rfl⟩ := hc
      have : i ≠ a := fun h => hai h.symm
      simp [hai, hp, hd, this]
    · have hc' : ¬ (dir = 0 ∧ a = j ∧ i ≠ j) := fun h => hc ⟨h.1, h.2.1⟩
      simp [hai, hc, hc']

theorem inserir_passo (g : Grafo) (hI : Inv g) (i j : Nat) (hi : i < g.n.toNat)
    (hj : j < g.n.toNat) :
    ∃ g1, grafo_adicionar_aresta g ((i : Int) + 1) ((j : Int) + 1) = .ok (0, g1)
      ∧ Passo g g1 g.n.toNat i j ∧ Inv g1 := by
  have hn : g.n = (g.n.toNat : Int) := by have := hI.n_pos; omega
  by_cases hij : arco g i j
  · refine ⟨g, ?_, passo_velho g _ i j hij hI.sim hi hj, hI⟩
    cases hrep : g.rep
    · exact inserir_lista_velho g _ hn hrep (hI.forma hrep) hI.sim i j hi hj hij
    · exact inserir_matriz_velho g _ hn hrep (hI.mat_len hrep) i j hi hj hij
  · -- a new edge: collect the representation-specific facts first
    have main : ∃ g1, grafo_adicionar_aresta g ((i : Int) + 1) ((j : Int) + 1) = .ok (0, g1)
        ∧ Passo g g1 g.n.toNat i j
        ∧ (g1.rep = .REP_LIST → Forma g1 g.n.toNat)
        ∧ (g1.rep = .REP_LIST → ∀ a, a < g.n.toNat → (fila g1 a).Nodup)
        ∧ (g1.rep = .REP_LIST → ∀ a, a < g.n.toNat → ∀ x ∈ fila g1 a, 1 ≤ x ∧ x ≤ g.n)
        ∧ (g1.rep = .REP_MATRIX → g1.mat.length = g.n.toNat * g.n.toNat) := by
      cases hrep : g.rep
      · obtain ⟨g1, he, hF1, hn1, hm1, hd1, hr1, -, hfila, hdeg⟩ :=
          inserir_lista_novo g _ hn hrep (hI.forma hrep) hI.sim i j hi hj hij
        have harco : ∀ a b, arco g1 a b ↔ arco g a b ∨ (a = i ∧ b = j)
            ∨ (g.direcionado = 0 ∧ a = j ∧ b = i) := by
          intro a b
          rw [arco_lista g1 hr1, arco_lista g hrep, hfila a]
          simp only [List.mem_append]
          constructor
          · rintro ((h | h) | h)
            · exact Or.inl h
            · by_cases hai : a = i
              · simp only [hai, if_true, List.mem_singleton] at h
                exact Or.inr (Or.inl ⟨hai, by omega⟩)
              · simp [hai] at h
            · by_cases hc : g.direcionado = 0 ∧ a = j ∧ i ≠ j
              · simp only [hc, and_self, if_true, List.mem_singleton, ne_eq,
                  not_false_eq_true] at h
                exact Or.inr (Or.inr ⟨hc.1, hc.2.1, by omega⟩)
              · simp [hc] at h
          · rintro (h | ⟨rfl, rfl⟩ | ⟨hd, rfl, rfl⟩)
            · exact Or.inl (Or.inl h)
            · exact Or.inl (Or.inr (by simp))
            · by_cases hab : b = a
              · subst hab; exact Or.inl (Or.inr (by simp))
              · exact Or.inr (by simp [hd, hab])
        have hnm : ¬ g1.rep = .REP_MATRIX := by rw [hr1]; intro h; cases h
        refine ⟨g1, he, ⟨hn1, by rw [hr1, hrep], hd1, by rw [hF1.1, hI.deg_len], ?_, ?_, ?_, ?_⟩,
          fun _ => hF1, ?_, ?_, fun h => absurd h hnm⟩
        · intro h; exact absurd h hij
        · intro a b _ _; exact harco a b
        · intro a _
          rw [hdeg a]
          exact indicador_aux (arco g i j) g.direcionado a i j hij _
        · simp [hm1, hij]
        · intro _ a ha
          rw [hfila a]
          have hnd := hI.fila_nodup hrep a ha
          by_cases hai : a = i
          · subst hai
            have hc : ¬ (g.direcionado = 0 ∧ a = j ∧ a ≠ j) := fun h => h.2.2 h.2.1
            simp only [if_true, hc, if_false, List.append_nil]
            rw [List.nodup_append]
            refine ⟨hnd, by simp, ?_⟩
            intro x hx hx'
            simp only [List.mem_singleton] at hx'
            subst hx'
            exact hij ((arco_lista g hrep a j).2 hx)
          · by_cases hc : g.direcionado = 0 ∧ a = j ∧ i ≠ j
            · obtain ⟨hd0, haj, hne⟩ := hc
              subst haj
              simp only [hai, if_false, List.append_nil, hd0, hne, ne_eq, not_false_eq_true,
                and_self, if_true]
              rw [List.nodup_append]
              refine ⟨hnd, by simp, ?_⟩
              intro x hx hx'
              simp only [List.mem_singleton] at hx'
              subst hx'
              exact hij (hI.sim hd0 a i ha hi ((arco_lista g hrep a i).2 hx))
            · simpa [hai, hc] using hnd
        · intro _ a ha x hx
          rw [hfila a] at hx
          simp only [List.mem_append] at hx
          rcases hx with (h | h) | h
          · exact hI.fila_range hrep a ha x h
          · by_cases hai : a = i
            · simp only [hai, if_true, List.mem_singleton] at h; omega
            · simp [hai] at h
          · by_cases hc : g.direcionado = 0 ∧ a = j ∧ i ≠ j
            · simp only [hc, and_self, if_true, List.mem_singleton, ne_eq,
                not_false_eq_true] at h
              omega
            · simp [hc] at h
      · obtain ⟨g1, he, hn1, hm1, hd1, hr1, -, -, hml1, hdl1, harco, hdeg⟩ :=
          inserir_matriz_novo g _ hn hrep (hI.mat_len hrep) hI.deg_len hI.sim i j hi hj hij
        have hnl : ¬ g1.rep = .REP_LIST := by rw [hr1]; intro h; cases h
        refine ⟨g1, he, ⟨hn1, by rw [hr1, hrep], hd1, by rw [hdl1, hI.deg_len], ?_, harco, ?_, ?_⟩,
          fun h => absurd h hnl, fun h => absurd h hnl, fun h => absurd h hnl, fun _ => hml1⟩
        · intro h; exact absurd h hij
        · intro a _
          rw [hdeg a]
          exact indicador_aux (arco g i j) g.direcionado a i j hij _
        · simp [hm1, hij]
    obtain ⟨g1, he, hp, hF1, hnd1, hrg1, hml1⟩ := main
    refine ⟨g1, he, hp, ?_⟩
    have hn1 := hp.n_eq
    exact
      { n_pos := by rw [hn1]; exact hI.n_pos
        dir01 := by rw [hp.dir_eq]; exact hI.dir01
        deg_len := by rw [hp.deg_len, hn1]; exact hI.deg_len
        forma := by rw [hn1]; exact hF1
        fila_nodup := by rw [hn1]; exact hnd1
        fila_range := by rw [hn1]; exact hrg1
        mat_len := by rw [hn1]; exact hml1
        deg_eq := by
          rw [hn1]
          intro a ha
          rw [hp.deg_eq a ha, hI.deg_eq a ha,
            passo_num_vizinhos g g1 _ i j rfl hi hj hp hI.sim a ha]
          push_cast
          rfl
        sim := by rw [hn1]; exact passo_sim g g1 _ i j hp hI.sim
        m_eq := by
          rw [hp.m_eq, hI.m_eq, passo_num_arestas g g1 _ i j rfl hi hj hp hI.sim]
          by_cases hij : arco g i j
          · simp [hij]
          · rw [if_neg hij, if_neg hij, int32_succ]
            push_cast
            rfl }

/-! ## Creation and reachable graphs -/

theorem getD_replicate_zero (k p : Nat) : (List.replicate k (0 : Int)).getD p 0 = 0 := by
  rw [List.getD_eq_getElem?_getD, List.getElem?_replicate]
  split <;> rfl

theorem getD_replicate_nil (k p : Nat) :
    (List.replicate k ([] : List Int)).getD p [] = [] := by
  rw [List.getD_eq_getElem?_getD, List.getElem?_replicate]
  split <;> rfl

theorem criar_eq (n : Int) (rep : Representation) (dir : Int) (g : Grafo)
    (h : grafo_criar n rep dir = some g) :
    0 < n ∧ g.n = n ∧ g.m = 0 ∧ g.direcionado = (if dir ≠ 0 then 1 else 0) ∧ g.rep = rep
      ∧ g.deg = List.replicate n.toNat 0
      ∧ (rep = .REP_LIST → g.adj = List.replicate n.toNat [] ∧ g.cap = List.replicate n.toNat 0
          ∧ g.mat = [])
      ∧ (rep = .REP_MATRIX → g.adj = [] ∧ g.cap = []
          ∧ g.mat = List.replicate (n.toNat * n.toNat) 0) := by
  unfold grafo_criar at h
  split at h
  · cases h
  · cases h
    refine ⟨by omega, rfl, rfl, rfl, rfl, rfl, ?_, ?_⟩
    · intro hr; subst hr; simp
    · intro hr; subst hr; simp

theorem fila_criar (n : Int) (rep : Representation) (dir : Int) (g : Grafo)
    (h : grafo_criar n rep dir = some g) (a : Nat) : fila g a = [] := by
  obtain ⟨-, -, -, -, -, hdeg, -, -⟩ := criar_eq n rep dir g h
  unfold fila
  rw [hdeg, getD_replicate_zero]
  rfl

theorem arco_criar (n : Int) (rep : Representation) (dir : Int) (g : Grafo)
    (h : grafo_criar n rep dir = some g) (a b : Nat) : ¬ arco g a b := by
  have hf := fila_criar n rep dir g h a
  obtain ⟨-, -, -, -, hrep, -, -, hm⟩ := criar_eq n rep dir g h
  cases rep
  · rw [arco_lista g hrep, hf]
    simp
  · rw [arco_matriz g hrep, (hm rfl).2.2, getD_replicate_zero]
    simp

theorem inv_criar (n : Int) (rep : Representation) (dir : Int) (g : Grafo)
    (h : grafo_criar n rep dir = some g) : Inv g := by
  have hf := fila_criar n rep dir g h
  have ha := arco_criar n rep dir g h
  obtain ⟨hn, hgn, hgm, hdir, hrep, hdeg, hl, hm⟩ := criar_eq n rep dir g h
  exact
    { n_pos := by omega
      dir01 := by
        rw [hdir]
        split
        · exact Or.inr rfl
        · exact Or.inl rfl
      deg_len := by rw [hdeg, hgn]; simp
      forma := by
        intro hr
        rw [hrep] at hr
        obtain ⟨hadj, hcap, -⟩ := hl hr
        refine ⟨by rw [hdeg, hgn]; simp, by rw [hadj, hgn]; simp, by rw [hcap, hgn]; simp, ?_⟩
        intro i _
        rw [hdeg, hcap, hadj, getD_replicate_zero, getD_replicate_nil]
        simp
      fila_nodup := by intro _ i _; rw [hf i]; exact List.nodup_nil
      fila_range := by intro _ i _ x hx; rw [hf i] at hx; cases hx
      mat_len := by
        intro hr
        rw [hrep] at hr
        rw [(hm hr).2.2, hgn]
        simp
      deg_eq := by
        intro i _
        rw [hdeg, getD_replicate_zero]
        unfold num_vizinhos
        rw [Finset.filter_false_of_mem (fun b _ => ha i b)]
        simp
      sim := by intro _ a b _ _ hab; exact absurd hab (ha a b)
      m_eq := by
        rw [hgm]
        unfold num_arestas_armazenadas pares_nao_ordenados pares_ordenados
        have e1 : (Finset.range g.n.toNat ×ˢ Finset.range g.n.toNat).filter
            (fun p => arco g p.1 p.2) = ∅ :=
          Finset.filter_false_of_mem (fun p _ => ha p.1 p.2)
        have e2 : (Finset.range g.n.toNat ×ˢ Finset.range g.n.toNat).filter
            (fun p => p.1 ≤ p.2 ∧ (arco g p.1 p.2 ∨ arco g p.2 p.1)) = ∅ :=
          Finset.filter_false_of_mem (fun p _ => by
            rintro ⟨-, h1 | h1⟩
            · exact ha _ _ h1
            · exact ha _ _ h1)
        rw [e1, e2]
        simp [int32] }

theorem inserir_fora (g : Grafo) (u v : Int) (h : u < 1 ∨ u > g.n ∨ v < 1 ∨ v > g.n) :
    grafo_adicionar_aresta g u v = .ok (-1, g) := by
  simp [grafo_adicionar_aresta, h]

/-- On a graph satisfying the invariant every call returns normally, with status `-1` and
the graph untouched when an id is out of range, and status `0` otherwise. -/
theorem inserir_total (g : Grafo) (hI : Inv g) (u v : Int) :
    ∃ rc g1, grafo_adicionar_aresta g u v = .ok (rc, g1) ∧ Inv g1
      ∧ g1.n = g.n ∧ g1.rep = g.rep ∧ g1.direcionado = g.direcionado
      ∧ ((u < 1 ∨ u > g.n ∨ v < 1 ∨ v > g.n) → rc = -1 ∧ g1 = g)
      ∧ (¬ (u < 1 ∨ u > g.n ∨ v < 1 ∨ v > g.n) → rc = 0
          ∧ Passo g g1 g.n.toNat (u - 1).toNat (v - 1).toNat) := by
  by_cases h : u < 1 ∨ u > g.n ∨ v < 1 ∨ v > g.n
  · exact ⟨-1, g, inserir_fora g u v h, hI, rfl, rfl, rfl, fun _ => ⟨rfl, rfl⟩,
      fun h' => absurd h h'⟩
  · have hu : u = (((u - 1).toNat : Nat) : Int) + 1 := by omega
    have hv : v = (((v - 1).toNat : Nat) : Int) + 1 := by omega
    obtain ⟨g1, he, hp, hI1⟩ := inserir_passo g hI (u - 1).toNat (v - 1).toNat (by omega)
      (by omega)
    rw [← hu, ← hv] at he
    exact ⟨0, g1, he, hI1, hp.n_eq, hp.rep_eq, hp.dir_eq, fun h' => absurd h' h,
      fun _ => ⟨rfl, hp⟩⟩

theorem inv_alcancavel (g : Grafo) (h : Alcancavel g) : Inv g := by
  induction h with
  | criar n rep dir g hc => exact inv_criar n rep dir g hc
  | inserir g u v rc g1 _ he ih =>
    obtain ⟨rc', g1', he', hI1, -⟩ := inserir_total g ih u v
    rw [he] at he'
    cases he'
    exact hI1

/-! ## Inversion of a monadic bind -/

theorem bind_ok_inv {α β : Type} {x : Except Fault α} {f : α → Except Fault β} {b : β}
    (h : (x >>= f) = .ok b) : ∃ a, x = .ok a ∧ f a = .ok b := by
  cases x with
  | error e => cases h
  | ok a => exact ⟨a, rfl, h⟩

/-! ## The neighbour scan -/

theorem para_append {σ : Type} (corpo : Nat → σ → Except Fault σ) (xs ys : List Nat) (st : σ) :
    para corpo (xs ++ ys) st = (para corpo xs st >>= fun st1 => para corpo ys st1) := by
  induction xs generalizing st with
  | nil => simp [para]
  | cons x xs ih =>
    simp only [List.cons_append, para]
    cases corpo x st with
    | error e => rfl
    | ok st1 => simp [ih]

theorem para_lista (adj : List (List Int)) (u : Nat) (row : List Int)
    (hrow : adj[u]? = some row) {σ : Type} (visita : Int → σ → Except Fault σ)
    (is : List Nat) (his : ∀ i ∈ is, i < row.length ∧ 1 ≤ row.getD i 0) (st : σ) :
    para (fun i st => do
        let row ← rd adj (u : Int)
        let x ← rd row i
        visita (x - 1) st) is st
      = para (fun w st => visita (w : Int) st) (is.map (fun i => (row.getD i 0 - 1).toNat)) st := by
  induction is generalizing st with
  | nil => simp [para]
  | cons i is ih =>
    obtain ⟨hi, h1⟩ := his i (by simp)
    have e : ((row.getD i 0 - 1).toNat : Int) = row.getD i 0 - 1 := by omega
    simp only [para, List.map_cons, rd_nat hrow, ok_bind, rd_nat_lt (0 : Int) hi, e]
    cases visita (row.getD i 0 - 1) st with
    | error e => rfl
    | ok st1 =>
      simp only [ok_bind]
      have := ih (fun k hk => his k (by simp [hk])) st1
      simp only [rd_nat hrow, ok_bind] at this
      exact this

theorem para_matriz (mat : List Int) (u N : Nat) {σ : Type}
    (visita : Int → σ → Except Fault σ)
    (is : List Nat) (his : ∀ i ∈ is, u * N + i < mat.length) (st : σ) :
    para (fun v st => do
        let c ← rd mat ((u : Int) * (N : Int) + v)
        if c ≠ 0 then visita v st else pure st) is st
      = para (fun w st => visita (w : Int) st)
          (is.filter (fun w => mat.getD (u * N + w) 0 ≠ 0)) st := by
  induction is generalizing st with
  | nil => simp [para]
  | cons i is ih =>
    have hi := his i (by simp)
    have e : (u : Int) * (N : Int) + (i : Int) = ((u * N + i : Nat) : Int) := by push_cast; rfl
    have ih1 := fun st1 => ih (fun k hk => his k (by simp [hk])) st1
    simp only [para, e, rd_nat_lt (0 : Int) hi, ok_bind]
    by_cases hc : mat.getD (u * N + i) 0 = 0
    · rw [List.filter_cons_of_neg (by simpa using hc)]
      simp only [hc, ne_eq, not_true_eq_false, if_false, pure_ok, ok_bind]
      exact ih1 st
    · rw [List.filter_cons_of_pos (by simpa using hc)]
      simp only [hc, ne_eq, not_false_eq_true, if_true, para]
      cases visita (i : Int) st with
      | error e => rfl
      | ok st1 =>
        simp only [ok_bind]
        exact ih1 st1

theorem map_getD_range (row : List Int) (d : Nat) (hd : d ≤ row.length) :
    (List.range d).map (fun i => row.getD i 0) = row.take d := by
  apply List.ext_getElem?
  intro k
  simp only [List.getElem?_map, List.getElem?_range, List.getElem?_take]
  by_cases hk : k < d
  · have hk2 : k < row.length := by omega
    simp [hk, List.getElem?_range hk, List.getD_eq_getElem?_getD, List.getElem?_eq_getElem hk2]
  · simp [hk, List.getElem?_eq_none (show (List.range d).length ≤ k by simp; omega)]

/-- On a graph satisfying the invariant the scan of the neighbours of `u` is a loop over
`viz_lista g u`, and that list holds exactly the stored neighbours of `u`. -/
theorem varre_eq (g : Grafo) (hI : Inv g) (u : Nat) (hu : u < g.n.toNat) {σ : Type}
    (visita : Int → σ → Except Fault σ) (st : σ) :
    varre g (u : Int) visita st = para (fun w st => visita (w : Int) st) (viz_lista g u) st := by
  have hn : g.n = (g.n.toNat : Int) := by have := hI.n_pos; omega
  cases hrep : g.rep
  · obtain ⟨hdl, hal, -, hsh⟩ := hI.forma hrep
    obtain ⟨h0, hdc, hlen⟩ := hsh u hu
    have hrow := getElem?_getD g.adj u [] (by omega)
    simp only [varre, hrep, viz_lista, rd_nat_lt (0 : Int) (show u < g.deg.length by omega),
      ok_bind]
    rw [para_lista g.adj u _ hrow visita]
    · congr 1
      unfold fila
      rw [← map_getD_range _ _ (show (g.deg.getD u 0).toNat ≤ (g.adj.getD u []).length by omega)]
      simp [List.map_map]
    · intro i hi
      have hi' : i < (g.deg.getD u 0).toNat := List.mem_range.1 hi
      refine ⟨by omega, ?_⟩
      have hmem : (g.adj.getD u []).getD i 0 ∈ fila g u := by
        unfold fila
        rw [List.mem_take_iff_getElem]
        exact ⟨i, lt_min hi' (by omega), (List.getD_eq_getElem _ _ (by omega)).symm⟩
      exact (hI.fila_range hrep u hu _ hmem).1
  · have hml := hI.mat_len hrep
    simp only [varre, hrep, viz_lista]
    rw [hn]
    simp only [Int.toNat_ofNat]
    apply para_matriz
    intro i hi
    have hi' : i < g.n.toNat := by simpa using hi
    rw [hml]
    exact cell_lt _ u i hu hi'

theorem mem_viz_lista (g : Grafo) (hI : Inv g) (u : Nat) (hu : u < g.n.toNat) (w : Nat) :
    w ∈ viz_lista g u ↔ w < g.n.toNat ∧ arco g u w := by
  cases hrep : g.rep
  · simp only [viz_lista, hrep, arco, List.mem_map]
    constructor
    · rintro ⟨x, hx, rfl⟩
      obtain ⟨h1, h2⟩ := hI.fila_range hrep u hu x hx
      refine ⟨by omega, ?_⟩
      have : (((x - 1).toNat : Nat) : Int) + 1 = x := by omega
      rw [this]; exact hx
    · rintro ⟨_, hx⟩
      exact ⟨_, hx, by simp⟩
  · simp only [viz_lista, hrep, arco, List.mem_filter, List.mem_range]
    simp

/-! ## Breadth-first search: one visit -/

theorem nodup_range_length (L : List Int) (N : Nat) (hnd : L.Nodup)
    (hr : ∀ x ∈ L, 0 ≤ x ∧ x < N) : L.length ≤ N := by
  have hinj : ∀ x ∈ L, ∀ y ∈ L, x.toNat = y.toNat → x = y := by
    intro x hx y hy h
    have := hr x hx
    have := hr y hy
    omega
  have hnd2 : (L.map Int.toNat).Nodup := (List.nodup_map_iff_inj_on hnd).2 hinj
  have hsub : (L.map Int.toNat).toFinset ⊆ Finset.range N := by
    intro k hk
    simp only [List.mem_toFinset, List.mem_map] at hk
    obtain ⟨x, hx, rfl⟩ := hk
    have := hr x hx
    simp only [Finset.mem_range]
    omega
  have := Finset.card_le_card hsub
  rw [List.toFinset_card_of_nodup hnd2] at this
  simpa using this

theorem fila_q_length (g : Grafo) (S : Nat) (st : BfsEstado) (hB : BfsInv g S st) :
    (fila_q st).length = st.qt.toNat := by
  unfold fila_q
  rw [List.length_take, hB.q_len]
  have := hB.qt_le
  omega

theorem vizinho_range (g : Grafo) (x w : Int) (h : vizinho g (x + 1) (w + 1)) :
    0 ≤ x ∧ x < g.n ∧ 0 ≤ w ∧ w < g.n := by
  unfold vizinho at h
  omega

theorem rd_int {α : Type} (a : List α) (i : Int) (d : α) (h0 : 0 ≤ i) (h : i.toNat < a.length) :
    rd a i = .ok (a.getD i.toNat d) := by
  unfold rd
  rw [if_neg (by omega), List.getElem?_eq_getElem h, List.getD_eq_getElem _ _ h]

theorem bfs_visita_spec (g : Grafo) (S : Nat) (st : BfsEstado) (H : Nat) (u w : Int)
    (hB : BfsInv g S st) (hM : BfsMeio g st H u) (hviz : vizinho g (u + 1) (w + 1)) :
    ∃ st1, bfs_visita u w st = .ok st1 ∧ BfsInv g S st1 ∧ BfsMeio g st1 H u
      ∧ nivel_de st1 w ≠ -1
      ∧ (∀ x, nivel_de st x ≠ -1 → nivel_de st1 x = nivel_de st x) := by
  obtain ⟨hu0, hun, hw0, hwn⟩ := vizinho_range g u w hviz
  have hnl := hB.nivel_len
  have hrdw : rd st.nivel w = .ok (nivel_de st w) :=
    rd_int st.nivel w (-1) hw0 (by omega)
  by_cases hvis : nivel_de st w = -1
  swap
  · refine ⟨st, ?_, hB, hM, hvis, fun _ _ => rfl⟩
    simp [bfs_visita, hrdw, hvis]
  · -- `w` is discovered now
    have hlenQ := fila_q_length g S st hB
    have huQ : u ∈ fila_q st := List.getElem?_mem hM.u_eq
    have huv : nivel_de st u ≠ -1 := (hB.vis_iff u hu0 hun).2 huQ
    obtain ⟨hlu0, hcam⟩ := hB.som u hu0 hun huv
    have hwQ : w ∉ fila_q st := fun h => ((hB.vis_iff w hw0 hwn).2 h) hvis
    have hHlt : H < (fila_q st).length := lt_length_of_getElem? hM.u_eq
    have hqt : st.qt < g.n := by
      have h1 : (w :: fila_q st).Nodup := List.nodup_cons.2 ⟨hwQ, hB.q_nodup⟩
      have h2 := nodup_range_length (w :: fila_q st) g.n.toNat h1 (by
        intro x hx
        rcases List.mem_cons.1 hx with rfl | hx
        · omega
        · have := hB.q_range x hx; omega)
      simp only [List.length_cons, hlenQ] at h2
      have := hB.qt_nonneg
      omega
    have hqt0 := hB.qt_nonneg
    have hrdu : rd st.nivel u = .ok (nivel_de st u) :=
      rd_int st.nivel u (-1) hu0 (by omega)
    have hwr1 : wr st.nivel w (nivel_de st u + 1)
        = .ok (st.nivel.set w.toNat (nivel_de st u + 1)) := by
      simp only [wr]; rw [if_pos ⟨hw0, by omega⟩]
    have hwr2 : wr st.pai w (u + 1) = .ok (st.pai.set w.toNat (u + 1)) := by
      simp only [wr]; rw [if_pos ⟨hw0, by have := hB.pai_len; omega⟩]
    have hwr3 : wr st.q st.qt w = .ok (st.q.set st.qt.toNat w) := by
      simp only [wr]; rw [if_pos ⟨hqt0, by have := hB.q_len; omega⟩]
    obtain ⟨st1, hst1⟩ : ∃ st1 : BfsEstado, st1 = BfsEstado.mk (st.pai.set w.toNat (u + 1))
        (st.nivel.set w.toNat (nivel_de st u + 1)) (st.q.set st.qt.toNat w) (st.qt + 1) :=
      ⟨_, rfl⟩
    refine ⟨st1, ?_, ?_⟩
    · subst hst1
      simp [bfs_visita, hrdw, hvis, hrdu, hwr1, hwr2, hwr3]
    have hQ1 : fila_q st1 = fila_q st ++ [w] := by
      subst hst1
      simp only [fila_q]
      have e1 : (st.qt + 1).toNat = st.qt.toNat + 1 := by omega
      rw [e1, List.take_succ, take_set_ge _ _ _ _ (le_refl _)]
      have : st.qt.toNat < st.q.length := by have := hB.q_len; omega
      simp [List.getElem?_set, this]
    have hlw : nivel_de st1 w = nivel_de st u + 1 := by
      subst hst1
      simp only [nivel_de]
      rw [getD_set_eq _ _ _ _ (by omega)]
    have hlx : ∀ x, 0 ≤ x → x ≠ w → nivel_de st1 x = nivel_de st x := by
      intro x hx hxw
      subst hst1
      simp only [nivel_de]
      rw [getD_set_ne _ _ _ _ _ (by omega)]
    have hlQ : ∀ x ∈ fila_q st, nivel_de st1 x = nivel_de st x := by
      intro x hx
      exact hlx x (hB.q_range x hx).1 (fun h => hwQ (h ▸ hx))
    have hlvis : ∀ x, nivel_de st x ≠ -1 → nivel_de st1 x = nivel_de st x := by
      intro x hx
      by_cases hx0 : 0 ≤ x
      · exact hlx x hx0 (fun h => hx (h ▸ hvis))
      · subst hst1
        by_cases hw' : w.toNat = 0
        · have hw0' : w = 0 := by omega
          have : x.toNat = 0 := by omega
          simp only [nivel_de, this] at hx ⊢
          simp only [nivel_de, hw0'] at hvis
          exact absurd hvis hx
        · simp only [nivel_de]
          rw [getD_set_ne _ _ _ _ _ (by omega)]
    have hlu : nivel_de st1 u = nivel_de st u := hlvis u huv
    refine ⟨?_, ?_, by rw [hlw]; omega, hlvis⟩
    · exact
        { qt_nonneg := by subst hst1; simp only; omega
          pai_len := by subst hst1; simpa using hB.pai_len
          nivel_len := by subst hst1; simpa using hB.nivel_len
          q_len := by subst hst1; simpa using hB.q_len
          qt_le := by subst hst1; simp only; omega
          q_range := by
            intro x hx
            rw [hQ1] at hx
            rcases List.mem_append.1 hx with hx | hx
            · exact hB.q_range x hx
            · simp only [List.mem_singleton] at hx; subst hx; exact ⟨hw0, hwn⟩
          q_nodup := by
            rw [hQ1, List.nodup_append]
            refine ⟨hB.q_nodup, by simp, ?_⟩
            intro x hx hx'
            simp only [List.mem_singleton] at hx'
            subst hx'
            exact hwQ hx
          vis_iff := by
            intro x hx0 hxn
            rw [hQ1, List.mem_append, List.mem_singleton]
            by_cases hxw : x = w
            · subst hxw
              rw [hlw]
              constructor
              · intro _; exact Or.inr rfl
              · intro _; omega
            · rw [hlx x hx0 hxw, hB.vis_iff x hx0 hxn]
              constructor
              · exact Or.inl
              · rintro (h | h)
                · exact h
                · exact absurd h hxw
          som := by
            intro x hx0 hxn hx
            by_cases hxw : x = w
            · subst hxw
              rw [hlw]
              refine ⟨by omega, ?_⟩
              have e : (nivel_de st u + 1).toNat = (nivel_de st u).toNat + 1 := by omega
              rw [e]
              exact Caminho.passo _ _ _ hcam hviz
            · rw [hlx x hx0 hxw] at hx ⊢
              exact hB.som x hx0 hxn hx
          s_zero := by
            have := hB.s_zero
            rw [hlvis _ (by rw [this]; omega)]
            exact this }
    · exact
        { u_eq := by
            rw [hQ1, List.getElem?_append_left hHlt]
            exact hM.u_eq
          lim := by
            intro x hx
            rw [hQ1] at hx
            rw [hlu]
            rcases List.mem_append.1 hx with hx | hx
            · rw [hlQ x hx]; exact hM.lim x hx
            · simp only [List.mem_singleton] at hx; subst hx; rw [hlw]
          ord := by
            rw [hQ1, List.drop_append_of_le_length (by omega), List.pairwise_append]
            refine ⟨?_, List.pairwise_singleton _ _, ?_⟩
            · refine List.Pairwise.imp_of_mem ?_ hM.ord
              intro a b ha hb hab
              rw [hlQ a (List.mem_of_mem_drop ha), hlQ b (List.mem_of_mem_drop hb)]
              exact hab
            · intro a ha b hb
              simp only [List.mem_singleton] at hb
              subst hb
              rw [hlQ a (List.mem_of_mem_drop ha), hlw]
              exact hM.lim a (List.mem_of_mem_drop ha)
          piso := by
            intro y hy
            rw [hQ1, List.drop_append_of_le_length (by omega)] at hy
            rw [hlu]
            rcases List.mem_append.1 hy with hy | hy
            · rw [hlQ y (List.mem_of_mem_drop hy)]; exact hM.piso y hy
            · simp only [List.mem_singleton] at hy; subst hy; rw [hlw]; omega
          proc := by
            intro x hx w' hv'
            rw [hQ1, List.take_append_of_le_length (by omega)] at hx
            obtain ⟨h1, h2⟩ := hM.proc x hx w' hv'
            rw [hlvis w' h1, hlQ x (List.mem_of_mem_take hx)]
            exact ⟨h1, h2⟩ }

/-! ## Breadth-first search: the loops -/

theorem bfs_varre_spec (g : Grafo) (S H : Nat) (u : Int) (ws : List Nat)
    (hws : ∀ w ∈ ws, vizinho g (u + 1) ((w : Int) + 1)) :
    ∀ st, BfsInv g S st → BfsMeio g st H u →
      ∃ st1, para (fun w st => bfs_visita u (w : Int) st) ws st = .ok st1
        ∧ BfsInv g S st1 ∧ BfsMeio g st1 H u
        ∧ (∀ x, nivel_de st x ≠ -1 → nivel_de st1 x = nivel_de st x)
        ∧ (∀ w ∈ ws, nivel_de st1 (w : Int) ≠ -1) := by
  induction ws with
  | nil =>
    intro st hB hM
    exact ⟨st, rfl, hB, hM, fun _ _ => rfl, by simp⟩
  | cons w ws ih =>
    intro st hB hM
    obtain ⟨st1, he1, hB1, hM1, hw1, hfr1⟩ :=
      bfs_visita_spec g S st H u (w : Int) hB hM (hws w (by simp))
    obtain ⟨st2, he2, hB2, hM2, hfr2, hall2⟩ :=
      ih (fun w' hw' => hws w' (by simp [hw'])) st1 hB1 hM1
    refine ⟨st2, by simp [para, he1, he2], hB2, hM2, ?_, ?_⟩
    · intro x hx
      rw [hfr2 x (by rw [hfr1 x hx]; exact hx), hfr1 x hx]
    · intro w' hw'
      rcases List.mem_cons.1 hw' with rfl | h
      · rw [hfr2 _ hw1]; exact hw1
      · exact hall2 w' h

theorem bfs_topo_meio (g : Grafo) (S : Nat) (st : BfsEstado) (H : Nat)
    (hB : BfsInv g S st) (hT : BfsTopo g st H) (hlt : (H : Int) < st.qt) :
    ∃ u, rd st.q (H : Int) = .ok u ∧ BfsMeio g st H u := by
  have hlenQ := fila_q_length g S st hB
  have hHQ : H < (fila_q st).length := by omega
  have hHq : H < st.q.length := by have := hB.q_len; have := hB.qt_le; omega
  have hu : (fila_q st)[H]? = some (st.q.getD H 0) := by
    unfold fila_q
    rw [List.getElem?_take, if_pos (by omega)]
    exact getElem?_getD _ _ _ hHq
  have hdrop : (fila_q st).drop H = st.q.getD H 0 :: (fila_q st).drop (H + 1) := by
    rw [List.drop_eq_getElem_cons hHQ]
    congr 1
    have := List.getElem?_eq_getElem hHQ
    rw [hu] at this
    exact (Option.some.inj this).symm
  have hord := hT.ord
  rw [hdrop, List.pairwise_cons] at hord
  refine ⟨st.q.getD H 0, rd_nat_lt 0 hHq, ?_⟩
  exact
    { u_eq := hu
      lim := fun x hx => hT.lim x hx _ (by rw [hdrop]; simp)
      ord := hord.2
      piso := fun y hy => hord.1 y hy
      proc := hT.proc }

theorem bfs_meio_topo (g : Grafo) (S : Nat) (st : BfsEstado) (H : Nat) (u : Int)
    (hB : BfsInv g S st) (hM : BfsMeio g st H u)
    (hall : ∀ w, vizinho g (u + 1) (w + 1) → nivel_de st w ≠ -1) :
    BfsTopo g st (H + 1) := by
  have hlenQ := fila_q_length g S st hB
  have hHQ : H < (fila_q st).length := lt_length_of_getElem? hM.u_eq
  have hq0 := hB.qt_nonneg
  exact
    { h_le := by push_cast; omega
      lim := fun x hx y hy => by
        have h1 := hM.lim x hx
        have h2 := hM.piso y hy
        omega
      ord := hM.ord
      proc := by
        intro x hx w hv
        rw [List.take_succ, hM.u_eq] at hx
        rcases List.mem_append.1 hx with hx | hx
        · exact hM.proc x hx w hv
        · simp only [Option.toList, List.mem_singleton] at hx
          subst hx
          have hw := hall w hv
          obtain ⟨-, -, hw0, hwn⟩ := vizinho_range g x w hv
          exact ⟨hw, hM.lim w ((hB.vis_iff w hw0 hwn).1 hw)⟩ }

theorem bfs_laco_spec (g : Grafo) (hI : Inv g) (S : Nat) :
    ∀ (fuel H : Nat) (st : BfsEstado), BfsInv g S st → BfsTopo g st H →
      g.n.toNat ≤ fuel + H →
      ∃ st1, bfs_laco g fuel (H : Int) st = .ok st1 ∧ BfsInv g S st1
        ∧ BfsTopo g st1 st1.qt.toNat := by
  intro fuel
  induction fuel with
  | zero =>
    intro H st hB hT hf
    have h1 := hT.h_le
    have h2 := hB.qt_le
    have hqt : st.qt = (H : Int) := by omega
    refine ⟨st, by simp [bfs_laco, hqt], hB, ?_⟩
    rw [hqt]
    simpa using hT
  | succ k ih =>
    intro H st hB hT hf
    by_cases hlt : (H : Int) < st.qt
    · obtain ⟨u, hrd, hM⟩ := bfs_topo_meio g S st H hB hT hlt
      have huQ : u ∈ fila_q st := List.getElem?_mem hM.u_eq
      obtain ⟨hu0, hun⟩ := hB.q_range u huQ
      have hue : u = ((u.toNat : Nat) : Int) := by omega
      have hunat : u.toNat < g.n.toNat := by omega
      have hws : ∀ w ∈ viz_lista g u.toNat, vizinho g (u + 1) ((w : Int) + 1) := by
        intro w hw
        obtain ⟨hwn, harc⟩ := (mem_viz_lista g hI u.toNat hunat w).1 hw
        refine ⟨by omega, by omega, by omega, by omega, ?_⟩
        simpa using harc
      obtain ⟨st1, he1, hB1, hM1, -, hall⟩ := bfs_varre_spec g S H u _ hws st hB hM
      have hvar : varre g u (bfs_visita u) st = .ok st1 := by
        rw [hue, varre_eq g hI u.toNat hunat, ← hue]
        exact he1
      have hT1 : BfsTopo g st1 (H + 1) := by
        apply bfs_meio_topo g S st1 H u hB1 hM1
        intro w hv
        obtain ⟨-, -, hw0, hwn⟩ := vizinho_range g u w hv
        have hwe : w = ((w.toNat : Nat) : Int) := by omega
        rw [hwe]
        apply hall
        rw [mem_viz_lista g hI u.toNat hunat]
        refine ⟨by omega, ?_⟩
        have := hv.2.2.2.2
        simpa using this
      obtain ⟨st2, he2, hB2, hT2⟩ := ih (H + 1) st1 hB1 hT1 (by omega)
      refine ⟨st2, ?_, hB2, hT2⟩
      simp only [bfs_laco, hlt, if_true, hrd, ok_bind, hvar]
      have : ((H + 1 : Nat) : Int) = (H : Int) + 1 := by push_cast; rfl
      rw [← this]
      exact he2
    · have h1 := hT.h_le
      have hqt : st.qt = (H : Int) := by omega
      refine ⟨st, by simp [bfs_laco, hlt], hB, ?_⟩
      rw [hqt]
      simpa using hT

theorem bfs_final (g : Grafo) (S : Nat) (st : BfsEstado) (hB : BfsInv g S st)
    (hT : BfsTopo g st st.qt.toNat) (v : Int) (k : Nat)
    (hc : Caminho g ((S : Int) + 1) v k) :
    nivel_de st (v - 1) ≠ -1 ∧ nivel_de st (v - 1) ≤ k := by
  induction hc with
  | inicio =>
    have := hB.s_zero
    simp only [add_sub_cancel_right]
    rw [this]
    omega
  | passo x w k _ hv ih =>
    have hv' : vizinho g ((x - 1) + 1) ((w - 1) + 1) := by simpa using hv
    obtain ⟨hx0, hxn, hw0, hwn⟩ := vizinho_range g (x - 1) (w - 1) hv'
    have hxQ : (x - 1) ∈ (fila_q st).take st.qt.toNat := by
      rw [List.take_of_length_le (by rw [fila_q_length g S st hB])]
      exact (hB.vis_iff (x - 1) hx0 hxn).1 ih.1
    obtain ⟨h1, h2⟩ := hT.proc (x - 1) hxQ (w - 1) hv'
    refine ⟨h1, ?_⟩
    push_cast
    omega

/-! ## Breadth-first search: the whole run -/

theorem bfs_inicial (g : Grafo) (S : Nat) (hS : S < g.n.toNat) :
    ∃ q1 nivel1 pai1,
      wr (List.replicate g.n.toNat (0 : Int)) 0 ((S : Int) + 1 - 1) = .ok q1
      ∧ wr (List.replicate g.n.toNat (-1 : Int)) ((S : Int) + 1 - 1) 0 = .ok nivel1
      ∧ wr (List.replicate g.n.toNat (0 : Int)) ((S : Int) + 1 - 1) (-1) = .ok pai1
      ∧ BfsInv g S (BfsEstado.mk pai1 nivel1 q1 1)
      ∧ BfsTopo g (BfsEstado.mk pai1 nivel1 q1 1) 0 := by
  obtain ⟨st0, hst0⟩ : ∃ st0 : BfsEstado, st0 = BfsEstado.mk
      ((List.replicate g.n.toNat (0 : Int)).set S (-1))
      ((List.replicate g.n.toNat (-1 : Int)).set S 0)
      ((List.replicate g.n.toNat (0 : Int)).set 0 (S : Int)) 1 := ⟨_, rfl⟩
  have hQ : fila_q st0 = [(S : Int)] := by
    subst hst0
    simp only [fila_q]
    have : (1 : Int).toNat = 1 := rfl
    rw [this, List.take_succ]
    have hpos : 0 < g.n := by omega
    simp [List.getElem?_set, hpos]
  have hlv : ∀ x : Int, 0 ≤ x → nivel_de st0 x = if x = (S : Int) then 0 else -1 := by
    intro x hx
    subst hst0
    simp only [nivel_de]
    by_cases hxs : x = (S : Int)
    · subst hxs
      rw [if_pos rfl, Int.toNat_ofNat, getD_set_eq _ _ _ _ (by simpa using hS)]
    · rw [if_neg hxs, getD_set_ne _ _ _ _ _ (by omega)]
      rw [List.getD_eq_getElem?_getD, List.getElem?_replicate]
      split <;> rfl
  have hlS : nivel_de st0 (S : Int) = 0 := by rw [hlv _ (by omega), if_pos rfl]
  have h0 : wr (List.replicate g.n.toNat (0 : Int)) 0 ((S : Int) + 1 - 1)
      = .ok ((List.replicate g.n.toNat (0 : Int)).set 0 (S : Int)) := by
    simp only [wr, add_sub_cancel_right]
    rw [if_pos ⟨le_refl _, by simp; omega⟩]
    rfl
  refine ⟨(List.replicate g.n.toNat (0 : Int)).set 0 (S : Int),
    (List.replicate g.n.toNat (-1 : Int)).set S 0,
    (List.replicate g.n.toNat (0 : Int)).set S (-1), h0, ?_, ?_, ?_⟩
  · simp only [add_sub_cancel_right]
    exact wr_nat _ (by simpa using hS)
  · simp only [add_sub_cancel_right]
    exact wr_nat _ (by simpa using hS)
  rw [← hst0]
  constructor
  · exact
      { qt_nonneg := by subst hst0; simp
        pai_len := by subst hst0; simp
        nivel_len := by subst hst0; simp
        q_len := by subst hst0; simp
        qt_le := by subst hst0; simp only; omega
        q_range := by
          intro x hx
          rw [hQ, List.mem_singleton] at hx
          subst hx
          exact ⟨by omega, by omega⟩
        q_nodup := by rw [hQ]; exact List.nodup_singleton _
        vis_iff := by
          intro x hx0 _
          rw [hQ, List.mem_singleton, hlv x hx0]
          by_cases hxs : x = (S : Int)
          · simp [hxs]
          · simp [hxs]
        som := by
          intro x hx0 _ hx
          rw [hlv x hx0] at hx ⊢
          by_cases hxs : x = (S : Int)
          · subst hxs
            simp only [if_true, le_refl, Int.toNat_zero, true_and]
            exact Caminho.inicio
          · simp [hxs] at hx
        s_zero := hlS }
  · exact
      { h_le := by subst hst0; simp
        lim := by
          intro x hx y hy
          rw [hQ] at hx
          have hy' := List.mem_of_mem_drop hy
          rw [hQ] at hy'
          simp only [List.mem_singleton] at hx hy'
          subst hx; subst hy'
          omega
        ord := by
          rw [hQ]
          exact List.pairwise_singleton _ _
        proc := by intro x hx; simp at hx }

theorem bfs_exec_spec (g : Grafo) (hI : Inv g) (S : Nat) (hS : S < g.n.toNat) (fuel : Nat)
    (hf : g.n.toNat ≤ fuel) :
    ∃ st, bfs_exec fuel g ((S : Int) + 1) = .ok st ∧ BfsInv g S st
      ∧ BfsTopo g st st.qt.toNat := by
  obtain ⟨q1, nivel1, pai1, h1, h2, h3, hB0, hT0⟩ := bfs_inicial g S hS
  obtain ⟨st, he, hB, hT⟩ := bfs_laco_spec g hI S fuel 0 _ hB0 hT0 (by omega)
  refine ⟨st, ?_, hB, hT⟩
  unfold bfs_exec
  simp only [h1, h2, h3, ok_bind]
  exact he

/-! ## Connected components: the inner traversal -/

theorem pilha_length (g : Grafo) (vis0 : List Int) (i : Int) (st : CompEstado)
    (hC : CompInv g vis0 i st) : (pilha st).length = st.sp.toNat := by
  unfold pilha
  rw [List.length_take, hC.stack_len]
  have := hC.cabe
  have := hC.mem_nonneg
  omega

theorem membros0_length (g : Grafo) (vis0 : List Int) (i : Int) (st : CompEstado)
    (hC : CompInv g vis0 i st) : (membros0 st).length = st.mem_sz.toNat := by
  unfold membros0 membros
  rw [List.length_map, List.length_take, hC.members_len]
  have := hC.cabe
  have := hC.sp_nonneg
  omega

theorem comp_visita_spec (g : Grafo) (vis0 : List Int) (i : Int) (st : CompEstado) (u w : Int)
    (hC : CompInv g vis0 i st) (hu : u ∈ membros0 st) (hviz : vizinho g (u + 1) (w + 1)) :
    ∃ st1, comp_visita w st = .ok st1 ∧ CompInv g vis0 i st1
      ∧ st1.members = st.members ∧ st1.mem_sz = st.mem_sz
      ∧ vis_de st1.vis w ≠ 0
      ∧ (∀ x, vis_de st.vis x ≠ 0 → vis_de st1.vis x ≠ 0) := by
  obtain ⟨hu0, hun, hw0, hwn⟩ := vizinho_range g u w hviz
  have hvl := hC.vis_len
  have hrdw : rd st.vis w = .ok (vis_de st.vis w) := rd_int st.vis w 0 hw0 (by omega)
  by_cases hvis : vis_de st.vis w = 0
  swap
  · refine ⟨st, ?_, hC, rfl, rfl, hvis, fun _ h => h⟩
    simp [comp_visita, hrdw, hvis]
  · have hlenP := pilha_length g vis0 i st hC
    have hlenM := membros0_length g vis0 i st hC
    have hwL : w ∉ pilha st ++ membros0 st := fun h =>
      ((hC.vis_iff w hw0 hwn).2 (Or.inr h)) hvis
    have hw00 : vis_de vis0 w = 0 := by
      by_contra h
      exact ((hC.vis_iff w hw0 hwn).2 (Or.inl h)) hvis
    have hsp0 := hC.sp_nonneg
    have hm0 := hC.mem_nonneg
    have hcabe : st.sp + st.mem_sz < g.n := by
      have h1 : (w :: (pilha st ++ membros0 st)).Nodup := List.nodup_cons.2 ⟨hwL, hC.nodup⟩
      have h2 := nodup_range_length _ g.n.toNat h1 (by
        intro x hx
        rcases List.mem_cons.1 hx with rfl | hx
        · omega
        · have := hC.faixa x hx; omega)
      simp only [List.length_cons, List.length_append, hlenP, hlenM] at h2
      omega
    have hwr1 : wr st.vis w 1 = .ok (st.vis.set w.toNat 1) := by
      simp only [wr]; rw [if_pos ⟨hw0, by omega⟩]
    have hwr2 : wr st.stack st.sp w = .ok (st.stack.set st.sp.toNat w) := by
      simp only [wr]; rw [if_pos ⟨hsp0, by have := hC.stack_len; omega⟩]
    obtain ⟨st1, hst1⟩ : ∃ st1 : CompEstado, st1 = CompEstado.mk (st.vis.set w.toNat 1)
        (st.stack.set st.sp.toNat w) (st.sp + 1) st.members st.mem_sz := ⟨_, rfl⟩
    have hP1 : pilha st1 = pilha st ++ [w] := by
      subst hst1
      simp only [pilha]
      have e1 : (st.sp + 1).toNat = st.sp.toNat + 1 := by omega
      rw [e1, List.take_succ, take_set_ge _ _ _ _ (le_refl _)]
      have : st.sp.toNat < st.stack.length := by have := hC.stack_len; omega
      simp [List.getElem?_set, this]
    have hM1 : membros0 st1 = membros0 st := by subst hst1; rfl
    have hvw : vis_de st1.vis w = 1 := by
      subst hst1
      simp only [vis_de]
      rw [getD_set_eq _ _ _ _ (by omega)]
    have hvx : ∀ x, 0 ≤ x → x ≠ w → vis_de st1.vis x = vis_de st.vis x := by
      intro x hx hxw
      subst hst1
      simp only [vis_de]
      rw [getD_set_ne _ _ _ _ _ (by omega)]
    have hmono : ∀ x, vis_de st.vis x ≠ 0 → vis_de st1.vis x ≠ 0 := by
      intro x hx
      by_cases hx0 : 0 ≤ x
      · rw [hvx x hx0 (fun h => hx (h ▸ hvis))]; exact hx
      · by_cases hw' : w.toNat = 0
        · have hw0' : w = 0 := by omega
          have : x.toNat = 0 := by omega
          simp only [vis_de, this] at hx
          simp only [vis_de, hw0'] at hvis
          exact absurd hvis hx
        · subst hst1
          simp only [vis_de]
          rw [getD_set_ne _ _ _ _ _ (by omega)]
          exact hx
    have hmem : ∀ x, x ∈ pilha st1 ++ membros0 st1 ↔ (x ∈ pilha st ++ membros0 st ∨ x = w) := by
      intro x
      rw [hP1, hM1]
      simp only [List.mem_append, List.mem_singleton]
      tauto
    refine ⟨st1, ?_, ?_, by subst hst1; rfl, by subst hst1; rfl, by rw [hvw]; decide, hmono⟩
    · subst hst1
      simp [comp_visita, hrdw, hvis, hwr1, hwr2]
    · exact
        { vis_len := by subst hst1; simpa using hC.vis_len
          stack_len := by subst hst1; simpa using hC.stack_len
          members_len := by subst hst1; exact hC.members_len
          sp_nonneg := by subst hst1; simp only; omega
          mem_nonneg := by subst hst1; exact hC.mem_nonneg
          cabe := by subst hst1; simp only; omega
          nodup := by
            rw [hP1, hM1]
            have : (pilha st ++ [w] ++ membros0 st).Perm (w :: (pilha st ++ membros0 st)) := by
              rw [List.append_assoc, List.singleton_append]
              exact List.perm_middle
            exact (List.Perm.nodup_iff this).2 (List.nodup_cons.2 ⟨hwL, hC.nodup⟩)
          faixa := by
            intro x hx
            rcases (hmem x).1 hx with h | rfl
            · exact hC.faixa x h
            · exact ⟨hw0, hwn⟩
          vis_iff := by
            intro x hx0 hxn
            rw [hmem x]
            by_cases hxw : x = w
            · subst hxw
              rw [hvw]
              simp
            · rw [hvx x hx0 hxw, hC.vis_iff x hx0 hxn]
              simp [hxw]
          novo := by
            intro x hx
            rcases (hmem x).1 hx with h | rfl
            · exact hC.novo x h
            · exact hw00
          liga := by
            intro x hx
            rcases (hmem x).1 hx with h | rfl
            · exact hC.liga x h
            · obtain ⟨k, hk⟩ := hC.liga u (List.mem_append_right _ hu)
              exact ⟨k + 1, Caminho.passo _ _ _ hk hviz⟩ }

theorem comp_varre_spec (g : Grafo) (vis0 : List Int) (i u : Int) (ws : List Nat)
    (hws : ∀ w ∈ ws, vizinho g (u + 1) ((w : Int) + 1)) :
    ∀ st, CompInv g vis0 i st → u ∈ membros0 st →
      ∃ st1, para (fun w st => comp_visita (w : Int) st) ws st = .ok st1
        ∧ CompInv g vis0 i st1 ∧ st1.members = st.members ∧ st1.mem_sz = st.mem_sz
        ∧ (∀ x, vis_de st.vis x ≠ 0 → vis_de st1.vis x ≠ 0)
        ∧ (∀ w ∈ ws, vis_de st1.vis (w : Int) ≠ 0) := by
  induction ws with
  | nil =>
    intro st hC _
    exact ⟨st, rfl, hC, rfl, rfl, fun _ h => h, by simp⟩
  | cons w ws ih =>
    intro st hC hu
    obtain ⟨st1, he1, hC1, hm1, hs1, hw1, hmo1⟩ :=
      comp_visita_spec g vis0 i st u (w : Int) hC hu (hws w (by simp))
    have hu1 : u ∈ membros0 st1 := by
      simp only [membros0, membros, hm1, hs1] at hu ⊢
      exact hu
    obtain ⟨st2, he2, hC2, hm2, hs2, hmo2, hall2⟩ :=
      ih (fun w' hw' => hws w' (by simp [hw'])) st1 hC1 hu1
    refine ⟨st2, by simp [para, he1, he2], hC2, by rw [hm2, hm1], by rw [hs2, hs1], ?_, ?_⟩
    · intro x hx
      exact hmo2 x (hmo1 x hx)
    · intro w' hw'
      rcases List.mem_cons.1 hw' with rfl | h
      · exact hmo2 _ hw1
      · exact hall2 w' h

theorem comp_pop_spec (g : Grafo) (vis0 : List Int) (i : Int) (st : CompEstado)
    (hC : CompInv g vis0 i st) (hsp : st.sp > 0) :
    ∃ u members1, rd st.stack (st.sp - 1) = .ok u
      ∧ wr st.members st.mem_sz (u + 1) = .ok members1
      ∧ CompInv g vis0 i (CompEstado.mk st.vis st.stack (st.sp - 1) members1 (st.mem_sz + 1))
      ∧ membros0 (CompEstado.mk st.vis st.stack (st.sp - 1) members1 (st.mem_sz + 1))
          = membros0 st ++ [u]
      ∧ 0 ≤ u ∧ u < g.n := by
  have hlenP := pilha_length g vis0 i st hC
  have hm0 := hC.mem_nonneg
  have hcabe := hC.cabe
  have hsl := hC.stack_len
  have hml := hC.members_len
  have hidx : (st.sp - 1).toNat < st.stack.length := by omega
  have hrd : rd st.stack (st.sp - 1) = .ok (st.stack.getD (st.sp - 1).toNat 0) :=
    rd_int _ _ 0 (by omega) hidx
  obtain ⟨u, hu⟩ : ∃ u, u = st.stack.getD (st.sp - 1).toNat 0 := ⟨_, rfl⟩
  have hwr : wr st.members st.mem_sz (u + 1) = .ok (st.members.set st.mem_sz.toNat (u + 1)) := by
    simp only [wr]; rw [if_pos ⟨hm0, by omega⟩]
  have hP : pilha st = st.stack.take (st.sp - 1).toNat ++ [u] := by
    unfold pilha
    have e : st.sp.toNat = (st.sp - 1).toNat + 1 := by omega
    rw [e, List.take_succ, getElem?_getD _ _ 0 hidx, hu]
    rfl
  obtain ⟨st1, hst1⟩ : ∃ st1 : CompEstado, st1 = CompEstado.mk st.vis st.stack (st.sp - 1)
      (st.members.set st.mem_sz.toNat (u + 1)) (st.mem_sz + 1) := ⟨_, rfl⟩
  have hP1 : pilha st1 = st.stack.take (st.sp - 1).toNat := by subst hst1; rfl
  have hM1 : membros0 st1 = membros0 st ++ [u] := by
    subst hst1
    simp only [membros0, membros]
    have e : (st.mem_sz + 1).toNat = st.mem_sz.toNat + 1 := by omega
    rw [e, List.take_succ, take_set_ge _ _ _ _ (le_refl _)]
    have : st.mem_sz.toNat < st.members.length := by omega
    simp [List.getElem?_set, this]
  have hmem : ∀ x, x ∈ pilha st1 ++ membros0 st1 ↔ x ∈ pilha st ++ membros0 st := by
    intro x
    rw [hP1, hM1, hP]
    simp only [List.mem_append, List.mem_singleton]
    tauto
  have huL : u ∈ pilha st ++ membros0 st := by
    rw [hP]; simp
  obtain ⟨hu0, hun⟩ := hC.faixa u huL
  refine ⟨u, st.members.set st.mem_sz.toNat (u + 1), by rw [hrd, hu], hwr, ?_, ?_, hu0, hun⟩
  · rw [← hst1]
    exact
      { vis_len := by subst hst1; exact hC.vis_len
        stack_len := by subst hst1; exact hC.stack_len
        members_len := by subst hst1; simpa using hC.members_len
        sp_nonneg := by subst hst1; simp only; omega
        mem_nonneg := by subst hst1; simp only; omega
        cabe := by subst hst1; simp only; omega
        nodup := by
          have hnd := hC.nodup
          rw [hP] at hnd
          rw [hP1, hM1]
          have : (st.stack.take (st.sp - 1).toNat ++ (membros0 st ++ [u])).Perm
              (st.stack.take (st.sp - 1).toNat ++ [u] ++ membros0 st) := by
            rw [List.append_assoc]
            exact List.Perm.append_left _ List.perm_append_comm
          exact (List.Perm.nodup_iff this).2 hnd
        faixa := fun x hx => hC.faixa x ((hmem x).1 hx)
        vis_iff := by
          intro x hx0 hxn
          rw [hmem x]
          have := hC.vis_iff x hx0 hxn
          subst hst1
          exact this
        novo := fun x hx => hC.novo x ((hmem x).1 hx)
        liga := fun x hx => hC.liga x ((hmem x).1 hx) }
  · rw [← hst1]; exact hM1

theorem comp_laco_spec (g : Grafo) (hI : Inv g) (vis0 : List Int) (i : Int) :
    ∀ (fuel : Nat) (st : CompEstado), CompInv g vis0 i st → Proc g st.vis (membros0 st) →
      g.n.toNat ≤ fuel + st.mem_sz.toNat →
      ∃ st1, comp_laco g fuel st = .ok st1 ∧ CompInv g vis0 i st1 ∧ st1.sp = 0
        ∧ Proc g st1.vis (membros0 st1)
        ∧ (∀ x, vis_de st.vis x ≠ 0 → vis_de st1.vis x ≠ 0) := by
  intro fuel
  induction fuel with
  | zero =>
    intro st hC hP hf
    have h1 := hC.cabe
    have h2 := hC.sp_nonneg
    have h3 := hC.mem_nonneg
    have hsp : st.sp = 0 := by omega
    exact ⟨st, by simp [comp_laco, hsp], hC, hsp, hP, fun _ h => h⟩
  | succ k ih =>
    intro st hC hP hf
    by_cases hsp : st.sp > 0
    · obtain ⟨u, members1, hrd, hwr, hC1, hM1, hu0, hun⟩ := comp_pop_spec g vis0 i st hC hsp
      have hue : u = ((u.toNat : Nat) : Int) := by omega
      have hunat : u.toNat < g.n.toNat := by omega
      have hws : ∀ w ∈ viz_lista g u.toNat, vizinho g (u + 1) ((w : Int) + 1) := by
        intro w hw
        obtain ⟨hwn, harc⟩ := (mem_viz_lista g hI u.toNat hunat w).1 hw
        refine ⟨by omega, by omega, by omega, by omega, ?_⟩
        simpa using harc
      have huM : u ∈ membros0 (CompEstado.mk st.vis st.stack (st.sp - 1) members1
          (st.mem_sz + 1)) := by rw [hM1]; simp
      obtain ⟨st2, he2, hC2, hm2, hs2, hmo2, hall2⟩ :=
        comp_varre_spec g vis0 i u _ hws _ hC1 huM
      have hvar : varre g u comp_visita (CompEstado.mk st.vis st.stack (st.sp - 1) members1
          (st.mem_sz + 1)) = .ok st2 := by
        have hv := varre_eq g hI u.toNat hunat comp_visita
          (CompEstado.mk st.vis st.stack (st.sp - 1) members1 (st.mem_sz + 1))
        rw [← hue] at hv
        rw [hv]
        exact he2
      have hM2 : membros0 st2 = membros0 st ++ [u] := by
        rw [← hM1]
        simp only [membros0, membros, hm2, hs2]
      have hP2 : Proc g st2.vis (membros0 st2) := by
        intro x hx w hv
        rw [hM2] at hx
        rcases List.mem_append.1 hx with hx | hx
        · exact hmo2 w (hP x hx w hv)
        · simp only [List.mem_singleton] at hx
          subst hx
          obtain ⟨-, -, hw0, hwn⟩ := vizinho_range g x w hv
          have hwe : w = ((w.toNat : Nat) : Int) := by omega
          rw [hwe]
          apply hall2
          rw [mem_viz_lista g hI x.toNat hunat]
          refine ⟨by omega, ?_⟩
          have := hv.2.2.2.2
          simpa using this
      have hms : st2.mem_sz.toNat = st.mem_sz.toNat + 1 := by
        rw [hs2]
        have := hC.mem_nonneg
        simp only
        omega
      obtain ⟨st3, he3, hC3, hsp3, hP3, hmo3⟩ := ih st2 hC2 hP2 (by omega)
      refine ⟨st3, ?_, hC3, hsp3, hP3, fun x hx => hmo3 x (hmo2 x hx)⟩
      simp only [comp_laco, hsp, if_true, hrd, ok_bind, hwr, hvar]
      exact he3
    · have h2 := hC.sp_nonneg
      have hsp0 : st.sp = 0 := by omega
      exact ⟨st, by simp [comp_laco, hsp0], hC, hsp0, hP, fun _ h => h⟩

/-! ## Connected components: the outer loop -/

theorem liga_refl (g : Grafo) (a : Int) : Liga g a a := ⟨0, Caminho.inicio⟩

theorem vis_de_replicate (k : Nat) (x : Int) : vis_de (List.replicate k 0) x = 0 := by
  unfold vis_de
  exact getD_replicate_zero _ _

theorem mem_comps_de (t : CompTotal) (hlen : t.comp_count.toNat ≤ t.comps.length)
    (c : List Int) :
    c ∈ comps_de t ↔ ∃ j : Nat, (j : Int) < t.comp_count ∧ t.comps.getD j [] = c := by
  unfold comps_de
  rw [List.mem_take_iff_getElem]
  constructor
  · rintro ⟨j, hj, hc⟩
    have hj' : j < t.comp_count.toNat ∧ j < t.comps.length := by simpa using hj
    refine ⟨j, by omega, ?_⟩
    rw [List.getD_eq_getElem _ _ hj'.2]
    exact hc
  · rintro ⟨j, hj, hc⟩
    have hj1 : j < t.comp_count.toNat := by omega
    have hj2 : j < t.comps.length := by omega
    refine ⟨j, lt_min hj1 hj2, ?_⟩
    rw [← List.getD_eq_getElem _ [] hj2]
    exact hc

/-! ## Claims about construction, insertion and degree queries -/

theorem grau_dentro (g : Grafo) (hI : Inv g) (v : Int) (h1 : 1 ≤ v) (h2 : v ≤ g.n) :
    grafo_grau g v = .ok (g.deg.getD (v - 1).toNat 0)
      ∧ g.deg[(v - 1).toNat]? = some (g.deg.getD (v - 1).toNat 0)
      ∧ g.deg.getD (v - 1).toNat 0 = (num_vizinhos g (v - 1).toNat : Int) := by
  have hlt : (v - 1).toNat < g.deg.length := by rw [hI.deg_len]; omega
  have hv : v - 1 = (((v - 1).toNat : Nat) : Int) := by omega
  refine ⟨?_, getElem?_getD _ _ _ hlt, hI.deg_eq _ (by omega)⟩
  have hr : ¬ (v < 1 ∨ v > g.n) := by omega
  simp only [grafo_grau, hr, if_false]
  rw [hv, rd_nat_lt (0 : Int) hlt]
  simp

/-- C4: in a reachable graph `deg[i]` is the number of distinct stored neighbours of vertex
`i + 1`.  For a list graph the first `deg[i]` entries of `adj[i]` exist, are pairwise distinct
and are ids in `1..n`; for a matrix graph `deg[i]` is the number of nonzero cells of row `i`. -/
theorem C4_grau_conta_vizinhos (g : Grafo) (h : Alcancavel g) (i : Nat) (hi : i < g.n.toNat) :
    g.deg[i]? = some (num_vizinhos g i : Int)
      ∧ (g.rep = .REP_LIST → ∃ row d, g.adj[i]? = some row ∧ g.deg[i]? = some d ∧ 0 ≤ d
          ∧ d.toNat ≤ row.length ∧ (row.take d.toNat).length = d.toNat
          ∧ (row.take d.toNat).Nodup ∧ ∀ x ∈ row.take d.toNat, 1 ≤ x ∧ x ≤ g.n)
      ∧ (g.rep = .REP_MATRIX → g.deg[i]? = some
          (((Finset.range g.n.toNat).filter
            (fun j => g.mat.getD (i * g.n.toNat + j) 0 ≠ 0)).card : Int)) := by
  have hI := inv_alcancavel g h
  have hdl := hI.deg_len
  have hd : g.deg[i]? = some (num_vizinhos g i : Int) := by
    rw [getElem?_getD g.deg i 0 (by omega), hI.deg_eq i hi]
  refine ⟨hd, ?_, ?_⟩
  · intro hrep
    obtain ⟨-, hal, -, hsh⟩ := hI.forma hrep
    obtain ⟨h0, hdc, hlen⟩ := hsh i hi
    refine ⟨g.adj.getD i [], g.deg.getD i 0, getElem?_getD _ _ _ (by omega),
      getElem?_getD _ _ _ (by omega), h0, by omega, ?_, hI.fila_nodup hrep i hi,
      hI.fila_range hrep i hi⟩
    rw [List.length_take]
    omega
  · intro hrep
    rw [hd]
    unfold num_vizinhos
    congr 3
    apply Finset.filter_congr
    intro j _
    exact arco_matriz g hrep i j

/-- The counter `m` of a reachable graph is a value of a 32-bit `int`. -/
theorem m_cabe_int (g : Grafo) (h : Alcancavel g) : -2147483648 ≤ g.m ∧ g.m ≤ INT_MAX := by
  rw [(inv_alcancavel g h).m_eq]
  exact int32_faixa _

/-- C9: `grafo_grau` returns `-1` for every `v < 1` or `v > n` without reading `deg` (it does
so for every graph value, whatever its `deg` array, in particular for `v = 0` and
`v = n + 1`); on a reachable graph and `1 ≤ v ≤ n` it returns `deg[v-1]`, which is `≥ 0`; so
on a reachable graph the value `-1` is returned exactly for the out-of-range queries. -/
theorem C9_grau_fora_do_intervalo (g : Grafo) (v : Int) :
    ((v < 1 ∨ v > g.n) → grafo_grau g v = .ok (-1))
      ∧ grafo_grau { g with deg := [] } 0 = .ok (-1)
      ∧ grafo_grau { g with deg := [] } (g.n + 1) = .ok (-1)
      ∧ (Alcancavel g →
          ((1 ≤ v ∧ v ≤ g.n) → ∃ d, g.deg[(v - 1).toNat]? = some d ∧ grafo_grau g v = .ok d
            ∧ 0 ≤ d)
          ∧ (grafo_grau g v = .ok (-1) ↔ (v < 1 ∨ v > g.n))) := by
  have hout : (v < 1 ∨ v > g.n) → grafo_grau g v = .ok (-1) := by
    intro h; simp [grafo_grau, h]
  refine ⟨hout, by simp [grafo_grau], by simp [grafo_grau], ?_⟩
  intro h
  have hI := inv_alcancavel g h
  have hin : (1 ≤ v ∧ v ≤ g.n) → ∃ d, g.deg[(v - 1).toNat]? = some d ∧ grafo_grau g v = .ok d
      ∧ 0 ≤ d := by
    intro hv
    obtain ⟨h1, h2, h3⟩ := grau_dentro g hI v hv.1 hv.2
    exact ⟨_, h2, h1, by rw [h3]; exact Int.natCast_nonneg _⟩
  refine ⟨hin, ?_, hout⟩
  intro he
  by_contra hr
  obtain ⟨d, -, hd, hd0⟩ := hin (by omega)
  rw [hd] at he
  cases he
  omega


theorem inserir_seq_alcancavel (ops : List (Int × Int)) :
    ∀ (g : Grafo) (rcs : List Int) (g1 : Grafo), Alcancavel g →
      inserir_seq g ops = .ok (rcs, g1) → Alcancavel g1 := by
  induction ops with
  | nil =>
    intro g rcs g1 hg h
    simp only [inserir_seq, pure_ok, Except.ok.injEq, Prod.mk.injEq] at h
    rw [← h.2]; exact hg
  | cons op ops ih =>
    intro g rcs g1 hg h
    obtain ⟨u, v⟩ := op
    simp only [inserir_seq] at h
    cases h1 : grafo_adicionar_aresta g u v with
    | error e => simp [h1] at h
    | ok r1 =>
      obtain ⟨rc, g2⟩ := r1
      cases h2 : inserir_seq g2 ops with
      | error e => simp [h1, h2] at h
      | ok r2 =>
        obtain ⟨rcs2, g3⟩ := r2
        simp only [h1, h2, ok_bind, pure_ok, Except.ok.injEq, Prod.mk.injEq] at h
        rw [← h.2]
        exact ih g2 rcs2 g3 (Alcancavel.inserir g u v rc g2 hg h1) h2

theorem construir_alcancavel (n : Int) (rep : Representation) (dir : Int)
    (ops : List (Int × Int)) (g : Grafo) (h : construir n rep dir ops = some g) :
    Alcancavel g := by
  unfold construir at h
  cases h0 : grafo_criar n rep dir with
  | none => simp [h0] at h
  | some g0 =>
    cases h1 : inserir_seq g0 ops with
    | error e => simp [h0, h1] at h
    | ok r =>
      obtain ⟨rcs, g1⟩ := r
      simp only [h0, h1, Option.some.injEq] at h
      rw [← h]
      exact inserir_seq_alcancavel ops g0 rcs g1 (Alcancavel.criar n rep dir g0 h0) h1

/-- C2: on every reachable graph (either representation, directed or not) and every start
in `1..n`, `grafo_bfs` returns (any fuel `≥ n` is enough) and the returned level array holds,
for every vertex `v`, the minimum number of stored edges on a path from the start to `v` when
such a path exists, and `-1` exactly when there is none.  The two fixtures of the
specification are evaluated for both representations and both directedness flags: the path
`1-2-3-4-5` gives levels `[0,1,2,3,4]`, and the edges `(1,2),(3,4)` with `n = 4` give
`level[2] = level[3] = -1`. -/
theorem C2_bfs_niveis_minimos :
    (∀ (g : Grafo) (inicio : Int) (fuel : Nat), Alcancavel g → 1 ≤ inicio → inicio ≤ g.n →
      g.n.toNat ≤ fuel →
      ∃ pai nivel, grafo_bfs fuel g inicio = .ok (pai, nivel) ∧ nivel.length = g.n.toNat
        ∧ ∀ v, 1 ≤ v → v ≤ g.n → ∃ l, nivel[(v - 1).toNat]? = some l
          ∧ (l = -1 ↔ ¬ ∃ k, Caminho g inicio v k)
          ∧ (l ≠ -1 → 0 ≤ l ∧ Caminho g inicio v l.toNat
              ∧ ∀ k, Caminho g inicio v k → l.toNat ≤ k))
    ∧ (∀ (rep : Representation) (dir : Int), dir = 0 ∨ dir = 1 →
        (construir 5 rep dir [(1, 2), (2, 3), (3, 4), (4, 5)]).map
          (fun g => (grafo_bfs 5 g 1).map Prod.snd) = some (.ok [0, 1, 2, 3, 4]))
    ∧ (∀ (rep : Representation) (dir : Int), dir = 0 ∨ dir = 1 →
        (construir 4 rep dir [(1, 2), (3, 4)]).map
          (fun g => (grafo_bfs 4 g 1).map (fun r => (r.2[2]?, r.2[3]?)))
            = some (.ok (some (-1), some (-1)))) := by
  refine ⟨?_, ?_, ?_⟩
  · intro g inicio fuel hg h1 h2 hf
    have hI := inv_alcancavel g hg
    have hS : (inicio - 1).toNat < g.n.toNat := by omega
    have hSe : inicio = (((inicio - 1).toNat : Nat) : Int) + 1 := by omega
    obtain ⟨st, he, hB, hT⟩ := bfs_exec_spec g hI (inicio - 1).toNat hS fuel hf
    rw [← hSe] at he
    refine ⟨st.pai, st.nivel, by simp [grafo_bfs, he], hB.nivel_len, ?_⟩
    intro v hv1 hv2
    have hlen := hB.nivel_len
    have hl : st.nivel[(v - 1).toNat]? = some (nivel_de st (v - 1)) :=
      getElem?_getD _ _ _ (by omega)
    have hmin : ∀ k, Caminho g inicio v k →
        nivel_de st (v - 1) ≠ -1 ∧ nivel_de st (v - 1) ≤ k := by
      intro k hk
      rw [hSe] at hk
      exact bfs_final g _ st hB hT v k hk
    have hsom : nivel_de st (v - 1) ≠ -1 → 0 ≤ nivel_de st (v - 1)
        ∧ Caminho g inicio v (nivel_de st (v - 1)).toNat := by
      intro hne
      have := hB.som (v - 1) (by omega) (by omega) hne
      rw [← hSe] at this
      simpa using this
    refine ⟨_, hl, ?_, ?_⟩
    · constructor
      · rintro hm ⟨k, hk⟩
        exact (hmin k hk).1 hm
      · intro hno
        by_contra hne
        exact hno ⟨_, (hsom hne).2⟩
    · intro hne
      obtain ⟨h0, hc⟩ := hsom hne
      refine ⟨h0, hc, ?_⟩
      intro k hk
      have := (hmin k hk).2
      omega
  · intro rep dir hd
    rcases hd with rfl | rfl <;> cases rep <;> decide
  · intro rep dir hd
    rcases hd with rfl | rfl <;> cases rep <;> decide

theorem ex_lista3_alcancavel : Alcancavel ex_lista3 :=
  Alcancavel.criar 3 .REP_LIST 0 ex_lista3 (by decide)

theorem ex_matriz3_alcancavel : Alcancavel ex_matriz3 :=
  Alcancavel.inserir ex_matriz3_vazio 1 2 0 ex_matriz3
    (Alcancavel.criar 3 .REP_MATRIX 0 ex_matriz3_vazio (by decide)) (by decide)


/-! ## The claims at concrete graphs -/

theorem C4_witness :
    Alcancavel ex_matriz3 ∧ 0 < ex_matriz3.n.toNat
      ∧ ex_matriz3.deg[0]? = some (num_vizinhos ex_matriz3 0 : Int)
      ∧ num_vizinhos ex_matriz3 0 = 1 :=
  ⟨ex_matriz3_alcancavel, by decide,
    (C4_grau_conta_vizinhos ex_matriz3 ex_matriz3_alcancavel 0 (by decide)).1, by decide⟩

theorem C9_witness :
    Alcancavel ex_matriz3
      ∧ grafo_grau ex_matriz3 4 = .ok (-1)
      ∧ (∃ d, ex_matriz3.deg[((2 : Int) - 1).toNat]? = some d ∧ grafo_grau ex_matriz3 2 = .ok d
          ∧ 0 ≤ d) :=
  ⟨ex_matriz3_alcancavel, (C9_grau_fora_do_intervalo ex_matriz3 4).1 (by decide),
    ((C9_grau_fora_do_intervalo ex_matriz3 2).2.2.2 ex_matriz3_alcancavel).1 (by decide)⟩

theorem C2_witness :
    Alcancavel ex_matriz3 ∧ (1 : Int) ≤ 1 ∧ (1 : Int) ≤ ex_matriz3.n ∧ ex_matriz3.n.toNat ≤ 3
      ∧ ∃ pai nivel, grafo_bfs 3 ex_matriz3 1 = .ok (pai, nivel)
        ∧ nivel.length = ex_matriz3.n.toNat
        ∧ ∀ v, 1 ≤ v → v ≤ ex_matriz3.n → ∃ l, nivel[(v - 1).toNat]? = some l
          ∧ (l = -1 ↔ ¬ ∃ k, Caminho ex_matriz3 1 v k)
          ∧ (l ≠ -1 → 0 ≤ l ∧ Caminho ex_matriz3 1 v l.toNat
              ∧ ∀ k, Caminho ex_matriz3 1 v k → l.toNat ≤ k) :=
  ⟨ex_matriz3_alcancavel, by decide, by decide, by decide,
    C2_bfs_niveis_minimos.1 ex_matriz3 1 3 ex_matriz3_alcancavel (by decide) (by decide)
      (by decide)⟩

/-- C17: with allocation succeeding, `grafo_criar` returns `NULL` if and only if `n ≤ 0`; for
`n ≥ 1` the returned graph has `n` vertices, the requested representation, the directed flag
normalised to `0` or `1`, edge counter `0`, degree `0` at every vertex and no stored edge
(every list empty, or every matrix cell `0`). -/
theorem C17_criar (n : Int) (rep : Representation) (dir : Int) :
    (grafo_criar n rep dir = none ↔ n ≤ 0)
      ∧ (1 ≤ n → ∃ g, grafo_criar n rep dir = some g
          ∧ g.n = n ∧ g.rep = rep
          ∧ g.direcionado = (if dir ≠ 0 then 1 else 0)
          ∧ (g.direcionado = 0 ∨ g.direcionado = 1)
          ∧ g.m = 0 ∧ grafo_num_arestas g = 0
          ∧ g.deg = List.replicate n.toNat 0
          ∧ (∀ v, 1 ≤ v → v ≤ n → grafo_grau g v = .ok 0)
          ∧ (∀ u v, ¬ vizinho g u v)
          ∧ (rep = .REP_LIST → g.adj = List.replicate n.toNat [] ∧ ∀ i, fila g i = [])
          ∧ (rep = .REP_MATRIX → g.mat = List.replicate (n.toNat * n.toNat) 0)) := by
  constructor
  · unfold grafo_criar
    constructor
    · intro h
      by_contra hn
      simp [hn] at h
    · intro h
      simp [h]
  · intro hn
    have hpos : ¬ n ≤ 0 := by omega
    obtain ⟨g, hg⟩ : ∃ g, grafo_criar n rep dir = some g := by
      simp [grafo_criar, hpos]
    obtain ⟨-, hgn, hgm, hdir, hrep, hdeg, hl, hm⟩ := criar_eq n rep dir g hg
    have hI := inv_criar n rep dir g hg
    refine ⟨g, hg, hgn, hrep, hdir, hI.dir01, hgm, hgm, hdeg, ?_, ?_, ?_, ?_⟩
    · intro v h1 h2
      rw [(grau_dentro g hI v h1 (by omega)).1, hdeg, getD_replicate_zero]
    · intro u v h
      exact arco_criar n rep dir g hg _ _ h.2.2.2.2
    · intro hr
      exact ⟨(hl hr).1, fila_criar n rep dir g hg⟩
    · intro hr
      exact (hm hr).2.2

theorem C17_witness :
    (1 : Int) ≤ 3 ∧ ∃ g, grafo_criar 3 .REP_MATRIX 5 = some g
      ∧ g.n = 3 ∧ g.rep = .REP_MATRIX
      ∧ g.direcionado = (if (5 : Int) ≠ 0 then 1 else 0)
      ∧ (g.direcionado = 0 ∨ g.direcionado = 1)
      ∧ g.m = 0 ∧ grafo_num_arestas g = 0
      ∧ g.deg = List.replicate (3 : Int).toNat 0
      ∧ (∀ v, 1 ≤ v → v ≤ 3 → grafo_grau g v = .ok 0)
      ∧ (∀ u v, ¬ vizinho g u v)
      ∧ (Representation.REP_MATRIX = .REP_LIST →
          g.adj = List.replicate (3 : Int).toNat [] ∧ ∀ i, fila g i = [])
      ∧ (Representation.REP_MATRIX = .REP_MATRIX →
          g.mat = List.replicate ((3 : Int).toNat * (3 : Int).toNat) 0) :=
  ⟨by decide, (C17_criar 3 .REP_MATRIX 5).2 (by decide)⟩

/-- C13 (what the code does): `grafo_bfs` has no guard on `inicio`.  For every graph value
and every start outside `[1,n]` the run does not return `NULL`: it performs an access outside
its arrays (the write `nivel[inicio-1] = 0`, or `q[0]` when `n ≤ 0`).  Evaluated on the empty
three-vertex list graph with start `4` and start `0`. -/
theorem C13_bfs_sem_guarda :
    (∀ (g : Grafo) (inicio : Int) (fuel : Nat), (inicio < 1 ∨ inicio > g.n) →
        grafo_bfs fuel g inicio = .error .oob)
      ∧ grafo_bfs 3 ex_lista3 4 = .error .oob
      ∧ grafo_bfs 3 ex_lista3 0 = .error .oob
      ∧ wr (List.replicate 3 (-1 : Int)) (4 - 1) 0 = .error .oob := by
  refine ⟨?_, by decide, by decide, by decide⟩
  intro g inicio fuel h
  unfold grafo_bfs bfs_exec
  by_cases hn : g.n.toNat = 0
  · have : wr (List.replicate g.n.toNat (0 : Int)) 0 (inicio - 1) = .error .oob := by
      simp [wr, hn]
    simp [this]
  · have h1 : wr (List.replicate g.n.toNat (0 : Int)) 0 (inicio - 1)
        = .ok ((List.replicate g.n.toNat (0 : Int)).set 0 (inicio - 1)) := by
      simp only [wr]
      rw [if_pos ⟨le_refl _, by simp; omega⟩]
      rfl
    have h2 : wr (List.replicate g.n.toNat (-1 : Int)) (inicio - 1) 0 = .error .oob := by
      simp only [wr]
      rw [if_neg (by simp; omega)]
    simp [h1, h2]

/-! ## Insertion with allocation outcomes -/

theorem ensure_capacity_mem_ok (g : Grafo) (v0 : Int) :
    ensure_capacity_mem true g v0 = ensure_capacity g v0 := by
  simp [ensure_capacity_mem, ensure_capacity]

theorem lista_meia_mem_ok (g : Grafo) (u v : Int) :
    lista_meia_mem true g u v = lista_meia g u v := by
  simp [lista_meia_mem, lista_meia, ensure_capacity_mem_ok]

theorem inserir_mem_ok (g : Grafo) (u v : Int) :
    grafo_adicionar_aresta_mem true true g u v = grafo_adicionar_aresta g u v := by
  simp [grafo_adicionar_aresta_mem, grafo_adicionar_aresta, lista_meia_mem_ok]

theorem criar_mem_ok (n : Int) (rep : Representation) (dir : Int) :
    grafo_criar_mem aloc_ok n rep dir = grafo_criar n rep dir := by
  unfold grafo_criar_mem grafo_criar aloc_ok
  by_cases hn : n ≤ 0
  · simp [hn]
  · cases rep <;> simp [hn]

/-- A failed allocation is the only way in which `ensure_capacity_mem` departs from
`ensure_capacity`, and then it returns `-1` with the graph as it was. -/
theorem ensure_capacity_mem_ou (al : Bool) (g : Grafo) (v0 : Int) :
    ensure_capacity_mem al g v0 = ensure_capacity g v0
      ∨ (al = false ∧ ensure_capacity_mem al g v0 = .ok (-1, g)) := by
  cases al with
  | true => exact Or.inl (ensure_capacity_mem_ok g v0)
  | false =>
    simp only [ensure_capacity_mem, ensure_capacity]
    cases rd g.cap (v0 - 1) with
    | error e => exact Or.inl rfl
    | ok cap =>
      simp only [ok_bind]
      by_cases hc : cap = 0
      · right
        simp [hc]
      · simp only [hc, if_false]
        cases rd g.deg (v0 - 1) with
        | error e => exact Or.inl rfl
        | ok d =>
          simp only [ok_bind]
          by_cases hd : d ≥ cap
          · simp only [hd, if_true]
            cases rd g.adj (v0 - 1) with
            | error e => exact Or.inl rfl
            | ok old =>
              right
              simp
          · left
            simp [hd]

theorem lista_meia_mem_ou (al : Bool) (g : Grafo) (u v : Int) :
    lista_meia_mem al g u v = lista_meia g u v
      ∨ (al = false ∧ lista_meia_mem al g u v = .ok (-1, 0, g)) := by
  simp only [lista_meia_mem, lista_meia]
  cases rd g.deg (u - 1) with
  | error e => exact Or.inl rfl
  | ok d =>
    simp only [ok_bind]
    cases existe g.adj (u - 1) v (List.range d.toNat) with
    | error e => exact Or.inl rfl
    | ok ex =>
      simp only [ok_bind]
      cases ex with
      | true => exact Or.inl rfl
      | false =>
        rcases ensure_capacity_mem_ou al g u with h | ⟨hal, h⟩
        · left
          rw [h]
        · right
          refine ⟨hal, ?_⟩
          rw [h]
          rfl

theorem inserir_mem_matriz (al1 al2 : Bool) (g : Grafo) (u v : Int)
    (h : g.rep = .REP_MATRIX) :
    grafo_adicionar_aresta_mem al1 al2 g u v = grafo_adicionar_aresta g u v := by
  simp [grafo_adicionar_aresta_mem, grafo_adicionar_aresta, h]

theorem forma_m (g : Grafo) (N : Nat) (x : Int) (h : Forma g N) :
    Forma { g with m := x } N := h

theorem inv_mem_de_inv (g : Grafo) (h : Inv g) : InvMem g :=
  { n_pos := h.n_pos, forma := h.forma, inv := fun _ => h }

/-- On a graph of the right shape every call returns, whatever its allocations do: `-1`
with the graph untouched for ids out of range; for ids in range `0`, or `-1` when an
allocation of the list branch failed. -/
theorem inserir_mem_total (g : Grafo) (hM : InvMem g) (al1 al2 : Bool) (u v : Int) :
    ∃ rc g1, grafo_adicionar_aresta_mem al1 al2 g u v = .ok (rc, g1) ∧ InvMem g1
      ∧ g1.n = g.n ∧ g1.rep = g.rep
      ∧ ((u < 1 ∨ u > g.n ∨ v < 1 ∨ v > g.n) → rc = -1 ∧ g1 = g)
      ∧ (¬ (u < 1 ∨ u > g.n ∨ v < 1 ∨ v > g.n) → (rc = 0 ∨ rc = -1)
          ∧ (rc = -1 → g.rep = .REP_LIST
              ∧ (al1 = false ∨ (al2 = false ∧ g.direcionado = 0)))) := by
  by_cases hr : u < 1 ∨ u > g.n ∨ v < 1 ∨ v > g.n
  · exact ⟨-1, g, by simp [grafo_adicionar_aresta_mem, hr], hM, rfl, rfl,
      fun _ => ⟨rfl, rfl⟩, fun h => absurd hr h⟩
  · cases hrep : g.rep with
    | REP_MATRIX =>
      obtain ⟨rc, g1, he, hI1, hn1, hrep1, -, -, hin⟩ := inserir_total g (hM.inv hrep) u v
      obtain ⟨rfl, -⟩ := hin hr
      refine ⟨0, g1, by rw [inserir_mem_matriz al1 al2 g u v hrep]; exact he,
        inv_mem_de_inv g1 hI1, hn1, by rw [hrep1, hrep], fun h => absurd h hr,
        fun _ => ⟨Or.inl rfl, fun h => by omega⟩⟩
    | REP_LIST =>
      have hnp := hM.n_pos
      have hF := hM.forma hrep
      obtain ⟨i, hi⟩ : ∃ i : Nat, u = (i : Int) + 1 := ⟨(u - 1).toNat, by omega⟩
      obtain ⟨j, hj⟩ : ∃ j : Nat, v = (j : Int) + 1 := ⟨(v - 1).toNat, by omega⟩
      have hiN : i < g.n.toNat := by omega
      have hjN : j < g.n.toNat := by omega
      obtain ⟨g1, b, h1, hF1, hn1, -, hd1, hrep1, -⟩ :=
        lista_meia_trans g g.n.toNat hF i hiN v
      rw [← hi] at h1
      have hM1 : ∀ x : Int, InvMem { g1 with m := x } := fun x =>
        { n_pos := by show 1 ≤ g1.n; omega
          forma := fun _ => by
            show Forma _ g1.n.toNat
            rw [hn1]
            exact hF1
          inv := fun h => by
            have h2 : g1.rep = .REP_MATRIX := h
            rw [hrep1, hrep] at h2
            cases h2 }
      have hM1' : InvMem g1 := hM1 g1.m
      rcases lista_meia_mem_ou al1 g u v with e1 | ⟨hal1, e1⟩
      · rw [h1] at e1
        by_cases hdir : g1.direcionado = 0
        · obtain ⟨g2, b2, h2, hF2, hn2, -, hd2, hrep2, -⟩ :=
            lista_meia_trans g1 g.n.toNat hF1 j hjN u
          rw [← hj] at h2
          have hM2 : ∀ x : Int, InvMem { g2 with m := x } := fun x =>
            { n_pos := by show 1 ≤ g2.n; omega
              forma := fun _ => by
                show Forma _ g2.n.toNat
                rw [hn2, hn1]
                exact hF2
              inv := fun h => by
                have h3 : g2.rep = .REP_MATRIX := h
                rw [hrep2, hrep1, hrep] at h3
                cases h3 }
          rcases lista_meia_mem_ou al2 g1 v u with e2 | ⟨hal2, e2⟩
          · rw [h2] at e2
            refine ⟨0, if b ≠ 0 then { g2 with m := int32 (g2.m + 1) } else g2, ?_, ?_, ?_, ?_,
              fun h => absurd h hr, fun _ => ⟨Or.inl rfl, fun h => by omega⟩⟩
            · simp [grafo_adicionar_aresta_mem, hr, hrep, e1, hdir, e2]
            · split
              · exact hM2 _
              · exact hM2 g2.m
            · split
              · show g2.n = g.n
                omega
              · omega
            · split
              · show g2.rep = .REP_LIST
                rw [hrep2, hrep1, hrep]
              · rw [hrep2, hrep1, hrep]
          · refine ⟨-1, g1, ?_, hM1', hn1, by rw [hrep1, hrep], fun h => absurd h hr,
              fun _ => ⟨Or.inr rfl, fun _ => ⟨rfl, Or.inr ⟨hal2, by rw [← hd1]; exact hdir⟩⟩⟩⟩
            simp [grafo_adicionar_aresta_mem, hr, hrep, e1, hdir, e2]
        · refine ⟨0, if b ≠ 0 then { g1 with m := int32 (g1.m + 1) } else g1, ?_, ?_, ?_, ?_,
            fun h => absurd h hr, fun _ => ⟨Or.inl rfl, fun h => by omega⟩⟩
          · simp [grafo_adicionar_aresta_mem, hr, hrep, e1, hdir]
          · split
            · exact hM1 _
            · exact hM1'
          · split
            · exact hn1
            · exact hn1
          · split
            · show g1.rep = .REP_LIST
              rw [hrep1, hrep]
            · rw [hrep1, hrep]
      · refine ⟨-1, g, ?_, hM, rfl, hrep, fun h => absurd h hr,
          fun _ => ⟨Or.inr rfl, fun _ => ⟨rfl, Or.inl hal1⟩⟩⟩
        simp [grafo_adicionar_aresta_mem, hr, hrep, e1]

theorem inv_mem_alcancavel (g : Grafo) (h : AlcancavelMem g) : InvMem g := by
  induction h with
  | criar n rep dir g hc => exact inv_mem_de_inv g (inv_criar n rep dir g hc)
  | inserir al1 al2 g u v rc g1 _ he ih =>
    obtain ⟨rc1, g2, he1, hM1, -⟩ := inserir_mem_total g ih al1 al2 u v
    rw [he] at he1
    cases he1
    exact hM1

theorem alcancavel_mem_de (g : Grafo) (h : Alcancavel g) : AlcancavelMem g := by
  induction h with
  | criar n rep dir g hc => exact AlcancavelMem.criar n rep dir g hc
  | inserir g u v rc g1 _ he ih =>
    exact AlcancavelMem.inserir true true g u v rc g1 ih
      (by rw [inserir_mem_ok]; exact he)

/-- A call that has to allocate for the list of `u` (the pair is not stored and the block of
`u` is full or absent) returns `-1` and leaves the graph as it is when that allocation
fails. -/
theorem inserir_mem_falha (g : Grafo) (hM : InvMem g) (hrep : g.rep = .REP_LIST)
    (al2 : Bool) (u v : Int) (hu : 1 ≤ u ∧ u ≤ g.n) (hv : 1 ≤ v ∧ v ≤ g.n)
    (hnovo : ¬ vizinho g u v)
    (hcheio : g.cap.getD (u - 1).toNat 0 ≤ g.deg.getD (u - 1).toNat 0) :
    grafo_adicionar_aresta_mem false al2 g u v = .ok (-1, g) := by
  have hr : ¬ (u < 1 ∨ u > g.n ∨ v < 1 ∨ v > g.n) := by omega
  obtain ⟨hdl, hal, hcl, hsh⟩ := hM.forma hrep
  obtain ⟨i, hi⟩ : ∃ i : Nat, u = (i : Int) + 1 := ⟨(u - 1).toNat, by omega⟩
  subst hi
  have hiN : i < g.n.toNat := by omega
  have e1 : ((i : Int) + 1 - 1).toNat = i := by omega
  rw [e1] at hcheio
  obtain ⟨hd0, hdc, hlen⟩ := hsh i hiN
  have ha := getElem?_getD g.adj i [] (by omega)
  have hd := getElem?_getD g.deg i 0 (by omega)
  have hc := getElem?_getD g.cap i 0 (by omega)
  have hvf : v ∉ fila g i := by
    intro hin
    apply hnovo
    refine ⟨hu.1, hu.2, hv.1, hv.2, ?_⟩
    rw [e1, arco_lista g hrep]
    have : (((v - 1).toNat : Nat) : Int) + 1 = v := by omega
    rw [this]
    exact hin
  have hscan : existe g.adj (i : Int) v (List.range (g.deg.getD i 0).toNat) = .ok false := by
    rw [existe_spec g.adj i _ ha v _ (by intro k hk; rw [List.mem_range] at hk; omega)]
    congr 1
    rw [decide_eq_false_iff_not, mem_take_iff_range _ _ v (by omega)]
    exact hvf
  have hens : ensure_capacity_mem false g ((i : Int) + 1) = .ok (-1, g) := by
    simp only [ensure_capacity_mem, add_sub_cancel_right, rd_nat hc, ok_bind]
    by_cases hc0 : g.cap.getD i 0 = 0
    · rw [if_pos hc0]
      rfl
    · rw [if_neg hc0]
      simp only [rd_nat hd, ok_bind]
      rw [if_pos hcheio]
      simp only [rd_nat ha, ok_bind]
      rfl
  simp only [grafo_adicionar_aresta_mem, hr, if_false, hrep, lista_meia_mem,
    add_sub_cancel_right, rd_nat hd, ok_bind, hscan, hens]
  rfl

/-- C8 as amended: `grafo_adicionar_aresta` returns `-1` when `u` or `v` lies outside
`[1,n]`, and then the graph is returned unchanged (for every graph value and whatever the
allocations would do).  With `u` and `v` both in `[1,n]`, on every graph reachable by calls
whose allocations succeeded or failed, the call returns `0` or `-1`, and `-1` only
in the list representation when the allocation of its first `ensure_capacity` call failed, or
that of the second one in an undirected graph; a matrix graph always gets `0`.  When the
allocations succeed the status is `-1` exactly for the ids out of range.  And a call on a
list graph that has to allocate for the list of `u` (the pair is not stored, the block of `u`
is absent or full) does return `-1`, with the graph unchanged, when that allocation
fails. -/
theorem C8_codigo_de_retorno (g : Grafo) (u v : Int) (al1 al2 : Bool) :
    ((u < 1 ∨ u > g.n ∨ v < 1 ∨ v > g.n) →
        grafo_adicionar_aresta_mem al1 al2 g u v = .ok (-1, g))
      ∧ (AlcancavelMem g → (1 ≤ u ∧ u ≤ g.n ∧ 1 ≤ v ∧ v ≤ g.n) →
          ∃ rc g1, grafo_adicionar_aresta_mem al1 al2 g u v = .ok (rc, g1)
            ∧ (rc = 0 ∨ rc = -1)
            ∧ (rc = -1 → g.rep = .REP_LIST
                ∧ (al1 = false ∨ (al2 = false ∧ g.direcionado = 0)))
            ∧ (al1 = true → al2 = true → rc = 0)
            ∧ (g.rep = .REP_MATRIX → rc = 0))
      ∧ (AlcancavelMem g →
          ∃ rc g1, grafo_adicionar_aresta_mem true true g u v = .ok (rc, g1)
            ∧ grafo_adicionar_aresta g u v = .ok (rc, g1)
            ∧ (rc = -1 ↔ (u < 1 ∨ u > g.n ∨ v < 1 ∨ v > g.n))
            ∧ ((1 ≤ u ∧ u ≤ g.n ∧ 1 ≤ v ∧ v ≤ g.n) → rc = 0))
      ∧ (AlcancavelMem g → g.rep = .REP_LIST → (1 ≤ u ∧ u ≤ g.n ∧ 1 ≤ v ∧ v ≤ g.n) →
          ¬ vizinho g u v → g.cap.getD (u - 1).toNat 0 ≤ g.deg.getD (u - 1).toNat 0 →
          grafo_adicionar_aresta_mem false al2 g u v = .ok (-1, g)) := by
  refine ⟨?_, ?_, ?_, ?_⟩
  · intro hr
    simp [grafo_adicionar_aresta_mem, hr]
  · intro hg hin
    have hM := inv_mem_alcancavel g hg
    obtain ⟨rc, g1, he, -, -, -, -, h2⟩ := inserir_mem_total g hM al1 al2 u v
    obtain ⟨h01, hneg⟩ := h2 (by omega)
    refine ⟨rc, g1, he, h01, hneg, ?_, ?_⟩
    · intro h1 h2
      rcases h01 with h | h
      · exact h
      · rcases (hneg h).2 with h3 | ⟨h3, -⟩
        · rw [h1] at h3; cases h3
        · rw [h2] at h3; cases h3
    · intro hrep
      rcases h01 with h | h
      · exact h
      · rw [(hneg h).1] at hrep; cases hrep
  · intro hg
    have hM := inv_mem_alcancavel g hg
    obtain ⟨rc, g1, he, -, -, -, h1, h2⟩ := inserir_mem_total g hM true true u v
    have hin : ¬ (u < 1 ∨ u > g.n ∨ v < 1 ∨ v > g.n) → rc = 0 := by
      intro hr
      obtain ⟨h01, hneg⟩ := h2 hr
      rcases h01 with h | h
      · exact h
      · rcases (hneg h).2 with h3 | ⟨h3, -⟩
        · cases h3
        · cases h3
    refine ⟨rc, g1, he, by rw [← inserir_mem_ok]; exact he, ⟨?_, fun hr => (h1 hr).1⟩,
      fun hr => hin (by omega)⟩
    intro hrc
    by_contra hr
    have := hin hr
    omega
  · intro hg hrep hin hnovo hcheio
    exact inserir_mem_falha g (inv_mem_alcancavel g hg) hrep al2 u v ⟨hin.1, hin.2.1⟩
      ⟨hin.2.2.1, hin.2.2.2⟩ hnovo hcheio

theorem C8_witness :
    AlcancavelMem ex_lista3 ∧ ((1 : Int) ≤ 1 ∧ (1 : Int) ≤ ex_lista3.n ∧ (1 : Int) ≤ 3
        ∧ (3 : Int) ≤ ex_lista3.n)
      ∧ ((0 : Int) < 1 ∨ (0 : Int) > ex_lista3.n ∨ (4 : Int) < 1 ∨ (4 : Int) > ex_lista3.n)
      ∧ grafo_adicionar_aresta_mem true false ex_lista3 0 4 = .ok (-1, ex_lista3)
      ∧ (∃ rc g1, grafo_adicionar_aresta_mem true false ex_lista3 1 3 = .ok (rc, g1)
            ∧ (rc = 0 ∨ rc = -1)
            ∧ (rc = -1 → ex_lista3.rep = .REP_LIST
                ∧ (true = false ∨ (false = false ∧ ex_lista3.direcionado = 0)))
            ∧ (true = true → false = true → rc = 0)
            ∧ (ex_lista3.rep = .REP_MATRIX → rc = 0))
      ∧ (∃ rc g1, grafo_adicionar_aresta_mem true true ex_lista3 1 3 = .ok (rc, g1)
            ∧ grafo_adicionar_aresta ex_lista3 1 3 = .ok (rc, g1)
            ∧ (rc = -1 ↔ ((1 : Int) < 1 ∨ (1 : Int) > ex_lista3.n ∨ (3 : Int) < 1
                ∨ (3 : Int) > ex_lista3.n))
            ∧ (((1 : Int) ≤ 1 ∧ (1 : Int) ≤ ex_lista3.n ∧ (1 : Int) ≤ 3
                ∧ (3 : Int) ≤ ex_lista3.n) → rc = 0))
      ∧ ex_lista3.rep = .REP_LIST ∧ ¬ vizinho ex_lista3 1 3
      ∧ ex_lista3.cap.getD ((1 : Int) - 1).toNat 0 ≤ ex_lista3.deg.getD ((1 : Int) - 1).toNat 0
      ∧ grafo_adicionar_aresta_mem false false ex_lista3 1 3 = .ok (-1, ex_lista3) :=
  ⟨alcancavel_mem_de _ ex_lista3_alcancavel, by decide, by decide,
    (C8_codigo_de_retorno ex_lista3 0 4 true false).1 (by decide),
    (C8_codigo_de_retorno ex_lista3 1 3 true false).2.1
      (alcancavel_mem_de _ ex_lista3_alcancavel) (by decide),
    (C8_codigo_de_retorno ex_lista3 1 3 true true).2.2.1
      (alcancavel_mem_de _ ex_lista3_alcancavel),
    rfl, by decide, by decide,
    (C8_codigo_de_retorno ex_lista3 1 3 true false).2.2.2
      (alcancavel_mem_de _ ex_lista3_alcancavel) rfl (by decide) (by decide) (by decide)⟩

/-- C8 as stated fails: on the empty undirected list graph on three vertices the call
`grafo_adicionar_aresta(g, 1, 2)`, with both ids in `[1,3]`, returns `-1` when the `malloc`
of its first `ensure_capacity` call fails (graph untouched), and also when only that of the
second one fails (then with `2` already appended to the list of `1`). -/
theorem C8_contraexemplo :
    Alcancavel ex_lista3
      ∧ ((1 : Int) ≤ 1 ∧ (1 : Int) ≤ ex_lista3.n ∧ (1 : Int) ≤ 2 ∧ (2 : Int) ≤ ex_lista3.n)
      ∧ grafo_adicionar_aresta_mem false true ex_lista3 1 2 = .ok (-1, ex_lista3)
      ∧ grafo_adicionar_aresta_mem true false ex_lista3 1 2
          = .ok (-1, Grafo.mk 3 0 0 .REP_LIST [1, 0, 0] [[2, 0, 0, 0], [], []] [4, 0, 0] [])
      ∧ grafo_adicionar_aresta_mem true true ex_lista3 1 2
          = .ok (0, Grafo.mk 3 1 0 .REP_LIST [1, 1, 0] [[2, 0, 0, 0], [1, 0, 0, 0], []]
              [4, 4, 0] []) := by
  exact ⟨ex_lista3_alcancavel, by decide, by decide, by decide, by decide⟩

/-! ## Loading from the text format -/

theorem scan_d_id (z : Int) (h : cabe_int z) : scan_d z = z := by
  unfold cabe_int at h
  unfold scan_d int32
  omega

theorem scan_d_faixa (z : Int) : cabe_int (scan_d z) := by
  unfold cabe_int scan_d int32
  omega

theorem par_lido_id (ps : List (Int × Int)) (h : ∀ p ∈ ps, cabe_int p.1 ∧ cabe_int p.2) :
    ps.map par_lido = ps := by
  induction ps with
  | nil => rfl
  | cons p ps ih =>
    have hp := h p (List.mem_cons_self _ _)
    rw [List.map_cons, ih (fun q hq => h q (List.mem_cons_of_mem _ hq))]
    unfold par_lido
    rw [scan_d_id _ hp.1, scan_d_id _ hp.2]

/-- The read loop is the insertion, in file order, of the in-range pairs that come before
the first malformed record, each as `%d` stores its numerals and with the same allocation
outcomes. -/
theorem carregar_laco_pares (n : Int) (rs : List Registro) :
    ∀ (als : List (Bool × Bool)) (g : Grafo),
      carregar_laco n als (tokens_de rs) g
        = inserir_seq_mem als g (((pares_antes rs).map par_lido).filter (no_intervalo n)) := by
  induction rs with
  | nil =>
    intro als g
    rfl
  | cons r rs ih =>
    intro als g
    cases r with
    | malformado => rfl
    | par zu zv =>
      by_cases hr : scan_d zu < 1 ∨ scan_d zu > n ∨ scan_d zv < 1 ∨ scan_d zv > n
      · have hf : no_intervalo n (par_lido (zu, zv)) = false := by
          simp only [no_intervalo, par_lido, decide_eq_false_iff_not]
          omega
        simp only [tokens_de, carregar_laco, hr, if_true, pares_antes, List.map_cons,
          List.filter_cons, hf]
        exact ih als g
      · have hf : no_intervalo n (par_lido (zu, zv)) = true := by
          simp only [no_intervalo, par_lido, decide_eq_true_eq]
          omega
        simp only [tokens_de, carregar_laco, hr, if_false, pares_antes, List.map_cons,
          List.filter_cons, hf, if_true]
        unfold par_lido
        simp only [inserir_seq_mem]
        cases grafo_adicionar_aresta_mem (prox_aloc als).1 (prox_aloc als).2 g (scan_d zu)
            (scan_d zv) with
        | error e => rfl
        | ok r =>
          simp only [ok_bind]
          exact ih als.tail r.2

theorem inserir_seq_mem_ok (ops : List (Int × Int)) :
    ∀ (g : Grafo) (rcs : List Int) (g1 : Grafo), inserir_seq g ops = .ok (rcs, g1) →
      inserir_seq_mem [] g ops = .ok g1 := by
  induction ops with
  | nil =>
    intro g rcs g1 h
    simp only [inserir_seq, pure_ok, Except.ok.injEq, Prod.mk.injEq] at h
    rw [← h.2]
    rfl
  | cons op ops ih =>
    intro g rcs g1 h
    obtain ⟨u, v⟩ := op
    simp only [inserir_seq] at h
    obtain ⟨⟨rc, g0⟩, h0, h⟩ := bind_ok_inv h
    obtain ⟨⟨rcs1, g2⟩, h2, h⟩ := bind_ok_inv h
    simp only [pure_ok, Except.ok.injEq, Prod.mk.injEq] at h
    have e : grafo_adicionar_aresta_mem (prox_aloc []).1 (prox_aloc []).2 g u v
        = .ok (rc, g0) := by
      rw [← h0]
      exact inserir_mem_ok g u v
    simp only [inserir_seq_mem, e, ok_bind, List.tail_nil]
    rw [← h.2]
    exact ih g0 rcs1 g2 h2

theorem inserir_seq_total (ops : List (Int × Int)) :
    ∀ g : Grafo, Inv g → ∃ rcs g1, inserir_seq g ops = .ok (rcs, g1) ∧ g1.n = g.n := by
  induction ops with
  | nil =>
    intro g _
    exact ⟨[], g, rfl, rfl⟩
  | cons op ops ih =>
    intro g hI
    obtain ⟨u, v⟩ := op
    obtain ⟨rc, g0, he, hI0, hn0, -⟩ := inserir_total g hI u v
    obtain ⟨rcs, g1, h1, hn1⟩ := ih g0 hI0
    exact ⟨rc :: rcs, g1, by simp only [inserir_seq, he, ok_bind, h1, pure_ok],
      by rw [hn1, hn0]⟩

/-- C15 as amended: for every header and every sequence of records after it,
`grafo_carregar` is `grafo_criar(n)` followed by the insertion, in file order, of the
in-range pairs among the well-formed pairs that come before the first malformed record
(with the same allocation outcomes), where `n` and the ids are what `%d` stores in an `int`:
the numerals themselves when they fit one.  So for a header with `1 ≤ n` and allocations
that succeed it returns the graph so obtained: an out-of-range pair is skipped, and a
malformed record ends the reading without failing the load. -/
theorem C15_carregar_ate_malformado (alc : Aloc) (als : List (Bool × Bool)) (z : Int)
    (rs : List Registro) (rep : Representation) (dir : Int) :
    grafo_carregar alc als (.int z :: tokens_de rs) rep dir
        = construir_mem alc als (scan_d z) rep dir
            (((pares_antes rs).map par_lido).filter (no_intervalo (scan_d z)))
      ∧ (1 ≤ scan_d z → ∃ g,
          grafo_carregar aloc_ok [] (.int z :: tokens_de rs) rep dir = .ok (some g)
          ∧ construir (scan_d z) rep dir
              (((pares_antes rs).map par_lido).filter (no_intervalo (scan_d z))) = some g)
      ∧ (cabe_int z → scan_d z = z)
      ∧ ((∀ p ∈ pares_antes rs, cabe_int p.1 ∧ cabe_int p.2) →
          (pares_antes rs).map par_lido = pares_antes rs) := by
  have h1 : ∀ (alc : Aloc) (als : List (Bool × Bool)),
      grafo_carregar alc als (.int z :: tokens_de rs) rep dir
        = construir_mem alc als (scan_d z) rep dir
            (((pares_antes rs).map par_lido).filter (no_intervalo (scan_d z))) := by
    intro alc als
    simp only [grafo_carregar, construir_mem]
    cases grafo_criar_mem alc (scan_d z) rep dir with
    | none => rfl
    | some g => simp only [carregar_laco_pares]
  refine ⟨h1 alc als, ?_, scan_d_id z, par_lido_id _⟩
  intro hn
  have hpos : ¬ scan_d z ≤ 0 := by omega
  obtain ⟨g0, hg0⟩ : ∃ g0, grafo_criar (scan_d z) rep dir = some g0 := by
    simp [grafo_criar, hpos]
  obtain ⟨rcs, g1, hs, -⟩ := inserir_seq_total
    (((pares_antes rs).map par_lido).filter (no_intervalo (scan_d z))) g0
    (inv_criar _ _ _ _ hg0)
  refine ⟨g1, ?_, ?_⟩
  · rw [h1 aloc_ok []]
    simp only [construir_mem, criar_mem_ok, hg0, inserir_seq_mem_ok _ g0 rcs g1 hs, ok_bind,
      pure_ok]
  · simp only [construir, hg0, hs]

theorem C15_witness :
    (1 : Int) ≤ scan_d 3 ∧ cabe_int 3
      ∧ (∀ p ∈ pares_antes [.par 1 2, .par 7 1, .malformado, .par 2 3],
          cabe_int p.1 ∧ cabe_int p.2)
      ∧ (∃ g, grafo_carregar aloc_ok []
            (.int 3 :: tokens_de [.par 1 2, .par 7 1, .malformado, .par 2 3]) .REP_LIST 0
            = .ok (some g)
          ∧ construir (scan_d 3) .REP_LIST 0
            (((pares_antes [.par 1 2, .par 7 1, .malformado, .par 2 3]).map par_lido).filter
              (no_intervalo (scan_d 3))) = some g)
      ∧ scan_d 3 = 3
      ∧ (pares_antes [.par 1 2, .par 7 1, .malformado, .par 2 3]).map par_lido
          = pares_antes [.par 1 2, .par 7 1, .malformado, .par 2 3]
      ∧ grafo_carregar aloc_ok [] [.int 3, .int 4294967297, .int 2] .REP_LIST 0
          = grafo_carregar aloc_ok [] [.int 3, .int 1, .int 2] .REP_LIST 0 :=
  ⟨by decide, by decide, by decide,
    (C15_carregar_ate_malformado aloc_ok [] 3 [.par 1 2, .par 7 1, .malformado, .par 2 3]
      .REP_LIST 0).2.1 (by decide),
    (C15_carregar_ate_malformado aloc_ok [] 3 [.par 1 2, .par 7 1, .malformado, .par 2 3]
      .REP_LIST 0).2.2.1 (by decide),
    (C15_carregar_ate_malformado aloc_ok [] 3 [.par 1 2, .par 7 1, .malformado, .par 2 3]
      .REP_LIST 0).2.2.2 (by decide),
    by decide⟩

/-- C15 as stated fails: with header `3`, a malformed record and then the pair `(1,2)`, the
specification has `(1,2)` inserted, but `grafo_carregar` stops reading at the malformed record
and returns the empty graph. -/
theorem C15_contraexemplo :
    grafo_carregar aloc_ok [] (.int 3 :: tokens_de [.malformado, .par 1 2]) .REP_LIST 0
        = .ok (some ex_lista3)
      ∧ (∃ g, carregar_espec 3 .REP_LIST 0 [.malformado, .par 1 2] = some g ∧ vizinho g 1 2)
      ∧ ¬ vizinho ex_lista3 1 2
      ∧ grafo_carregar aloc_ok [] (.int 3 :: tokens_de [.malformado, .par 1 2]) .REP_LIST 0
        ≠ .ok (carregar_espec 3 .REP_LIST 0 [.malformado, .par 1 2]) := by
  refine ⟨by decide, ⟨_, rfl, by decide⟩, by decide, by decide⟩

theorem carregar_laco_total (n : Int) :
    ∀ (k : Nat) (toks : List Tok) (als : List (Bool × Bool)) (g : Grafo),
      toks.length ≤ k → InvMem g → g.n = n →
      ∃ g1, carregar_laco n als toks g = .ok g1 ∧ InvMem g1 ∧ g1.n = n := by
  intro k
  induction k with
  | zero =>
    intro toks als g hk hI hn
    have : toks = [] := List.length_eq_zero.1 (by omega)
    subst this
    exact ⟨g, rfl, hI, hn⟩
  | succ k ih =>
    intro toks als g hk hI hn
    match toks, hk with
    | [], _ => exact ⟨g, rfl, hI, hn⟩
    | [.int _], _ => exact ⟨g, rfl, hI, hn⟩
    | .lixo :: _, _ => exact ⟨g, rfl, hI, hn⟩
    | .int _ :: .lixo :: _, _ => exact ⟨g, rfl, hI, hn⟩
    | .int zu :: .int zv :: resto, hk =>
      have hlen : resto.length ≤ k := by simp only [List.length_cons] at hk; omega
      by_cases hr : scan_d zu < 1 ∨ scan_d zu > n ∨ scan_d zv < 1 ∨ scan_d zv > n
      · obtain ⟨g1, h1, hI1, hn1⟩ := ih resto als g hlen hI hn
        exact ⟨g1, by simp only [carregar_laco, hr, if_true]; exact h1, hI1, hn1⟩
      · obtain ⟨rc, g0, he, hI0, hn0, -⟩ :=
          inserir_mem_total g hI (prox_aloc als).1 (prox_aloc als).2 (scan_d zu) (scan_d zv)
        obtain ⟨g1, h1, hI1, hn1⟩ := ih resto als.tail g0 hlen hI0 (by rw [hn0, hn])
        exact ⟨g1, by simp only [carregar_laco, hr, if_false, he, ok_bind]; exact h1, hI1, hn1⟩

/-- C16 as amended: on a readable input whose first token is a numeral, stored by `%d` as
the `int` `n`, `grafo_carregar` returns `NULL` when `n ≤ 0` and when `grafo_criar` cannot
allocate the struct, `adj` or `cap` (list) or `mat` (matrix); when `n ≥ 1` and the
allocations of `grafo_criar` succeed it returns a graph on `n` vertices, whatever follows the
header and whatever the allocations of the insertions do. -/
theorem C16_carregar_sucesso (alc : Aloc) (als : List (Bool × Bool)) (z : Int)
    (resto : List Tok) (rep : Representation) (dir : Int) :
    (scan_d z ≤ 0 → grafo_carregar alc als (.int z :: resto) rep dir = .ok none)
      ∧ ((alc.g = false ∨ (rep = .REP_LIST ∧ (alc.adj = false ∨ alc.cap = false))
            ∨ (rep = .REP_MATRIX ∧ alc.mat = false)) →
          grafo_carregar alc als (.int z :: resto) rep dir = .ok none)
      ∧ (1 ≤ scan_d z → alc.g = true → alc.deg = true →
          (rep = .REP_LIST → alc.adj = true ∧ alc.cap = true) →
          (rep = .REP_MATRIX → alc.mat = true) →
          ∃ g, grafo_carregar alc als (.int z :: resto) rep dir = .ok (some g)
            ∧ g.n = scan_d z)
      ∧ (cabe_int z → scan_d z = z) := by
  refine ⟨?_, ?_, ?_, scan_d_id z⟩
  · intro hn
    simp [grafo_carregar, grafo_criar_mem, hn]
  · intro hal
    have : grafo_criar_mem alc (scan_d z) rep dir = none := by
      unfold grafo_criar_mem
      by_cases hn : scan_d z ≤ 0
      · simp [hn]
      · rcases hal with h | ⟨hrep, h | h⟩ | ⟨hrep, h⟩
        · simp [hn, h]
        · cases hg : alc.g <;> simp [hn, hrep, h, hg]
        · cases hg : alc.g <;> simp [hn, hrep, h, hg]
        · cases hg : alc.g <;> simp [hn, hrep, h, hg]
    simp [grafo_carregar, this]
  · intro hn hg hdeg hl hm
    have hpos : ¬ scan_d z ≤ 0 := by omega
    obtain ⟨g0, hg0, hc0⟩ : ∃ g0, grafo_criar_mem alc (scan_d z) rep dir = some g0
        ∧ grafo_criar (scan_d z) rep dir = some g0 := by
      cases rep with
      | REP_LIST =>
        obtain ⟨ha, hc⟩ := hl rfl
        exact ⟨_, by simp [grafo_criar_mem, hpos, hg, hdeg, ha, hc]; rfl,
          by simp [grafo_criar, hpos]⟩
      | REP_MATRIX =>
        have hm1 := hm rfl
        exact ⟨_, by simp [grafo_criar_mem, hpos, hg, hdeg, hm1]; rfl,
          by simp [grafo_criar, hpos]⟩
    obtain ⟨g1, h1, -, hn1⟩ := carregar_laco_total (scan_d z) resto.length resto als g0
      (le_refl _) (inv_mem_de_inv g0 (inv_criar _ _ _ _ hc0)) (criar_eq _ _ _ _ hc0).2.1
    exact ⟨g1, by simp only [grafo_carregar, hg0, h1, ok_bind, pure_ok], hn1⟩

theorem C16_witness :
    (1 : Int) ≤ scan_d 2
      ∧ (∃ g, grafo_carregar aloc_ok [(true, false)] [.int 2, .int 1, .int 2, .lixo]
            .REP_LIST 0 = .ok (some g) ∧ g.n = scan_d 2)
      ∧ scan_d (-4) ≤ 0
      ∧ grafo_carregar aloc_ok [] [.int (-4), .int 1, .int 2] .REP_MATRIX 1 = .ok none
      ∧ grafo_carregar (Aloc.mk true true true true false) [] [.int 2147483647, .int 1, .int 2]
          .REP_MATRIX 0 = .ok none
      ∧ cabe_int 2 ∧ scan_d 2 = 2 :=
  ⟨by decide,
    (C16_carregar_sucesso aloc_ok [(true, false)] 2 [.int 1, .int 2, .lixo] .REP_LIST 0).2.2.1
      (by decide) rfl rfl (fun _ => ⟨rfl, rfl⟩) (fun _ => rfl),
    by decide,
    (C16_carregar_sucesso aloc_ok [] (-4) [.int 1, .int 2] .REP_MATRIX 1).1 (by decide),
    (C16_carregar_sucesso (Aloc.mk true true true true false) [] 2147483647
      [.int 1, .int 2] .REP_MATRIX 0).2.1 (Or.inr (Or.inr ⟨rfl, rfl⟩)),
    by decide,
    (C16_carregar_sucesso aloc_ok [] 2 [] .REP_LIST 0).2.2.2 (by decide)⟩

/-- C16 as stated fails: an input whose header parses as the integer `0` (or a negative one)
is loaded as `NULL`. -/
theorem C16_contraexemplo :
    grafo_carregar aloc_ok [] [.int 0, .int 1, .int 2] .REP_LIST 0 = .ok none
      ∧ grafo_carregar aloc_ok [] [.int (-1)] .REP_MATRIX 0 = .ok none := by
  exact ⟨by decide, by decide⟩

theorem para_falha_no_fim {σ : Type} (corpo : Nat → σ → Except Fault σ) (is : List Nat)
    (k : Nat) (e : Fault) (hok : ∀ i ∈ is, ∀ st, ∃ st1, corpo i st = .ok st1)
    (hfalha : ∀ st, corpo k st = .error e) :
    ∀ st, para corpo (is ++ [k]) st = .error e := by
  induction is with
  | nil =>
    intro st
    simp [para, hfalha st]
  | cons i is ih =>
    intro st
    obtain ⟨st1, h1⟩ := hok i (by simp) st
    simp only [List.cons_append, para, h1, ok_bind]
    exact ih (fun j hj => hok j (by simp [hj])) st1

theorem indices_um_a_n (N : Nat) (hN : 1 ≤ N) :
    (List.range N).map (fun k => k + 1) = (List.range (N - 1)).map (fun k => k + 1) ++ [N] := by
  obtain ⟨M, rfl⟩ : ∃ M, N = M + 1 := ⟨N - 1, by omega⟩
  simp [List.range_succ]

/-- C20 (what the code does): the maximum-level scans of `bfs_analysis.c` and `diameter.c`
run their index over `1..n`, not `0..n-1`.  On every array of `n ≥ 1` levels they read
`levels[n]`, one slot past the end; and the entry `levels[0]` is never looked at, so even
when the slot after the array happens to be readable the result is not the largest level
(levels `[4,3,2,1,0]` followed by a readable `0`: the scans return `3`, the largest level
is `4`). -/
theorem C20_varredura_de_1_a_n :
    (∀ (levels : List Int) (n : Int), 1 ≤ n → levels.length = n.toNat →
        encontrar_maior_nivel levels n = .error .oob
        ∧ (∀ s, diametro_varre levels n s = .error .oob)
        ∧ rd levels n = .error .oob)
      ∧ encontrar_maior_nivel [0, 1, 2, 3, 4] 5 = .error .oob
      ∧ diametro_varre [0, 1, 2, 3, 4] 5 1 = .error .oob
      ∧ encontrar_maior_nivel [4, 3, 2, 1, 0, 0] 5 = .ok 3
      ∧ diametro_varre [4, 3, 2, 1, 0, 0] 5 5 = .ok (3, 1)
      ∧ maior_nivel [4, 3, 2, 1, 0] = 4 := by
  refine ⟨?_, by decide, by decide, by decide, by decide, by decide⟩
  intro levels n hn hlen
  have hN : 1 ≤ n.toNat := by omega
  have hrdn : rd levels ((n.toNat : Nat) : Int) = .error .oob := by
    unfold rd
    rw [if_neg (by omega), Int.toNat_ofNat, List.getElem?_eq_none (by omega)]
  have hrdi : ∀ i ∈ (List.range (n.toNat - 1)).map (fun k => k + 1),
      rd levels ((i : Nat) : Int) = .ok (levels.getD i 0) := by
    intro i hi
    simp only [List.mem_map, List.mem_range] at hi
    obtain ⟨k, hk, rfl⟩ := hi
    exact rd_nat_lt 0 (by omega)
  refine ⟨?_, ?_, ?_⟩
  · unfold encontrar_maior_nivel
    rw [indices_um_a_n _ hN]
    apply para_falha_no_fim
    · intro i hi st
      rw [hrdi i hi]
      simp only [ok_bind]
      split
      · exact ⟨_, rfl⟩
      · exact ⟨_, rfl⟩
    · intro st
      rw [hrdn]
      rfl
  · intro s
    unfold diametro_varre
    rw [indices_um_a_n _ hN]
    apply para_falha_no_fim
    · intro i hi st
      rw [hrdi i hi]
      simp only [ok_bind]
      split
      · exact ⟨_, rfl⟩
      · exact ⟨_, rfl⟩
    · intro st
      rw [hrdn]
      rfl
  · have : n = ((n.toNat : Nat) : Int) := by omega
    rw [this]
    exact hrdn

theorem C20_witness :
    (1 : Int) ≤ 2 ∧ [(0 : Int), 1].length = (2 : Int).toNat
      ∧ encontrar_maior_nivel [0, 1] 2 = .error .oob
      ∧ (∀ s, diametro_varre [0, 1] 2 s = .error .oob)
      ∧ rd [(0 : Int), 1] 2 = .error .oob :=
  ⟨by decide, by decide, C20_varredura_de_1_a_n.1 [0, 1] 2 (by decide) (by decide)⟩

theorem ex_k5_construido : construir 5 .REP_LIST 0 k5_arestas = some ex_k5 := by
  decide

/-- C19 (what the code does): `grafo_dfs` pushes every unvisited neighbour, also one that is
already on the stack, into a stack of `n` slots.  On the complete graph on five vertices
started at vertex `1` the second iteration pushes a sixth entry: the run makes the write
`stack[5]` outside the buffer and returns no arrays, whatever the fuel. -/
theorem C19_dfs_estoura_pilha :
    construir 5 .REP_LIST 0 k5_arestas = some ex_k5
      ∧ Alcancavel ex_k5
      ∧ (∀ fuel, 2 ≤ fuel → grafo_dfs fuel ex_k5 1 = .error .oob)
      ∧ (∀ fuel r, grafo_dfs fuel ex_k5 1 ≠ .ok r) := by
  have h2 : ∀ k, grafo_dfs (k + 2) ex_k5 1 = .error .oob := by
    intro k
    rfl
  refine ⟨ex_k5_construido, construir_alcancavel _ _ _ _ _ ex_k5_construido, ?_, ?_⟩
  · intro fuel hf
    obtain ⟨k, rfl⟩ : ∃ k, fuel = k + 2 := ⟨fuel - 2, by omega⟩
    exact h2 k
  · intro fuel r h
    match fuel, h with
    | 0, h =>
      have e : grafo_dfs 0 ex_k5 1 = .error .fuel := by decide
      rw [e] at h
      cases h
    | 1, h =>
      have e : grafo_dfs 1 ex_k5 1 = .error .fuel := by decide
      rw [e] at h
      cases h
    | k + 2, h =>
      rw [h2 k] at h
      cases h

/-! ## Breadth-first search on the two representations -/

theorem bfs_exec_niveis (g : Grafo) (hI : Inv g) (inicio : Int) (fuel : Nat)
    (h1 : 1 ≤ inicio) (h2 : inicio ≤ g.n) (hf : g.n.toNat ≤ fuel) :
    ∃ st, bfs_exec fuel g inicio = .ok st ∧ st.nivel.length = g.n.toNat
      ∧ st.pai.length = g.n.toNat
      ∧ ∀ x, 0 ≤ x → x < g.n →
        (∀ k, Caminho g inicio (x + 1) k → nivel_de st x ≠ -1 ∧ nivel_de st x ≤ k)
        ∧ (nivel_de st x ≠ -1 → 0 ≤ nivel_de st x
            ∧ Caminho g inicio (x + 1) (nivel_de st x).toNat) := by
  have hS : (inicio - 1).toNat < g.n.toNat := by omega
  have hSe : inicio = (((inicio - 1).toNat : Nat) : Int) + 1 := by omega
  obtain ⟨st, he, hB, hT⟩ := bfs_exec_spec g hI (inicio - 1).toNat hS fuel hf
  rw [← hSe] at he
  refine ⟨st, he, hB.nivel_len, hB.pai_len, ?_⟩
  intro x hx0 hxn
  constructor
  · intro k hk
    rw [hSe] at hk
    have := bfs_final g _ st hB hT (x + 1) k hk
    simpa using this
  · intro hne
    have := hB.som x hx0 hxn hne
    rw [← hSe] at this
    exact this

theorem wr_inv {α : Type} {a b : List α} {i : Int} {x : α} (h : wr a i x = .ok b) :
    0 ≤ i ∧ i.toNat < a.length ∧ b = a.set i.toNat x := by
  unfold wr at h
  split at h
  · rename_i hc
    cases h
    exact ⟨hc.1, by omega, rfl⟩
  · cases h

theorem rd_inv {α : Type} {a : List α} {i : Int} {x : α} (d : α) (h : rd a i = .ok x) :
    0 ≤ i ∧ i.toNat < a.length ∧ x = a.getD i.toNat d := by
  unfold rd at h
  split at h
  · cases h
  · rename_i hc
    cases hget : a[i.toNat]? with
    | none => rw [hget] at h; cases h
    | some y =>
      rw [hget] at h
      cases h
      have hlt := lt_length_of_getElem? hget
      refine ⟨by omega, hlt, ?_⟩
      rw [List.getD_eq_getElem?_getD, hget]
      rfl

theorem bfs_visita_forma (u w : Int) (st st1 : BfsEstado) (h : bfs_visita u w st = .ok st1) :
    0 ≤ w ∧ w.toNat < st.nivel.length
      ∧ ((nivel_de st w ≠ -1 ∧ st1 = st)
        ∨ (nivel_de st w = -1 ∧ w.toNat < st.pai.length
            ∧ st1 = BfsEstado.mk (st.pai.set w.toNat (u + 1))
                (st.nivel.set w.toNat (nivel_de st u + 1)) (st.q.set st.qt.toNat w)
                (st.qt + 1))) := by
  unfold bfs_visita at h
  obtain ⟨nv, hnv, h⟩ := bind_ok_inv h
  obtain ⟨hw0, hwl, hnve⟩ := rd_inv (-1) hnv
  refine ⟨hw0, hwl, ?_⟩
  have e : nivel_de st w = nv := by rw [hnve]; rfl
  split at h
  · rename_i hneg
    right
    obtain ⟨nu, hnu, h⟩ := bind_ok_inv h
    obtain ⟨-, -, hnue⟩ := rd_inv (-1) hnu
    obtain ⟨nivel, hn1, h⟩ := bind_ok_inv h
    obtain ⟨pai, hp1, h⟩ := bind_ok_inv h
    obtain ⟨q, hq1, h⟩ := bind_ok_inv h
    obtain ⟨-, -, rfl⟩ := wr_inv hn1
    obtain ⟨-, hpl, rfl⟩ := wr_inv hp1
    obtain ⟨-, -, rfl⟩ := wr_inv hq1
    cases h
    refine ⟨by rw [e]; exact hneg, hpl, ?_⟩
    have : nivel_de st u = nu := by rw [hnue]; rfl
    rw [this]
  · rename_i hpos
    left
    cases h
    exact ⟨by rw [e]; exact hpos, rfl⟩

theorem bfs_visita_pai (g : Grafo) (S : Nat) (st st1 : BfsEstado) (H : Nat) (u w : Int)
    (hB : BfsInv g S st) (hM : BfsMeio g st H u) (hviz : vizinho g (u + 1) (w + 1))
    (hP : BfsPai g S st) (h : bfs_visita u w st = .ok st1) : BfsPai g S st1 := by
  obtain ⟨hu0, hun, hw0, hwn⟩ := vizinho_range g u w hviz
  obtain ⟨-, hwl, hcase⟩ := bfs_visita_forma u w st st1 h
  rcases hcase with ⟨-, rfl⟩ | ⟨hvis, hpl, rfl⟩
  · exact hP
  · have huQ : u ∈ fila_q st := List.getElem?_mem hM.u_eq
    have huv : nivel_de st u ≠ -1 := (hB.vis_iff u hu0 hun).2 huQ
    obtain ⟨hlu0, -⟩ := hB.som u hu0 hun huv
    have hS0 := hB.s_zero
    have hSw : (S : Int) ≠ w := by
      intro hc
      rw [hc] at hS0
      omega
    have hlw : ∀ x, 0 ≤ x → nivel_de (BfsEstado.mk (st.pai.set w.toNat (u + 1))
        (st.nivel.set w.toNat (nivel_de st u + 1)) (st.q.set st.qt.toNat w) (st.qt + 1)) x
        = if x = w then nivel_de st u + 1 else nivel_de st x := by
      intro x hx
      simp only [nivel_de]
      by_cases hxw : x = w
      · subst hxw
        rw [if_pos rfl, getD_set_eq _ _ _ _ hwl]
      · rw [if_neg hxw, getD_set_ne _ _ _ _ _ (by omega)]
    have hpw : ∀ x, 0 ≤ x → (st.pai.set w.toNat (u + 1)).getD x.toNat 0
        = if x = w then u + 1 else st.pai.getD x.toNat 0 := by
      intro x hx
      by_cases hxw : x = w
      · subst hxw
        rw [if_pos rfl, getD_set_eq _ _ _ _ hpl]
      · rw [if_neg hxw, getD_set_ne _ _ _ _ _ (by omega)]
    exact
      { raiz := by
          have := hpw (S : Int) (by omega)
          rw [Int.toNat_ofNat, if_neg hSw] at this
          simp only
          rw [this]
          exact hP.raiz
        fora := by
          intro x hx0 hxn hx
          rw [hlw x hx0] at hx
          simp only
          by_cases hxw : x = w
          · rw [if_pos hxw] at hx
            omega
          · rw [if_neg hxw] at hx
            rw [hpw x hx0, if_neg hxw]
            exact hP.fora x hx0 hxn hx
        dentro := by
          intro x hx0 hxn hx hxS
          rw [hlw x hx0] at hx ⊢
          simp only
          rw [hpw x hx0]
          by_cases hxw : x = w
          · subst hxw
            rw [if_pos rfl, if_pos rfl]
            have huw : u ≠ x := fun hc => huv (by rw [hc]; exact hvis)
            refine ⟨u, rfl, hviz, ?_, ?_⟩
            · rw [hlw u hu0, if_neg huw]
              exact huv
            · rw [hlw u hu0, if_neg huw]
          · rw [if_neg hxw] at hx ⊢
            rw [if_neg hxw]
            obtain ⟨p, hp1, hp2, hp3, hp4⟩ := hP.dentro x hx0 hxn hx hxS
            obtain ⟨hp0, -, -, -⟩ := vizinho_range g p x hp2
            have hpne : p ≠ w := fun hc => hp3 (by rw [hc]; exact hvis)
            refine ⟨p, hp1, hp2, ?_, ?_⟩
            · rw [hlw p hp0, if_neg hpne]
              exact hp3
            · rw [hlw p hp0, if_neg hpne]
              exact hp4 }

theorem bfs_varre_pai (g : Grafo) (S H : Nat) (u : Int) (ws : List Nat)
    (hws : ∀ w ∈ ws, vizinho g (u + 1) ((w : Int) + 1)) :
    ∀ st st1, BfsInv g S st → BfsMeio g st H u → BfsPai g S st →
      para (fun w st => bfs_visita u (w : Int) st) ws st = .ok st1 → BfsPai g S st1 := by
  induction ws with
  | nil =>
    intro st st1 _ _ hP h
    cases h
    exact hP
  | cons w ws ih =>
    intro st st1 hB hM hP h
    simp only [para] at h
    obtain ⟨st2, h2, h⟩ := bind_ok_inv h
    obtain ⟨st2', he, hB2, hM2, -, -⟩ :=
      bfs_visita_spec g S st H u (w : Int) hB hM (hws w (by simp))
    rw [h2] at he
    cases he
    exact ih (fun w' hw' => hws w' (by simp [hw'])) st2 st1 hB2 hM2
      (bfs_visita_pai g S st st2 H u w hB hM (hws w (by simp)) hP h2) h

theorem bfs_laco_pai (g : Grafo) (hI : Inv g) (S : Nat) :
    ∀ (fuel H : Nat) (st st1 : BfsEstado), BfsInv g S st → BfsTopo g st H → BfsPai g S st →
      bfs_laco g fuel (H : Int) st = .ok st1 → BfsPai g S st1 := by
  intro fuel
  induction fuel with
  | zero =>
    intro H st st1 hB hT hP h
    simp only [bfs_laco] at h
    split at h
    · cases h
    · cases h; exact hP
  | succ k ih =>
    intro H st st1 hB hT hP h
    simp only [bfs_laco] at h
    split at h
    · rename_i hlt
      obtain ⟨u, hrd, hM⟩ := bfs_topo_meio g S st H hB hT hlt
      rw [hrd] at h
      simp only [ok_bind] at h
      obtain ⟨st2, hv, h⟩ := bind_ok_inv h
      have huQ : u ∈ fila_q st := List.getElem?_mem hM.u_eq
      obtain ⟨hu0, hun⟩ := hB.q_range u huQ
      have hue : u = ((u.toNat : Nat) : Int) := by omega
      have hunat : u.toNat < g.n.toNat := by omega
      have hws : ∀ w ∈ viz_lista g u.toNat, vizinho g (u + 1) ((w : Int) + 1) := by
        intro w hw
        obtain ⟨hwn, harc⟩ := (mem_viz_lista g hI u.toNat hunat w).1 hw
        refine ⟨by omega, by omega, by omega, by omega, ?_⟩
        simpa using harc
      have hveq := varre_eq g hI u.toNat hunat (bfs_visita u) st
      rw [← hue] at hveq
      rw [hveq] at hv
      obtain ⟨st2', he2, hB2, hM2, -, hall⟩ := bfs_varre_spec g S H u _ hws st hB hM
      rw [hv] at he2
      cases he2
      have hP2 := bfs_varre_pai g S H u _ hws st st2 hB hM hP hv
      have hT2 : BfsTopo g st2 (H + 1) := by
        apply bfs_meio_topo g S st2 H u hB2 hM2
        intro w hvz
        obtain ⟨-, -, hw0, hwn⟩ := vizinho_range g u w hvz
        have hwe : w = ((w.toNat : Nat) : Int) := by omega
        rw [hwe]
        apply hall
        rw [mem_viz_lista g hI u.toNat hunat]
        refine ⟨by omega, ?_⟩
        have := hvz.2.2.2.2
        simpa using this
      have hc : ((H + 1 : Nat) : Int) = (H : Int) + 1 := by push_cast; rfl
      rw [← hc] at h
      exact ih (H + 1) st2 st1 hB2 hT2 hP2 h
    · cases h; exact hP

theorem bfs_exec_pai (g : Grafo) (hI : Inv g) (S : Nat) (hS : S < g.n.toNat) (fuel : Nat)
    (st : BfsEstado) (h : bfs_exec fuel g ((S : Int) + 1) = .ok st) : BfsPai g S st := by
  obtain ⟨q1, nivel1, pai1, h1, h2, h3, hB0, hT0⟩ := bfs_inicial g S hS
  unfold bfs_exec at h
  simp only [h1, h2, h3, ok_bind] at h
  simp only [add_sub_cancel_right] at h2 h3
  obtain ⟨-, -, hn1⟩ := wr_inv h2
  obtain ⟨-, hpl, hp1⟩ := wr_inv h3
  simp only [Int.toNat_ofNat] at hn1 hp1 hpl
  have hP0 : BfsPai g S (BfsEstado.mk pai1 nivel1 q1 1) :=
    { raiz := by
        simp only
        rw [hp1, getD_set_eq _ _ _ _ hpl]
      fora := by
        intro x hx0 _ hx
        simp only [nivel_de] at hx
        simp only
        have hxS : x.toNat ≠ S := by
          intro hc
          rw [hn1, hc, getD_set_eq _ _ _ _ (by simpa using hS)] at hx
          omega
        rw [hp1, getD_set_ne _ _ _ _ _ (fun hc => hxS hc.symm), getD_replicate_zero]
      dentro := by
        intro x hx0 _ hx hxS
        exfalso
        simp only [nivel_de] at hx
        have hne : S ≠ x.toNat := by omega
        rw [hn1, getD_set_ne _ _ _ _ _ hne, List.getD_eq_getElem?_getD,
          List.getElem?_replicate] at hx
        split at hx <;> exact hx rfl }
  have hc : ((0 : Nat) : Int) = 0 := rfl
  rw [← hc] at h
  exact bfs_laco_pai g hI S fuel 0 _ st hB0 hT0 hP0 h

/-- C14: on every reachable graph and every start in `1..n`, `grafo_bfs` returns (any fuel
`≥ n` is enough) arrays with `level[start-1] = 0` and `parent[start-1] = -1`; every vertex
that is not reached keeps `parent = 0` and `level = -1`; and every reached vertex `v` other
than the start has a parent `p` in `1..n` of which `v` is a stored neighbour, with
`level[v-1] = level[p-1] + 1`.  A vertex is reached exactly when a path of stored edges leads
to it from the start. -/
theorem C14_bfs_arvore (g : Grafo) (h : Alcancavel g) (inicio : Int) (fuel : Nat)
    (h1 : 1 ≤ inicio) (h2 : inicio ≤ g.n) (hf : g.n.toNat ≤ fuel) :
    ∃ pai nivel, grafo_bfs fuel g inicio = .ok (pai, nivel)
      ∧ nivel[(inicio - 1).toNat]? = some 0 ∧ pai[(inicio - 1).toNat]? = some (-1)
      ∧ ∀ v, 1 ≤ v → v ≤ g.n → ∃ l p, nivel[(v - 1).toNat]? = some l
        ∧ pai[(v - 1).toNat]? = some p
        ∧ (l = -1 ↔ ¬ ∃ k, Caminho g inicio v k)
        ∧ (l = -1 → p = 0)
        ∧ (l ≠ -1 → v ≠ inicio → 1 ≤ p ∧ p ≤ g.n ∧ vizinho g p v
            ∧ ∃ lp, nivel[(p - 1).toNat]? = some lp ∧ lp ≠ -1 ∧ l = lp + 1) := by
  have hI := inv_alcancavel g h
  have hS : (inicio - 1).toNat < g.n.toNat := by omega
  have hSe : inicio = (((inicio - 1).toNat : Nat) : Int) + 1 := by omega
  obtain ⟨st, he, hnl, hpl, hlv⟩ := bfs_exec_niveis g hI inicio fuel h1 h2 hf
  have hP : BfsPai g (inicio - 1).toNat st := by
    apply bfs_exec_pai g hI _ hS fuel
    rw [← hSe]
    exact he
  have hnv : ∀ x : Int, 0 ≤ x → x < g.n → st.nivel[x.toNat]? = some (nivel_de st x) :=
    fun x _ _ => getElem?_getD _ _ _ (by omega)
  have hpv : ∀ x : Int, 0 ≤ x → x < g.n → st.pai[x.toNat]? = some (st.pai.getD x.toNat 0) :=
    fun x _ _ => getElem?_getD _ _ _ (by omega)
  have hs0 : nivel_de st (inicio - 1) = 0 := by
    obtain ⟨hmin, -⟩ := hlv (inicio - 1) (by omega) (by omega)
    obtain ⟨hne, hle⟩ := hmin 0 (by simpa using (Caminho.inicio : Caminho g inicio inicio 0))
    obtain ⟨h0, -⟩ := (hlv (inicio - 1) (by omega) (by omega)).2 hne
    simp only [Nat.cast_zero] at hle
    omega
  refine ⟨st.pai, st.nivel, by simp [grafo_bfs, he], ?_, ?_, ?_⟩
  · rw [hnv _ (by omega) (by omega), hs0]
  · rw [hpv _ (by omega) (by omega), hP.raiz]
  · intro v hv1 hv2
    obtain ⟨hmin, hsom⟩ := hlv (v - 1) (by omega) (by omega)
    simp only [sub_add_cancel] at hmin hsom
    refine ⟨_, _, hnv _ (by omega) (by omega), hpv _ (by omega) (by omega), ?_, ?_, ?_⟩
    · constructor
      · rintro hm ⟨k, hk⟩
        exact (hmin k hk).1 hm
      · intro hno
        by_contra hne
        exact hno ⟨_, (hsom hne).2⟩
    · intro hl
      exact hP.fora (v - 1) (by omega) (by omega) hl
    · intro hl hvs
      obtain ⟨p, hp1, hp2, hp3, hp4⟩ :=
        hP.dentro (v - 1) (by omega) (by omega) hl (by omega)
      simp only [sub_add_cancel] at hp2
      obtain ⟨hp0, hpn, -, -⟩ := vizinho_range g p (v - 1) (by simpa using hp2)
      rw [hp1]
      refine ⟨by omega, by omega, hp2, nivel_de st p, ?_, hp3, hp4⟩
      rw [add_sub_cancel_right]
      exact hnv p hp0 hpn

theorem C14_witness :
    Alcancavel ex_matriz3 ∧ (1 : Int) ≤ 1 ∧ (1 : Int) ≤ ex_matriz3.n ∧ ex_matriz3.n.toNat ≤ 3
      ∧ ∃ pai nivel, grafo_bfs 3 ex_matriz3 1 = .ok (pai, nivel)
        ∧ nivel[((1 : Int) - 1).toNat]? = some 0 ∧ pai[((1 : Int) - 1).toNat]? = some (-1)
        ∧ ∀ v, 1 ≤ v → v ≤ ex_matriz3.n → ∃ l p, nivel[(v - 1).toNat]? = some l
          ∧ pai[(v - 1).toNat]? = some p
          ∧ (l = -1 ↔ ¬ ∃ k, Caminho ex_matriz3 1 v k)
          ∧ (l = -1 → p = 0)
          ∧ (l ≠ -1 → v ≠ 1 → 1 ≤ p ∧ p ≤ ex_matriz3.n ∧ vizinho ex_matriz3 p v
              ∧ ∃ lp, nivel[(p - 1).toNat]? = some lp ∧ lp ≠ -1 ∧ l = lp + 1) :=
  ⟨ex_matriz3_alcancavel, by decide, by decide, by decide,
    C14_bfs_arvore ex_matriz3 ex_matriz3_alcancavel 1 3 (by decide) (by decide) (by decide)⟩

/-! ## Connected components on arbitrary graphs: seeds and order -/

theorem comp_laco_cab (g : Grafo) (hI : Inv g) (vis0 : List Int) (i : Int) :
    ∀ (fuel : Nat) (st st1 : CompEstado), CompInv g vis0 i st → CompCab i st →
      comp_laco g fuel st = .ok st1 → CompCab i st1 := by
  intro fuel
  induction fuel with
  | zero =>
    intro st st1 _ hc h
    simp only [comp_laco] at h
    split at h
    · cases h
    · cases h; exact hc
  | succ k ih =>
    intro st st1 hC hc h
    simp only [comp_laco] at h
    split at h
    · rename_i hsp
      obtain ⟨u, members1, hrd, hwr, hC1, hM1, hu0, hun⟩ := comp_pop_spec g vis0 i st hC hsp
      rw [hrd] at h
      simp only [ok_bind, hwr] at h
      obtain ⟨st2, hv, h⟩ := bind_ok_inv h
      have hue : u = ((u.toNat : Nat) : Int) := by omega
      have hunat : u.toNat < g.n.toNat := by omega
      have hws : ∀ w ∈ viz_lista g u.toNat, vizinho g (u + 1) ((w : Int) + 1) := by
        intro w hw
        obtain ⟨hwn, harc⟩ := (mem_viz_lista g hI u.toNat hunat w).1 hw
        refine ⟨by omega, by omega, by omega, by omega, ?_⟩
        simpa using harc
      have huM : u ∈ membros0 (CompEstado.mk st.vis st.stack (st.sp - 1) members1
          (st.mem_sz + 1)) := by rw [hM1]; simp
      obtain ⟨st3, he2, hC2, hm2, hs2, -, -⟩ := comp_varre_spec g vis0 i u _ hws _ hC1 huM
      have hveq := varre_eq g hI u.toNat hunat comp_visita
        (CompEstado.mk st.vis st.stack (st.sp - 1) members1 (st.mem_sz + 1))
      rw [← hue] at hveq
      rw [hveq, he2] at hv
      cases hv
      have hM2 : membros0 st2 = membros0 st ++ [u] := by
        rw [← hM1]
        simp only [membros0, membros, hm2, hs2]
      have hc2 : CompCab i st2 := by
        right
        rw [hM2]
        rcases hc with ⟨hnil, hpil⟩ | hhead
        · rw [hnil]
          -- the stack holds just the seed, so the popped vertex is the seed
          obtain ⟨-, hidx, hue2⟩ := rd_inv (0 : Int) hrd
          have hlen := pilha_length g vis0 i st hC
          rw [hpil] at hlen
          have hsp1 : st.sp.toNat = 1 := by simpa using hlen.symm
          have h0 : (pilha st)[0]? = some i := by rw [hpil]; rfl
          unfold pilha at h0
          rw [List.getElem?_take, if_pos (by omega)] at h0
          have e0 : (st.sp - 1).toNat = 0 := by omega
          rw [e0, List.getD_eq_getElem?_getD, h0] at hue2
          simp only [List.nil_append, List.head?_cons, hue2]
          rfl
        · cases hm : membros0 st with
          | nil => rw [hm] at hhead; cases hhead
          | cons a as =>
            rw [hm] at hhead
            simpa using hhead
      exact ih st2 st1 hC2 hc2 h
    · cases h; exact hc

theorem comp_semente_forma (g : Grafo) (hI : Inv g) (fuel : Nat) (hf : g.n.toNat ≤ fuel)
    (i : Nat) (hi : i < g.n.toNat) (t : CompTotal) (hT : TotInv g t i) :
    ∃ t1, comp_semente fuel g i t = .ok t1 ∧ TotInv g t1 (i + 1)
      ∧ ((vis_de t.vis (i : Int) ≠ 0 ∧ t1 = t)
        ∨ (vis_de t.vis (i : Int) = 0 ∧ ∃ st1 : CompEstado,
            CompInv g t.vis (i : Int) st1 ∧ st1.sp = 0 ∧ Proc g st1.vis (membros0 st1)
            ∧ CompCab (i : Int) st1 ∧ (i : Int) ∈ membros0 st1
            ∧ t1 = CompTotal.mk st1.vis st1.stack
                (t.comps.set t.comp_count.toNat (membros st1))
                (t.sizes.set t.comp_count.toNat st1.mem_sz) (t.comp_count + 1))) := by
  have hvl := hT.vis_len
  have hrd : rd t.vis (i : Int) = .ok (vis_de t.vis (i : Int)) := by
    rw [rd_nat_lt (0 : Int) (by omega)]
    simp [vis_de]
  by_cases hvis : vis_de t.vis (i : Int) ≠ 0
  · refine ⟨t, by simp [comp_semente, hrd, hvis], ?_, Or.inl ⟨hvis, rfl⟩⟩
    exact
      { vis_len := hT.vis_len
        stack_len := hT.stack_len
        comps_len := hT.comps_len
        sizes_len := hT.sizes_len
        cnt_nonneg := hT.cnt_nonneg
        cnt_le := by have := hT.cnt_le; push_cast; omega
        visto := by
          intro x hx0 hxi
          by_cases hx : x = (i : Int)
          · rw [hx]; exact hvis
          · exact hT.visto x hx0 (by push_cast at hxi; omega)
        cobre := hT.cobre
        tamanhos := hT.tamanhos }
  · have hvis0 : vis_de t.vis (i : Int) = 0 := by
      by_contra h; exact hvis h
    have hsl := hT.stack_len
    -- the state in which the inner loop starts
    obtain ⟨st0, hst0⟩ : ∃ st0 : CompEstado, st0 = CompEstado.mk (t.vis.set i 1)
        (t.stack.set 0 (i : Int)) 1 (List.replicate g.n.toNat 0) 0 := ⟨_, rfl⟩
    have hwr1 : wr t.stack 0 (i : Int) = .ok (t.stack.set 0 (i : Int)) := by
      simp only [wr]
      rw [if_pos ⟨le_refl _, by omega⟩]
      rfl
    have hwr2 : wr t.vis (i : Int) 1 = .ok (t.vis.set i 1) := wr_nat _ (by omega)
    have hP0 : pilha st0 = [(i : Int)] := by
      subst hst0
      simp only [pilha]
      have : (1 : Int).toNat = 1 := rfl
      rw [this, List.take_succ]
      have hpos : 0 < t.stack.length := by omega
      simp [List.getElem?_set, hpos]
    have hM0 : membros0 st0 = [] := by
      subst hst0
      simp [membros0, membros]
    have hv0 : ∀ x : Int, 0 ≤ x → vis_de st0.vis x = if x = (i : Int) then 1 else vis_de t.vis x := by
      intro x hx
      subst hst0
      simp only [vis_de]
      by_cases hxi : x = (i : Int)
      · subst hxi
        rw [if_pos rfl, Int.toNat_ofNat, getD_set_eq _ _ _ _ (by omega)]
      · rw [if_neg hxi, getD_set_ne _ _ _ _ _ (by omega)]
    have hC0 : CompInv g t.vis (i : Int) st0 :=
      { vis_len := by subst hst0; simpa using hT.vis_len
        stack_len := by subst hst0; simpa using hT.stack_len
        members_len := by subst hst0; simp
        sp_nonneg := by subst hst0; simp
        mem_nonneg := by subst hst0; simp
        cabe := by subst hst0; simp only; omega
        nodup := by rw [hP0, hM0]; simp
        faixa := by
          intro x hx
          rw [hP0, hM0] at hx
          simp only [List.append_nil, List.mem_singleton] at hx
          subst hx
          exact ⟨by omega, by omega⟩
        vis_iff := by
          intro x hx0 _
          rw [hP0, hM0, hv0 x hx0]
          simp only [List.append_nil, List.mem_singleton]
          by_cases hxi : x = (i : Int)
          · simp [hxi]
          · simp [hxi]
        novo := by
          intro x hx
          rw [hP0, hM0] at hx
          simp only [List.append_nil, List.mem_singleton] at hx
          subst hx
          exact hvis0
        liga := by
          intro x hx
          rw [hP0, hM0] at hx
          simp only [List.append_nil, List.mem_singleton] at hx
          subst hx
          exact liga_refl g _ }
    have hPr0 : Proc g st0.vis (membros0 st0) := by
      intro x hx
      rw [hM0] at hx
      cases hx
    obtain ⟨st1, he1, hC1, hsp1, hPr1, hmo1⟩ :=
      comp_laco_spec g hI t.vis (i : Int) fuel st0 hC0 hPr0 (by omega)
    have hP1 : pilha st1 = [] := by simp [pilha, hsp1]
    have hin : ∀ x, x ∈ pilha st1 ++ membros0 st1 ↔ x ∈ membros0 st1 := by
      intro x; rw [hP1]; simp
    have hlenM := membros0_length g t.vis (i : Int) st1 hC1
    have hms0 := hC1.mem_nonneg
    have hcabe := hC1.cabe
    have hiM : (i : Int) ∈ membros0 st1 := by
      have h1 : vis_de st0.vis (i : Int) ≠ 0 := by rw [hv0 _ (by omega), if_pos rfl]; decide
      rcases (hC1.vis_iff (i : Int) (by omega) (by omega)).1 (hmo1 _ h1) with h | h
      · exact absurd hvis0 h
      · exact (hin _).1 h
    have hshr : realloc st1.members st1.mem_sz = membros st1 := by
      unfold realloc membros
      have : st1.mem_sz.toNat - st1.members.length = 0 := by
        have := hC1.members_len; omega
      rw [this]
      simp
    have hMne : membros st1 ≠ [] := by
      intro h
      simp only [membros0, h, List.map_nil] at hiM
      cases hiM
    have hM0mem : ∀ x : Int, x ∈ membros0 st1 ↔ (x + 1) ∈ membros st1 := by
      intro x
      simp only [membros0, List.mem_map]
      constructor
      · rintro ⟨a, ha, rfl⟩
        simpa using ha
      · intro h
        exact ⟨x + 1, h, by simp⟩
    have hcnt0 := hT.cnt_nonneg
    have hcntle := hT.cnt_le
    have hwr3 : wr t.comps t.comp_count (membros st1)
        = .ok (t.comps.set t.comp_count.toNat (membros st1)) := by
      simp only [wr]; rw [if_pos ⟨hcnt0, by have := hT.comps_len; omega⟩]
    have hwr4 : wr t.sizes t.comp_count st1.mem_sz
        = .ok (t.sizes.set t.comp_count.toNat st1.mem_sz) := by
      simp only [wr]; rw [if_pos ⟨hcnt0, by have := hT.sizes_len; omega⟩]
    obtain ⟨t1, ht1⟩ : ∃ t1 : CompTotal, t1 = CompTotal.mk st1.vis st1.stack
        (t.comps.set t.comp_count.toNat (membros st1))
        (t.sizes.set t.comp_count.toNat st1.mem_sz) (t.comp_count + 1) := ⟨_, rfl⟩
    have hcd : comps_de t1 = comps_de t ++ [membros st1] := by
      subst ht1
      simp only [comps_de]
      have e1 : (t.comp_count + 1).toNat = t.comp_count.toNat + 1 := by omega
      rw [e1, List.take_succ, take_set_ge _ _ _ _ (le_refl _)]
      have : t.comp_count.toNat < t.comps.length := by have := hT.comps_len; omega
      simp [List.getElem?_set, this]
    have hvis1 : ∀ x, 0 ≤ x → x < g.n →
        (vis_de st1.vis x ≠ 0 ↔ (vis_de t.vis x ≠ 0 ∨ x ∈ membros0 st1)) := by
      intro x hx0 hxn
      rw [hC1.vis_iff x hx0 hxn, hin x]
    have hcab1 : CompCab (i : Int) st1 :=
      comp_laco_cab g hI t.vis (i : Int) fuel st0 st1 hC0 (Or.inl ⟨hM0, hP0⟩) he1
    refine ⟨t1, ?_, ?_, Or.inr ⟨hvis0, st1, hC1, hsp1, hPr1, hcab1, hiM, ht1⟩⟩
    · subst ht1
      subst hst0
      simp only [comp_semente, hrd, hvis0, ne_eq, not_true_eq_false, if_false, hwr1, ok_bind,
        hwr2, he1, hshr, hMne, not_false_eq_true, if_true, hwr3, hwr4, pure_ok]
    · exact
        { vis_len := by subst ht1; exact hC1.vis_len
          stack_len := by subst ht1; exact hC1.stack_len
          comps_len := by subst ht1; simpa using hT.comps_len
          sizes_len := by subst ht1; simpa using hT.sizes_len
          cnt_nonneg := by subst ht1; simp only; omega
          cnt_le := by subst ht1; simp only; push_cast; omega
          visto := by
            intro x hx0 hxi
            have hxn : x < g.n := by push_cast at hxi; omega
            have : vis_de st1.vis x ≠ 0 := by
              rw [hvis1 x hx0 hxn]
              by_cases hx : x = (i : Int)
              · rw [hx]; exact Or.inr hiM
              · exact Or.inl (hT.visto x hx0 (by push_cast at hxi; omega))
            subst ht1
            exact this
          cobre := by
            intro x hx0 hxn
            have h1 := hvis1 x hx0 hxn
            rw [hcd]
            have h2 : vis_de t1.vis x = vis_de st1.vis x := by subst ht1; rfl
            rw [h2, h1, hT.cobre x hx0 hxn, hM0mem x]
            simp only [List.mem_append, List.mem_singleton]
            constructor
            · rintro (⟨c, hc, hx⟩ | h)
              · exact ⟨c, Or.inl hc, hx⟩
              · exact ⟨_, Or.inr rfl, h⟩
            · rintro ⟨c, hc | rfl, hx⟩
              · exact Or.inl ⟨c, hc, hx⟩
              · exact Or.inr hx
          tamanhos := by
            intro j hj
            subst ht1
            simp only at hj ⊢
            by_cases hjc : j = t.comp_count.toNat
            · subst hjc
              rw [getD_set_eq _ _ _ _ (by have := hT.sizes_len; omega),
                getD_set_eq _ _ _ _ (by have := hT.comps_len; omega)]
              have : (membros st1).length = st1.mem_sz.toNat := by
                rw [← hlenM]; simp [membros0]
              rw [this]
              omega
            · rw [getD_set_ne _ _ _ _ _ (fun h => hjc h.symm),
                getD_set_ne _ _ _ _ _ (fun h => hjc h.symm)]
              exact hT.tamanhos j (by omega) }

theorem comp_semente_ger (g : Grafo) (hI : Inv g) (fuel : Nat) (hf : g.n.toNat ≤ fuel)
    (i : Nat) (hi : i < g.n.toNat) (t : CompTotal) (hT : TotInv g t i) (hG : TotGer g t i) :
    ∃ t1, comp_semente fuel g i t = .ok t1 ∧ TotInv g t1 (i + 1) ∧ TotGer g t1 (i + 1) := by
  obtain ⟨t1, he, hT1, hcase⟩ := comp_semente_forma g hI fuel hf i hi t hT
  refine ⟨t1, he, hT1, ?_⟩
  rcases hcase with ⟨-, ht1⟩ | ⟨hvis0, st1, hC1, hsp1, hPr1, hcab1, hiM, ht1⟩
  · subst ht1
    exact
      { fechado := hG.fechado
        ordem := by
          intro j hj
          obtain ⟨s, resto, h1, h2, h3, h4⟩ := hG.ordem j hj
          exact ⟨s, resto, h1, h2, by push_cast; omega, h4⟩
        arcos := hG.arcos
        disj := hG.disj }
  · have hcnt0 := hT.cnt_nonneg
    have hcl := hT.comps_len
    have hcntle := hT.cnt_le
    have hP1 : pilha st1 = [] := by simp [pilha, hsp1]
    have hin : ∀ x, x ∈ pilha st1 ++ membros0 st1 ↔ x ∈ membros0 st1 := by
      intro x; rw [hP1]; simp
    have hM0mem : ∀ x : Int, x ∈ membros0 st1 ↔ (x + 1) ∈ membros st1 := by
      intro x
      simp only [membros0, List.mem_map]
      constructor
      · rintro ⟨a, ha, rfl⟩
        simpa using ha
      · intro h
        exact ⟨x + 1, h, by simp⟩
    have hMmem : ∀ a : Int, a ∈ membros st1 → (a - 1) ∈ membros0 st1 := by
      intro a ha
      exact (hM0mem _).2 (by simpa using ha)
    have hvis1 : ∀ x, 0 ≤ x → x < g.n →
        (vis_de st1.vis x ≠ 0 ↔ (vis_de t.vis x ≠ 0 ∨ x ∈ membros0 st1)) := by
      intro x hx0 hxn
      rw [hC1.vis_iff x hx0 hxn, hin x]
    have hv1 : ∀ x, vis_de t1.vis x = vis_de st1.vis x := by intro x; subst ht1; rfl
    have hcnt1 : t1.comp_count = t.comp_count + 1 := by subst ht1; rfl
    -- the component table: the new entry and the old ones
    have hnovo : t1.comps.getD t.comp_count.toNat [] = membros st1 := by
      subst ht1
      exact getD_set_eq _ _ _ _ (by omega)
    have hvelho : ∀ j : Nat, (j : Int) < t.comp_count →
        t1.comps.getD j [] = t.comps.getD j [] := by
      intro j hj
      subst ht1
      exact getD_set_ne _ _ _ _ _ (by omega)
    have hmem := mem_comps_de t (by omega)
    -- a vertex marked before the seed lies in an old component
    have hantes : ∀ x, 0 ≤ x → x < g.n → vis_de t.vis x ≠ 0 →
        ∃ j : Nat, (j : Int) < t.comp_count ∧ (x + 1) ∈ t.comps.getD j [] := by
      intro x hx0 hxn hx
      obtain ⟨c, hc, hxc⟩ := (hT.cobre x hx0 hxn).1 hx
      obtain ⟨j, hj, hjc⟩ := (hmem c).1 hc
      exact ⟨j, hj, by rw [hjc]; exact hxc⟩
    have hdepois : ∀ j : Nat, (j : Int) < t.comp_count → ∀ a ∈ t.comps.getD j [],
        1 ≤ a → a ≤ g.n → vis_de t.vis (a - 1) ≠ 0 := by
      intro j hj a ha ha1 han
      refine (hT.cobre (a - 1) (by omega) (by omega)).2 ⟨_, (hmem _).2 ⟨j, hj, rfl⟩, ?_⟩
      simpa using ha
    -- the members of the new component
    have hfaixa : ∀ a ∈ membros st1, (i : Int) + 1 ≤ a ∧ a ≤ g.n := by
      intro a ha
      have h0 := hMmem a ha
      obtain ⟨hx0, hxn⟩ := hC1.faixa _ ((hin _).2 h0)
      have hnv := hC1.novo _ ((hin _).2 h0)
      refine ⟨?_, by omega⟩
      by_contra hlt
      exact hT.visto (a - 1) hx0 (by omega) hnv
    obtain ⟨resto, hcab⟩ : ∃ resto, membros st1 = ((i : Int) + 1) :: resto := by
      rcases hcab1 with ⟨hnil, -⟩ | hhead
      · rw [hnil] at hiM; cases hiM
      · unfold membros0 at hhead
        cases hm : membros st1 with
        | nil => rw [hm] at hhead; cases hhead
        | cons a as =>
          rw [hm] at hhead
          simp only [List.map_cons, List.head?_cons, Option.some.injEq] at hhead
          exact ⟨as, by rw [show a = (i : Int) + 1 by omega]⟩
    have hfech : ∀ x, 0 ≤ x → x < g.n → vis_de st1.vis x ≠ 0 →
        ∀ w, vizinho g (x + 1) (w + 1) → vis_de st1.vis w ≠ 0 := by
      intro x hx0 hxn hx w hv
      obtain ⟨-, -, hw0, hwn⟩ := vizinho_range g x w hv
      rcases (hvis1 x hx0 hxn).1 hx with h | h
      · exact (hvis1 w hw0 hwn).2 (Or.inl (hG.fechado x hx0 hxn h w hv))
      · exact hPr1 x h w hv
    exact
      { fechado := by
          intro x hx0 hxn hx w hv
          rw [hv1] at hx ⊢
          exact hfech x hx0 hxn hx w hv
        ordem := by
          intro j hj
          rw [hcnt1] at hj
          by_cases hjc : (j : Int) < t.comp_count
          · obtain ⟨s, r, h1, h2, h3, h4, h5, h6⟩ := hG.ordem j hjc
            refine ⟨s, r, by rw [hvelho j hjc]; exact h1, h2, by push_cast; omega, ?_, ?_, ?_⟩
            · rw [hvelho j hjc]; exact h4
            · intro a ha1 has
              obtain ⟨j1, hj1, hm1⟩ := h5 a ha1 has
              exact ⟨j1, hj1, by rw [hvelho j1 (by omega)]; exact hm1⟩
            · intro j1 hj1
              obtain ⟨s1, r1, hs1, hlt⟩ := h6 j1 hj1
              exact ⟨s1, r1, by rw [hvelho j1 (by omega)]; exact hs1, hlt⟩
          · have hje : j = t.comp_count.toNat := by omega
            subst hje
            refine ⟨(i : Int) + 1, resto, by rw [hnovo]; exact hcab, by omega,
              by push_cast; omega, ?_, ?_, ?_⟩
            · rw [hnovo]; exact hfaixa
            · intro a ha1 hai
              obtain ⟨j1, hj1, hm1⟩ := hantes (a - 1) (by omega) (by omega)
                (hT.visto (a - 1) (by omega) (by omega))
              refine ⟨j1, by omega, ?_⟩
              rw [hvelho j1 hj1]
              simpa using hm1
            · intro j1 hj1
              obtain ⟨s1, r1, hs1, -, hlt, -⟩ := hG.ordem j1 (by omega)
              exact ⟨s1, r1, by rw [hvelho j1 (by omega)]; exact hs1, by omega⟩
        arcos := by
          intro j hj u hu v hv
          rw [hcnt1] at hj
          by_cases hjc : (j : Int) < t.comp_count
          · rw [hvelho j hjc] at hu
            obtain ⟨j1, hj1, hm1⟩ := hG.arcos j hjc u hu v hv
            exact ⟨j1, hj1, by rw [hvelho j1 (by omega)]; exact hm1⟩
          · have hje : j = t.comp_count.toNat := by omega
            subst hje
            rw [hnovo] at hu
            have hv2 : vizinho g ((u - 1) + 1) ((v - 1) + 1) := by simpa using hv
            obtain ⟨-, -, hw0, hwn⟩ := vizinho_range g (u - 1) (v - 1) hv2
            have hwv := hPr1 (u - 1) (hMmem u hu) (v - 1) hv2
            rcases (hvis1 (v - 1) hw0 hwn).1 hwv with h | h
            · obtain ⟨j1, hj1, hm1⟩ := hantes (v - 1) hw0 hwn h
              refine ⟨j1, by omega, ?_⟩
              rw [hvelho j1 hj1]
              simpa using hm1
            · refine ⟨t.comp_count.toNat, le_refl _, ?_⟩
              rw [hnovo]
              simpa using (hM0mem _).1 h
        disj := by
          intro j hj
          rw [hcnt1] at hj
          by_cases hjc : (j : Int) < t.comp_count
          · obtain ⟨h1, h2⟩ := hG.disj j hjc
            refine ⟨by rw [hvelho j hjc]; exact h1, ?_⟩
            intro j1 hj1 a ha
            rw [hvelho j hjc] at ha
            rw [hvelho j1 (by omega)]
            exact h2 j1 hj1 a ha
          · have hje : j = t.comp_count.toNat := by omega
            subst hje
            rw [hnovo]
            refine ⟨?_, ?_⟩
            · have hnd := hC1.nodup
              rw [hP1, List.nil_append] at hnd
              exact List.Nodup.of_map _ hnd
            · intro j1 hj1 a ha hold
              rw [hvelho j1 (by omega)] at hold
              obtain ⟨ha1, han⟩ := hfaixa a ha
              exact hdepois j1 (by omega) a hold (by omega) han
                (hC1.novo _ ((hin _).2 (hMmem a ha))) }

theorem comp_exec_ger (g : Grafo) (hI : Inv g) (fuel : Nat) (hf : g.n.toNat ≤ fuel) :
    ∃ t, comp_exec fuel g = .ok t ∧ TotInv g t g.n.toNat ∧ TotGer g t g.n.toNat := by
  obtain ⟨t0, ht0⟩ : ∃ t0 : CompTotal, t0 = CompTotal.mk (List.replicate g.n.toNat 0)
      (List.replicate g.n.toNat 0) (List.replicate g.n.toNat []) (List.replicate g.n.toNat 0)
      0 := ⟨_, rfl⟩
  have hv0 : ∀ x, vis_de t0.vis x = 0 := by
    intro x; subst ht0; exact vis_de_replicate _ _
  have hc0 : comps_de t0 = [] := by subst ht0; simp [comps_de]
  have hcnt : t0.comp_count = 0 := by subst ht0; rfl
  have key : ∀ k, k ≤ g.n.toNat →
      ∃ t, para (comp_semente fuel g) (List.range k) t0 = .ok t ∧ TotInv g t k
        ∧ TotGer g t k := by
    intro k
    induction k with
    | zero =>
      intro _
      refine ⟨t0, rfl, ?_, ?_⟩
      · exact
          { vis_len := by subst ht0; simp
            stack_len := by subst ht0; simp
            comps_len := by subst ht0; simp
            sizes_len := by subst ht0; simp
            cnt_nonneg := by subst ht0; simp
            cnt_le := by subst ht0; simp
            visto := by intro x h0 h1; simp only [Nat.cast_zero] at h1; omega
            cobre := by
              intro x _ _
              rw [hv0 x, hc0]
              simp
            tamanhos := by
              intro j hj
              subst ht0
              simp only at hj
              omega }
      · exact
          { fechado := by intro x _ _ hx; exact absurd (hv0 x) hx
            ordem := by intro j hj; rw [hcnt] at hj; omega
            arcos := by intro j hj; rw [hcnt] at hj; omega
            disj := by intro j hj; rw [hcnt] at hj; omega }
    | succ k ih =>
      intro hk
      obtain ⟨t, he, hT, hG⟩ := ih (by omega)
      obtain ⟨t1, he1, hT1, hG1⟩ := comp_semente_ger g hI fuel hf k (by omega) t hT hG
      refine ⟨t1, ?_, hT1, hG1⟩
      rw [List.range_succ, para_append, he]
      simp [para, he1]
  obtain ⟨t, he, hT, hG⟩ := key g.n.toNat (le_refl _)
  refine ⟨t, ?_, hT, hG⟩
  subst ht0
  exact he

/-! ## Order of the returned components, and what a stored arc says about them -/

theorem ex_dir3_construido : construir 3 .REP_LIST 1 [(2, 1), (2, 3)] = some ex_dir3 := by
  decide

theorem ex_dir3_alcancavel : Alcancavel ex_dir3 :=
  construir_alcancavel 3 .REP_LIST 1 [(2, 1), (2, 3)] ex_dir3 ex_dir3_construido

/-- C11: on every reachable graph (either representation, directed or not)
`grafo_componentes` returns (any fuel `≥ n` is enough) its components ordered by smallest
member.  Component `j` is `s :: rest` where the seed `s` is the smallest vertex of `1..n`
outside the components before it (every smaller vertex lies in one of them, `s` lies in none
of them), `s` is the smallest member of the component, and the seeds of the components
before it are smaller than `s`. -/
theorem C11_componentes_ordenados (g : Grafo) (fuel : Nat) (h : Alcancavel g)
    (hf : g.n.toNat ≤ fuel) :
    ∃ cnt comps sizes, grafo_componentes fuel g = .ok (cnt, comps, sizes)
      ∧ ∀ j : Nat, (j : Int) < cnt →
          ∃ s resto, comps.getD j [] = s :: resto ∧ 1 ≤ s ∧ s ≤ g.n
            ∧ (∀ a, 1 ≤ a → a < s → ∃ j1 : Nat, j1 < j ∧ a ∈ comps.getD j1 [])
            ∧ (∀ j1 : Nat, j1 < j → s ∉ comps.getD j1 [])
            ∧ (∀ a ∈ comps.getD j [], s ≤ a)
            ∧ (∀ j1 : Nat, j1 < j → ∃ s1 resto1, comps.getD j1 [] = s1 :: resto1 ∧ s1 < s) := by
  have hI := inv_alcancavel g h
  obtain ⟨t, he, hT, hG⟩ := comp_exec_ger g hI fuel hf
  refine ⟨t.comp_count, t.comps, t.sizes, by simp [grafo_componentes, he], ?_⟩
  intro j hj
  obtain ⟨s, resto, h1, h2, h3, h4, h5, h6⟩ := hG.ordem j hj
  have hs : s ∈ t.comps.getD j [] := by rw [h1]; exact List.mem_cons_self _ _
  refine ⟨s, resto, h1, h2, (h4 s hs).2, h5, ?_, fun a ha => (h4 a ha).1, h6⟩
  intro j1 hj1
  exact (hG.disj j hj).2 j1 hj1 s hs

theorem C11_witness :
    Alcancavel ex_dir3 ∧ ex_dir3.n.toNat ≤ 3
    ∧ ∃ cnt comps sizes, grafo_componentes 3 ex_dir3 = .ok (cnt, comps, sizes)
      ∧ ∀ j : Nat, (j : Int) < cnt →
          ∃ s resto, comps.getD j [] = s :: resto ∧ 1 ≤ s ∧ s ≤ ex_dir3.n
            ∧ (∀ a, 1 ≤ a → a < s → ∃ j1 : Nat, j1 < j ∧ a ∈ comps.getD j1 [])
            ∧ (∀ j1 : Nat, j1 < j → s ∉ comps.getD j1 [])
            ∧ (∀ a ∈ comps.getD j [], s ≤ a)
            ∧ (∀ j1 : Nat, j1 < j → ∃ s1 resto1, comps.getD j1 [] = s1 :: resto1 ∧ s1 < s) :=
  ⟨ex_dir3_alcancavel, by decide,
    C11_componentes_ordenados ex_dir3 3 ex_dir3_alcancavel (by decide)⟩

theorem C13_witness :
    ((4 : Int) < 1 ∨ (4 : Int) > ex_lista3.n) ∧ grafo_bfs 7 ex_lista3 4 = .error .oob :=
  ⟨by decide, C13_bfs_sem_guarda.1 ex_lista3 4 7 (by decide)⟩

theorem C19_witness : 2 ≤ 9 ∧ grafo_dfs 9 ex_k5 1 = .error .oob :=
  ⟨by decide, C19_dfs_estoura_pilha.2.2.1 9 (by decide)⟩

/-! ## The stack of `grafo_dfs` -/

theorem dfs_laco_passo (g : Grafo) (k : Nat) (st : DfsEstado) :
    dfs_laco g (k + 1) st
      = if st.sp > 0 then dfs_passo g st >>= dfs_laco g k else pure st := by
  simp only [dfs_laco, dfs_passo]
  split
  · cases hrd : rd st.stack (st.sp - 1) with
    | error e => rfl
    | ok u =>
      simp only [ok_bind]
      cases hb : rd st.vis u with
      | error e => rfl
      | ok b =>
        simp only [ok_bind]
        split
        · rfl
        · cases hw : wr st.vis u 1 with
          | error e => rfl
          | ok vis => rfl
  · rfl

theorem dfs_exec_inicio (fuel : Nat) (g : Grafo) (inicio : Int) :
    dfs_exec fuel g inicio = dfs_inicio g inicio >>= dfs_laco g fuel := by
  simp only [dfs_exec, dfs_inicio]
  cases wr (List.replicate g.n.toNat (0 : Int)) 0 (inicio - 1) with
  | error e => rfl
  | ok s1 =>
    simp only [ok_bind]
    cases wr (List.replicate g.n.toNat (-1 : Int)) (inicio - 1) 0 with
    | error e => rfl
    | ok n1 =>
      simp only [ok_bind]
      cases wr (List.replicate g.n.toNat (0 : Int)) (inicio - 1) (-1) with
      | error e => rfl
      | ok p1 => rfl

/-- C21 (what the code does): the stack of `grafo_dfs` can be asked to hold more than `n`
entries.  On the complete graph on five vertices started at vertex `1` (list or matrix) the
first pass of the loop pops the start and pushes `2,3,4,5` (`sp = 4`); the second pass pops
vertex `5` (`sp = 3`) and pushes the still unvisited `2` and `3` again (`sp = 5 = n`, the
stack is full), and its next push `stack[sp++] = 3` is the write `stack[5]` outside the
five-slot buffer.  So the second pass, and with it every run of `grafo_dfs` from there, ends
in an out-of-bounds write. -/
theorem C21_pilha_excede_n :
    Alcancavel ex_k5 ∧ ex_k5.n = 5
      ∧ dfs_inicio ex_k5 1
          = .ok (DfsEstado.mk [-1, 0, 0, 0, 0] [0, -1, -1, -1, -1] [0, 0, 0, 0, 0]
              [0, 0, 0, 0, 0] 1)
      ∧ dfs_passo ex_k5 (DfsEstado.mk [-1, 0, 0, 0, 0] [0, -1, -1, -1, -1] [0, 0, 0, 0, 0]
            [0, 0, 0, 0, 0] 1)
          = .ok (DfsEstado.mk [-1, 1, 1, 1, 1] [0, 1, 1, 1, 1] [1, 0, 0, 0, 0]
              [1, 2, 3, 4, 0] 4)
      ∧ (dfs_visita 4 1 (DfsEstado.mk [-1, 1, 1, 1, 1] [0, 1, 1, 1, 1] [1, 0, 0, 0, 1]
            [1, 2, 3, 4, 0] 3) >>= dfs_visita 4 2)
          = .ok (DfsEstado.mk [-1, 5, 5, 1, 1] [0, 2, 2, 1, 1] [1, 0, 0, 0, 1]
              [1, 2, 3, 1, 2] 5)
      ∧ wr [(1 : Int), 2, 3, 1, 2] 5 3 = .error .oob
      ∧ dfs_visita 4 3 (DfsEstado.mk [-1, 5, 5, 1, 1] [0, 2, 2, 1, 1] [1, 0, 0, 0, 1]
            [1, 2, 3, 1, 2] 5) = .error .oob
      ∧ dfs_passo ex_k5 (DfsEstado.mk [-1, 1, 1, 1, 1] [0, 1, 1, 1, 1] [1, 0, 0, 0, 0]
            [1, 2, 3, 4, 0] 4) = .error .oob
      ∧ (∀ fuel, 2 ≤ fuel → dfs_exec fuel ex_k5 1 = .error .oob)
      ∧ (construir 5 .REP_MATRIX 0 k5_arestas).map (fun g => dfs_exec 9 g 1)
          = some (.error .oob) := by
  have h0 : dfs_inicio ex_k5 1
      = .ok (DfsEstado.mk [-1, 0, 0, 0, 0] [0, -1, -1, -1, -1] [0, 0, 0, 0, 0]
          [0, 0, 0, 0, 0] 1) := by decide
  have h1 : dfs_passo ex_k5 (DfsEstado.mk [-1, 0, 0, 0, 0] [0, -1, -1, -1, -1]
      [0, 0, 0, 0, 0] [0, 0, 0, 0, 0] 1)
      = .ok (DfsEstado.mk [-1, 1, 1, 1, 1] [0, 1, 1, 1, 1] [1, 0, 0, 0, 0]
          [1, 2, 3, 4, 0] 4) := by decide
  have h2 : dfs_passo ex_k5 (DfsEstado.mk [-1, 1, 1, 1, 1] [0, 1, 1, 1, 1] [1, 0, 0, 0, 0]
      [1, 2, 3, 4, 0] 4) = .error .oob := by decide
  refine ⟨construir_alcancavel _ _ _ _ _ ex_k5_construido, rfl, h0, h1, by decide, by decide,
    by decide, h2, ?_, by decide⟩
  intro fuel hf
  obtain ⟨k, rfl⟩ : ∃ k, fuel = k + 2 := ⟨fuel - 2, by omega⟩
  rw [dfs_exec_inicio, h0]
  simp only [ok_bind]
  rw [dfs_laco_passo, if_pos (by decide), h1]
  simp only [ok_bind]
  rw [dfs_laco_passo, if_pos (by decide), h2]
  rfl

theorem C21_witness : 2 ≤ 7 ∧ dfs_exec 7 ex_k5 1 = .error .oob :=
  ⟨by decide, C21_pilha_excede_n.2.2.2.2.2.2.2.2.1 7 (by decide)⟩

/-! ## The queue of `grafo_bfs` -/

theorem bfs_exec_inicio (fuel : Nat) (g : Grafo) (inicio : Int) :
    bfs_exec fuel g inicio = bfs_inicio g inicio >>= bfs_laco g fuel 0 := by
  simp only [bfs_exec, bfs_inicio]
  cases wr (List.replicate g.n.toNat (0 : Int)) 0 (inicio - 1) with
  | error e => rfl
  | ok s1 =>
    simp only [ok_bind]
    cases wr (List.replicate g.n.toNat (-1 : Int)) (inicio - 1) 0 with
    | error e => rfl
    | ok n1 =>
      simp only [ok_bind]
      cases wr (List.replicate g.n.toNat (0 : Int)) (inicio - 1) (-1) with
      | error e => rfl
      | ok p1 => rfl

theorem bfs_laco_apos (g : Grafo) :
    ∀ (k : Nat) (qh : Int) (st : BfsEstado),
      bfs_laco g k qh st
        = bfs_apos g k qh st >>= fun c =>
            if c.1 < c.2.qt then .error .fuel else pure c.2 := by
  intro k
  induction k with
  | zero =>
    intro qh st
    simp only [bfs_laco, bfs_apos, pure_ok, ok_bind]
  | succ k ih =>
    intro qh st
    simp only [bfs_laco, bfs_apos, bfs_passo]
    by_cases hlt : qh < st.qt
    · simp only [hlt, if_true]
      cases rd st.q qh with
      | error e => rfl
      | ok u =>
        simp only [ok_bind]
        cases varre g u (bfs_visita u) st with
        | error e => rfl
        | ok st1 =>
          simp only [ok_bind, pure_ok]
          exact ih (qh + 1) st1
    · simp only [hlt, if_false, pure_ok, ok_bind]

theorem bfs_passo_spec (g : Grafo) (hI : Inv g) (S : Nat) (H : Nat) (st : BfsEstado)
    (hB : BfsInv g S st) (hT : BfsTopo g st H) (hlt : (H : Int) < st.qt) :
    ∃ st1, bfs_passo g (H : Int) st = .ok (((H + 1 : Nat) : Int), st1) ∧ BfsInv g S st1
      ∧ BfsTopo g st1 (H + 1) := by
  obtain ⟨u, hrd, hM⟩ := bfs_topo_meio g S st H hB hT hlt
  have huQ : u ∈ fila_q st := List.getElem?_mem hM.u_eq
  obtain ⟨hu0, hun⟩ := hB.q_range u huQ
  have hue : u = ((u.toNat : Nat) : Int) := by omega
  have hunat : u.toNat < g.n.toNat := by omega
  have hws : ∀ w ∈ viz_lista g u.toNat, vizinho g (u + 1) ((w : Int) + 1) := by
    intro w hw
    obtain ⟨hwn, harc⟩ := (mem_viz_lista g hI u.toNat hunat w).1 hw
    refine ⟨by omega, by omega, by omega, by omega, ?_⟩
    simpa using harc
  obtain ⟨st1, he1, hB1, hM1, -, hall⟩ := bfs_varre_spec g S H u _ hws st hB hM
  have hvar : varre g u (bfs_visita u) st = .ok st1 := by
    rw [hue, varre_eq g hI u.toNat hunat, ← hue]
    exact he1
  have hT1 : BfsTopo g st1 (H + 1) := by
    apply bfs_meio_topo g S st1 H u hB1 hM1
    intro w hv
    obtain ⟨-, -, hw0, hwn⟩ := vizinho_range g u w hv
    have hwe : w = ((w.toNat : Nat) : Int) := by omega
    rw [hwe]
    apply hall
    rw [mem_viz_lista g hI u.toNat hunat]
    refine ⟨by omega, ?_⟩
    have := hv.2.2.2.2
    simpa using this
  refine ⟨st1, ?_, hB1, hT1⟩
  simp only [bfs_passo, hrd, ok_bind, hvar, pure_ok]
  have : ((H + 1 : Nat) : Int) = (H : Int) + 1 := by push_cast; rfl
  rw [this]

theorem bfs_apos_spec (g : Grafo) (hI : Inv g) (S : Nat) :
    ∀ (k H : Nat) (st : BfsEstado), BfsInv g S st → BfsTopo g st H →
      ∃ (H1 : Nat) (st1 : BfsEstado), bfs_apos g k (H : Int) st = .ok ((H1 : Int), st1)
        ∧ BfsInv g S st1 ∧ BfsTopo g st1 H1 ∧ H1 ≤ H + k
        ∧ (H1 = H + k ∨ (H1 : Int) = st1.qt) := by
  intro k
  induction k with
  | zero =>
    intro H st hB hT
    exact ⟨H, st, rfl, hB, hT, le_refl _, Or.inl rfl⟩
  | succ k ih =>
    intro H st hB hT
    by_cases hlt : (H : Int) < st.qt
    · obtain ⟨st1, he1, hB1, hT1⟩ := bfs_passo_spec g hI S H st hB hT hlt
      obtain ⟨H2, st2, he2, hB2, hT2, hle, hou⟩ := ih (H + 1) st1 hB1 hT1
      refine ⟨H2, st2, ?_, hB2, hT2, by omega, ?_⟩
      · simp only [bfs_apos, hlt, if_true, he1, ok_bind]
        exact he2
      · rcases hou with h | h
        · exact Or.inl (by omega)
        · exact Or.inr h
    · have h1 := hT.h_le
      refine ⟨H, st, by simp only [bfs_apos, hlt, if_false, pure_ok], hB, hT, by omega,
        Or.inr (by omega)⟩

theorem bfs_inicio_spec (g : Grafo) (S : Nat) (hS : S < g.n.toNat) :
    ∃ st0, bfs_inicio g ((S : Int) + 1) = .ok st0 ∧ BfsInv g S st0 ∧ BfsTopo g st0 0
      ∧ st0.qt = 1 := by
  obtain ⟨q1, nivel1, pai1, h1, h2, h3, hB0, hT0⟩ := bfs_inicial g S hS
  refine ⟨BfsEstado.mk pai1 nivel1 q1 1, ?_, hB0, hT0, rfl⟩
  unfold bfs_inicio
  simp only [h1, h2, h3, ok_bind, pure_ok]

/-- C23: on every reachable graph and every start in `1..n`, at every point of the loop of
`grafo_bfs` (after any number `k` of passes) the run has made no access outside its arrays,
at most `k` vertices have been dequeued, `qh ≤ qt ≤ n` with the queue buffer of `n` slots,
and the written part `q[0..qt)` of the queue holds vertices of the graph without repetition:
each vertex is enqueued at most once.  After `n` passes at the latest the loop has ended
(`qh = qt`), and `grafo_bfs` returns with the arrays reached there. -/
theorem C23_bfs_fila_limitada (g : Grafo) (h : Alcancavel g) (inicio : Int)
    (h1 : 1 ≤ inicio) (h2 : inicio ≤ g.n) :
    ∃ st0, bfs_inicio g inicio = .ok st0
      ∧ ∀ k : Nat, ∃ (qh : Nat) (st : BfsEstado),
          bfs_apos g k 0 st0 = .ok ((qh : Int), st)
          ∧ qh ≤ k ∧ (qh : Int) ≤ st.qt ∧ 1 ≤ st.qt ∧ st.qt ≤ g.n
          ∧ st.q.length = g.n.toNat
          ∧ (fila_q st).Nodup ∧ (fila_q st).length = st.qt.toNat
          ∧ (∀ x ∈ fila_q st, 0 ≤ x ∧ x < g.n)
          ∧ (g.n.toNat ≤ k → (qh : Int) = st.qt ∧ bfs_exec k g inicio = .ok st
              ∧ grafo_bfs k g inicio = .ok (st.pai, st.nivel)) := by
  have hI := inv_alcancavel g h
  obtain ⟨S, hS⟩ : ∃ S : Nat, inicio = (S : Int) + 1 := ⟨(inicio - 1).toNat, by omega⟩
  subst hS
  have hSn : S < g.n.toNat := by omega
  obtain ⟨st0, h0, hB0, hT0, -⟩ := bfs_inicio_spec g S hSn
  refine ⟨st0, h0, ?_⟩
  intro k
  obtain ⟨H1, st1, he, hB1, hT1, hle, hou⟩ := bfs_apos_spec g hI S k 0 st0 hB0 hT0
  have hhl := hT1.h_le
  have hqn := hB1.qt_le
  have hlen := fila_q_length g S st1 hB1
  have hSq : (S : Int) ∈ fila_q st1 := by
    apply (hB1.vis_iff (S : Int) (by omega) (by omega)).1
    rw [hB1.s_zero]
    decide
  have hpos : 0 < (fila_q st1).length := List.length_pos_of_mem hSq
  have he0 : bfs_apos g k 0 st0 = .ok ((H1 : Int), st1) := by
    have := he
    simpa using this
  refine ⟨H1, st1, he0, by omega, hhl, by omega, hqn, hB1.q_len, hB1.q_nodup, hlen,
    hB1.q_range, ?_⟩
  intro hk
  have hfim : (H1 : Int) = st1.qt := by
    rcases hou with h | h
    · omega
    · exact h
  have hex : bfs_exec k g ((S : Int) + 1) = .ok st1 := by
    rw [bfs_exec_inicio, h0]
    simp only [ok_bind]
    rw [bfs_laco_apos, he0]
    simp only [ok_bind]
    rw [if_neg (by omega)]
    rfl
  refine ⟨hfim, hex, ?_⟩
  simp [grafo_bfs, hex]

theorem C23_witness :
    Alcancavel ex_k5 ∧ (1 : Int) ≤ 1 ∧ (1 : Int) ≤ ex_k5.n
    ∧ ∃ st0, bfs_inicio ex_k5 1 = .ok st0
      ∧ ∀ k : Nat, ∃ (qh : Nat) (st : BfsEstado),
          bfs_apos ex_k5 k 0 st0 = .ok ((qh : Int), st)
          ∧ qh ≤ k ∧ (qh : Int) ≤ st.qt ∧ 1 ≤ st.qt ∧ st.qt ≤ ex_k5.n
          ∧ st.q.length = ex_k5.n.toNat
          ∧ (fila_q st).Nodup ∧ (fila_q st).length = st.qt.toNat
          ∧ (∀ x ∈ fila_q st, 0 ≤ x ∧ x < ex_k5.n)
          ∧ (ex_k5.n.toNat ≤ k → (qh : Int) = st.qt ∧ bfs_exec k ex_k5 1 = .ok st
              ∧ grafo_bfs k ex_k5 1 = .ok (st.pai, st.nivel)) :=
  ⟨construir_alcancavel _ _ _ _ _ ex_k5_construido, by decide, by decide,
    C23_bfs_fila_limitada ex_k5 (construir_alcancavel _ _ _ _ _ ex_k5_construido) 1
      (by decide) (by decide)⟩

/-! ## The returned components as a partition -/

theorem soma_tamanhos (comps : List (List Int)) (sizes : List Int) :
    ∀ c : Nat, c ≤ comps.length → c ≤ sizes.length →
      (∀ j : Nat, j < c → sizes.getD j 0 = ((comps.getD j []).length : Int)) →
      (sizes.take c).sum = (((comps.take c).flatten).length : Int) := by
  intro c
  induction c with
  | zero => intro _ _ _; simp
  | succ c ih =>
    intro h1 h2 h
    have hc1 : c < comps.length := by omega
    have hc2 : c < sizes.length := by omega
    rw [List.take_succ, List.take_succ, List.sum_append, List.flatten_append,
      List.length_append, ih (by omega) (by omega) (fun j hj => h j (by omega))]
    have e := h c (by omega)
    rw [List.getD_eq_getElem _ _ hc1, List.getD_eq_getElem _ _ hc2] at e
    rw [List.getElem?_eq_getElem hc1, List.getElem?_eq_getElem hc2]
    simp [e]

theorem flatten_particao (L : List (List Int)) (n : Int) (hn : 0 ≤ n)
    (hnd : ∀ l ∈ L, l.Nodup)
    (hdis : ∀ (i j : Nat) (hi : i < L.length) (hj : j < L.length), i < j →
      ∀ a ∈ L[j], a ∉ L[i])
    (hmem : ∀ a : Int, (∃ l ∈ L, a ∈ l) ↔ (1 ≤ a ∧ a ≤ n)) :
    (L.flatten.length : Int) = n := by
  have hN : L.flatten.Nodup := by
    rw [List.nodup_flatten]
    refine ⟨hnd, ?_⟩
    rw [List.pairwise_iff_getElem]
    intro i j hi hj hij a hai haj
    exact hdis i j hi hj hij a haj hai
  have hF : L.flatten.toFinset = Finset.Icc 1 n := by
    ext a
    rw [List.mem_toFinset, List.mem_flatten, Finset.mem_Icc]
    exact hmem a
  have hc := List.toFinset_card_of_nodup hN
  rw [hF, Int.card_Icc] at hc
  omega

/-- C22: on every reachable graph (either representation, directed or not)
`grafo_componentes` returns (any fuel `≥ n` is enough) a partition of the vertex set: the
count is between `1` and `n`; every member of a returned component is a vertex id in `1..n`;
every vertex id in `1..n` is a member of exactly one returned component and occurs exactly
once in it; `sizes[j]` is the number of members of component `j`, and the sizes sum to
`n`. -/
theorem C22_componentes_particao (g : Grafo) (fuel : Nat) (h : Alcancavel g)
    (hf : g.n.toNat ≤ fuel) :
    ∃ cnt comps sizes, grafo_componentes fuel g = .ok (cnt, comps, sizes)
      ∧ 1 ≤ cnt ∧ cnt ≤ g.n
      ∧ (∀ j : Nat, (j : Int) < cnt → ∀ a ∈ comps.getD j [], 1 ≤ a ∧ a ≤ g.n)
      ∧ (∀ v, 1 ≤ v → v ≤ g.n →
          ∃ j : Nat, (j : Int) < cnt ∧ v ∈ comps.getD j []
            ∧ (comps.getD j []).count v = 1
            ∧ ∀ j1 : Nat, (j1 : Int) < cnt → v ∈ comps.getD j1 [] → j1 = j)
      ∧ (∀ j : Nat, (j : Int) < cnt → sizes[j]? = some ((comps.getD j []).length : Int))
      ∧ (sizes.take cnt.toNat).sum = g.n := by
  have hI := inv_alcancavel g h
  obtain ⟨t, he, hT, hG⟩ := comp_exec_ger g hI fuel hf
  have hcl := hT.comps_len
  have hsl := hT.sizes_len
  have hc0 := hT.cnt_nonneg
  have hcle := hT.cnt_le
  have hnp := hI.n_pos
  have hmem := mem_comps_de t (by omega)
  have hfaixa : ∀ j : Nat, (j : Int) < t.comp_count → ∀ a ∈ t.comps.getD j [],
      1 ≤ a ∧ a ≤ g.n := by
    intro j hj a ha
    obtain ⟨s, resto, -, hs1, -, h4, -, -⟩ := hG.ordem j hj
    have := h4 a ha
    omega
  have hcobre : ∀ v, 1 ≤ v → v ≤ g.n →
      ∃ j : Nat, (j : Int) < t.comp_count ∧ v ∈ t.comps.getD j [] := by
    intro v hv1 hv2
    have hvis : vis_de t.vis (v - 1) ≠ 0 := hT.visto (v - 1) (by omega) (by omega)
    obtain ⟨c, hc, hvc⟩ := (hT.cobre (v - 1) (by omega) (by omega)).1 hvis
    obtain ⟨j, hj, hjc⟩ := (hmem c).1 hc
    exact ⟨j, hj, by rw [hjc]; simpa using hvc⟩
  have huma : ∀ (a : Int) (j j1 : Nat), (j : Int) < t.comp_count →
      (j1 : Int) < t.comp_count →
      a ∈ t.comps.getD j [] → a ∈ t.comps.getD j1 [] → j = j1 := by
    intro a j j1 hj hj1 ha ha1
    rcases Nat.lt_trichotomy j j1 with hlt | heq | hgt
    · exact absurd ha ((hG.disj j1 hj1).2 j hlt a ha1)
    · exact heq
    · exact absurd ha1 ((hG.disj j hj).2 j1 hgt a ha)
  obtain ⟨j0, hj0, -⟩ := hcobre 1 (le_refl _) (by omega)
  refine ⟨t.comp_count, t.comps, t.sizes, by simp [grafo_componentes, he], by omega,
    by omega, hfaixa, ?_, ?_, ?_⟩
  · intro v hv1 hv2
    obtain ⟨j, hj, hv⟩ := hcobre v hv1 hv2
    exact ⟨j, hj, hv, List.count_eq_one_of_mem (hG.disj j hj).1 hv,
      fun j1 hj1 hv1 => huma v j1 j hj1 hj hv1 hv⟩
  · intro j hj
    rw [getElem?_getD t.sizes j 0 (by omega), hT.tamanhos j hj]
  · rw [soma_tamanhos t.comps t.sizes t.comp_count.toNat (by omega) (by omega)
      (fun j hj => hT.tamanhos j (by omega))]
    have hlenL : (t.comps.take t.comp_count.toNat).length = t.comp_count.toNat := by
      rw [List.length_take]; omega
    have hget : ∀ (i : Nat) (hi : i < (t.comps.take t.comp_count.toNat).length),
        (t.comps.take t.comp_count.toNat)[i] = t.comps.getD i [] := by
      intro i hi
      rw [List.getElem_take, List.getD_eq_getElem _ _ (by omega)]
    apply flatten_particao _ g.n (by omega)
    · intro l hl
      obtain ⟨j, hj, hjl⟩ := (hmem l).1 hl
      rw [← hjl]
      exact (hG.disj j hj).1
    · intro i j hi hj hij a ha
      rw [hget] at ha ⊢
      exact (hG.disj j (by omega)).2 i hij a ha
    · intro a
      constructor
      · rintro ⟨l, hl, hal⟩
        obtain ⟨j, hj, hjl⟩ := (hmem l).1 hl
        exact hfaixa j hj a (by rw [hjl]; exact hal)
      · rintro ⟨ha1, ha2⟩
        obtain ⟨j, hj, ha⟩ := hcobre a ha1 ha2
        exact ⟨_, (hmem _).2 ⟨j, hj, rfl⟩, ha⟩

theorem C22_witness :
    Alcancavel ex_dir3 ∧ ex_dir3.n.toNat ≤ 3
    ∧ ∃ cnt comps sizes, grafo_componentes 3 ex_dir3 = .ok (cnt, comps, sizes)
      ∧ 1 ≤ cnt ∧ cnt ≤ ex_dir3.n
      ∧ (∀ j : Nat, (j : Int) < cnt → ∀ a ∈ comps.getD j [], 1 ≤ a ∧ a ≤ ex_dir3.n)
      ∧ (∀ v, 1 ≤ v → v ≤ ex_dir3.n →
          ∃ j : Nat, (j : Int) < cnt ∧ v ∈ comps.getD j []
            ∧ (comps.getD j []).count v = 1
            ∧ ∀ j1 : Nat, (j1 : Int) < cnt → v ∈ comps.getD j1 [] → j1 = j)
      ∧ (∀ j : Nat, (j : Int) < cnt → sizes[j]? = some ((comps.getD j []).length : Int))
      ∧ (sizes.take cnt.toNat).sum = ex_dir3.n :=
  ⟨ex_dir3_alcancavel, by decide,
    C22_componentes_particao ex_dir3 3 ex_dir3_alcancavel (by decide)⟩

end GA
